import Mathlib

/-!
Verification of the TinyBasic interpreter (src/main.c) against its
natural-language specification.

The C program is shallowly embedded.  The 8192-byte static code memory is
a total function `Nat → Nat` from byte index to byte value (the array is
zero-initialised, and stays zero wherever it has not been written);
machine integers (`var_t = int32_t`) are represented by their unsigned
32-bit bit patterns (`Nat` values below `2^32`) with explicit wrap-around;
the expression workspace is a 64-slot list of token records together with
a live-token count; the character I/O port is a pair of byte lists
(pending input, produced output).  Loops of the C source become
structurally recursive functions; scanning loops whose exit depends only
on memory contents carry a fuel of `CODE_MEMORY_SIZE + 1`, which a scan
can exhaust only by walking past the whole array — behaviour that is
undefined in the C program (out-of-bounds reads) and is not relied on by
any theorem below.
-/

/-! ## Byte classification (ctype.h, C locale, ASCII) -/

/-- C `isdigit`. -/
def isdigitB (c : Nat) : Bool := 48 ≤ c && c ≤ 57

/-- C `isalpha`. -/
def isalphaB (c : Nat) : Bool := (65 ≤ c && c ≤ 90) || (97 ≤ c && c ≤ 122)

/-- C `isalnum`. -/
def isalnumB (c : Nat) : Bool := isdigitB c || isalphaB c

/-- C `isblank` (space or horizontal tab). -/
def isblankB (c : Nat) : Bool := c = 32 || c = 9

/-- C `isxdigit`. -/
def isxdigitB (c : Nat) : Bool := isdigitB c || (65 ≤ c && c ≤ 70) || (97 ≤ c && c ≤ 102)

/-- C `toupper`. -/
def toupperB (c : Nat) : Nat := if 97 ≤ c ∧ c ≤ 122 then c - 32 else c

/-! ## 32-bit two's-complement arithmetic on bit patterns -/

/-- `2^32`; `var_t = int32_t` values are modelled by their bit patterns in `[0, W)`. -/
def W : Nat := 4294967296

/-- Signed reading of a 32-bit pattern. -/
def toSigned (x : Nat) : Int := if x < 2147483648 then (x : Int) else (x : Int) - (W : Int)

/-- Pattern of an integer, reduced modulo `2^32`. -/
def ofInt (z : Int) : Nat := (z % (W : Int)).toNat

/-- `+` on `int32_t` (wrap-around). -/
def add32 (a b : Nat) : Nat := (a + b) % W

/-- Binary `-` on `int32_t` (wrap-around). -/
def sub32 (a b : Nat) : Nat := ofInt ((a : Int) - (b : Int))

/-- `*` on `int32_t` (wrap-around). -/
def mul32 (a b : Nat) : Nat := (a * b) % W

/-- `/` on `int32_t`: C signed division truncates toward zero. -/
def div32 (a b : Nat) : Nat := ofInt ((toSigned a).tdiv (toSigned b))

/-- `%` on `int32_t`: C signed remainder (truncated). -/
def rem32 (a b : Nat) : Nat := ofInt ((toSigned a).tmod (toSigned b))

/-- `&` on `int32_t` (bitwise, identical on patterns). -/
def and32 (a b : Nat) : Nat := a &&& b

/-- `|` on `int32_t`. -/
def or32 (a b : Nat) : Nat := a ||| b

/-- `^` on `int32_t`. -/
def xor32 (a b : Nat) : Nat := a ^^^ b

/-- `~` on `int32_t` (bitwise complement = xor with all ones). -/
def inv32 (a : Nat) : Nat := a ^^^ (W - 1)

/-- `value *= -1` on `int32_t` (two's-complement negation, wrap-around). -/
def neg32 (a : Nat) : Nat := ofInt (- (a : Int))

/-! ## Code memory representation -/

/-- The code memory byte array, as a total function from index to byte. -/
def Mem : Type := Nat → Nat

def EXPR_MAX_TOKENS : Nat := 64

def CODE_MEMORY_SIZE : Nat := 8192

def MAX_LINENUM : Nat := 10000

/-- Fuel that a memory scan can exhaust only by walking past the whole
8192-byte array (undefined behaviour in the C program). -/
def SCAN_FUEL : Nat := CODE_MEMORY_SIZE + 1

/-- Write one byte: `codemem[i] = v`. -/
def setByte (mem : Mem) (i v : Nat) : Mem := fun j => if j = i then v else mem j

/-- A `List Nat` viewed as memory contents starting at index 0 (bytes
past the end read 0, like the zero-initialised array). -/
def memOfBytes (l : List Nat) : Mem := fun i => l.getD i 0

/-- Write the byte list `l` at `[pos, pos + |l|)`. -/
def writeBytes (mem : Mem) (pos : Nat) (l : List Nat) : Mem :=
  fun j => if pos ≤ j ∧ j < pos + l.length then l.getD (j - pos) 0 else mem j

/-! ## Expression tokens (enum EExprTokens, struct ExprToken) -/

def ET_NONE : Nat := 0
def ET_VALUE : Nat := 1
def ET_ADD : Nat := 2
def ET_SUBTRACT : Nat := 3
def ET_MULTIPLY : Nat := 4
def ET_DIVIDE : Nat := 5
def ET_REMAINDER : Nat := 6
def ET_AND : Nat := 7
def ET_OR : Nat := 8
def ET_XOR : Nat := 9
def ET_INVERT : Nat := 10
def ET_SUBEXPR_OPEN : Nat := 11
def ET_SUBEXPR_CLOSE : Nat := 12
def ET_SUBEXPR : Nat := 4

/-- `struct ExprToken { uint8_t type; uint8_t precedence; var_t value; }`. -/
structure ExprToken where
  type : Nat
  precedence : Nat
  value : Nat
deriving Repr, DecidableEq

instance : Inhabited ExprToken := ⟨⟨0, 0, 0⟩⟩

/-- Read a workspace slot (the C array `expr_tokens`; always 64 slots long). -/
def getTok (ws : List ExprToken) (i : Nat) : ExprToken := ws.getD i ⟨0, 0, 0⟩

/-- The zero-initialised workspace of a freshly started interpreter. -/
def freshWs : List ExprToken := List.replicate 64 ⟨0, 0, 0⟩

/-! ## Numeric literal reader (`get_literal_number`) -/

/-- Length of the maximal alphanumeric run at `i`
(C: `while (isalnum(codemem[index])) index++`); `len` counts the steps. -/
def alnumRunAux (mem : Mem) : Nat → Nat → Nat → Nat
  | 0, _, len => len
  | fuel + 1, i, len => if isalnumB (mem i) then alnumRunAux mem fuel (i + 1) (len + 1) else len

def alnumRun (mem : Mem) (i : Nat) : Nat := alnumRunAux mem SCAN_FUEL i 0

/-- The length scan of `get_literal_number`:
`while (isalnum(codemem[index + length]) && index + length < newline_end) length++`. -/
def litScanAux (mem : Mem) (nlend : Nat) : Nat → Nat → Nat → Nat
  | 0, _, len => len
  | fuel + 1, i, len =>
      if isalnumB (mem i) ∧ i < nlend then litScanAux mem nlend fuel (i + 1) (len + 1) else len

def litScanLen (mem : Mem) (nlend i : Nat) : Nat := litScanAux mem nlend SCAN_FUEL i 0

/-- The binary-digit loop of `get_literal_number`; `none` models `*error = true`. -/
def binDigitsAux (mem : Mem) : Nat → Nat → Nat → Option Nat
  | 0, _, acc => some acc
  | fuel + 1, i, acc =>
      let c := mem i
      if isdigitB c then
        if c - 48 > 1 then none
        else binDigitsAux mem fuel (i + 1) ((acc * 2 + (c - 48)) % W)
      else some acc

/-- The hex-digit loop; the C check `digit > 16` can never fire but is kept. -/
def hexDigitsAux (mem : Mem) : Nat → Nat → Nat → Option Nat
  | 0, _, acc => some acc
  | fuel + 1, i, acc =>
      let c := mem i
      if isxdigitB c then
        let d0 := toupperB c
        let d := d0 - (if d0 > 57 then 55 else 48)
        if d > 16 then none
        else hexDigitsAux mem fuel (i + 1) ((acc * 16 + d) % W)
      else some acc

/-- The octal-digit loop. -/
def octDigitsAux (mem : Mem) : Nat → Nat → Nat → Option Nat
  | 0, _, acc => some acc
  | fuel + 1, i, acc =>
      let c := mem i
      if isdigitB c then
        if c - 48 > 7 then none
        else octDigitsAux mem fuel (i + 1) ((acc * 8 + (c - 48)) % W)
      else some acc

/-- The decimal-digit loop (never errors). -/
def decDigitsAux (mem : Mem) : Nat → Nat → Nat → Nat
  | 0, _, acc => acc
  | fuel + 1, i, acc =>
      let c := mem i
      if isdigitB c then decDigitsAux mem fuel (i + 1) ((acc * 10 + (c - 48)) % W)
      else acc

/-- `get_literal_number(index, &error)`: `none` models `*error == true`,
`some v` the returned value with `*error == false`.  Accumulation wraps
modulo `2^32` (two's-complement `var_t` arithmetic). -/
def get_literal_number (mem : Mem) (nlend index : Nat) : Option Nat :=
  let length := litScanLen mem nlend index
  if length > 2 ∧ mem index = 48 ∧ mem (index + 1) = 98 then
    binDigitsAux mem SCAN_FUEL (index + 2) 0
  else if length > 2 ∧ mem index = 48 ∧ mem (index + 1) = 120 then
    hexDigitsAux mem SCAN_FUEL (index + 2) 0
  else if length > 1 ∧ mem index = 48 then
    octDigitsAux mem SCAN_FUEL (index + 1) 0
  else
    some (decDigitsAux mem SCAN_FUEL index 0)

/-! ## Tokenizer (`expr_tokenize`) -/

/-- The `switch (codemem[index])` of `expr_tokenize`: the token type of an
operator byte, `ET_NONE` for an invalid byte (blanks are handled before). -/
def opTokenType (c : Nat) : Nat :=
  if c = 43 then ET_ADD
  else if c = 45 then ET_SUBTRACT
  else if c = 42 then ET_MULTIPLY
  else if c = 47 then ET_DIVIDE
  else if c = 37 then ET_REMAINDER
  else if c = 38 then ET_AND
  else if c = 124 then ET_OR
  else if c = 94 then ET_XOR
  else if c = 33 then ET_INVERT
  else if c = 40 then ET_SUBEXPR_OPEN
  else if c = 41 then ET_SUBEXPR_CLOSE
  else ET_NONE

/-- One pass of `expr_tokenize`; `vars` holds the 26 variable bit patterns.
The fuel is `length + 1` at the wrapper: every iteration advances `index`
by at least one, so the fuel cannot run out before `index ≥ endIdx`. -/
def expr_tokenize_aux (mem : Mem) (vars : Nat → Nat) (nlend endIdx : Nat) :
    Nat → Nat → List ExprToken → Nat → List ExprToken × Nat
  | 0, _, ws, count => (ws, count)
  | fuel + 1, index, ws, count =>
      if count = EXPR_MAX_TOKENS then (ws, count)
      else if index ≥ endIdx then (ws, count)
      else if isdigitB (mem index) then
        match get_literal_number mem nlend index with
        | none => (ws, EXPR_MAX_TOKENS)
        | some v =>
            expr_tokenize_aux mem vars nlend endIdx fuel (index + alnumRun mem index)
              (ws.set count ⟨ET_VALUE, 0, v⟩) (count + 1)
      else if isalphaB (mem index) then
        expr_tokenize_aux mem vars nlend endIdx fuel (index + 1)
          (ws.set count ⟨ET_VALUE, 0, vars (toupperB (mem index) - 65)⟩) (count + 1)
      else if mem index = 32 ∨ mem index = 9 then
        expr_tokenize_aux mem vars nlend endIdx fuel (index + 1) ws count
      else if opTokenType (mem index) = ET_NONE then
        -- invalid byte: `expr_token_count = EXPR_MAX_TOKENS`, and the next
        -- iteration of the C loop exits without storing a token
        (ws, EXPR_MAX_TOKENS)
      else
        expr_tokenize_aux mem vars nlend endIdx fuel (index + 1)
          (ws.set count ⟨opTokenType (mem index), 0, 0⟩) (count + 1)

/-- `expr_tokenize(index, length)` acting on workspace `(ws, count)`. -/
def expr_tokenize (mem : Mem) (vars : Nat → Nat) (nlend index length : Nat)
    (ws : List ExprToken) (count : Nat) : List ExprToken × Nat :=
  expr_tokenize_aux mem vars nlend (index + length) (length + 1) index ws count
/-! ## Workspace erasure (`expr_erase`) -/

/-- The copy loop of `expr_erase`: `for (i = index; i < count - length; i++)`. -/
def expr_erase_aux (len : Nat) : Nat → Nat → List ExprToken → List ExprToken
  | _, 0, ws => ws
  | i, rem + 1, ws => expr_erase_aux len (i + 1) rem (ws.set i (getTok ws (i + len)))

/-- `expr_erase(index, length)`; the caller performs `count := count - length`. -/
def expr_erase (ws : List ExprToken) (count index length : Nat) : List ExprToken :=
  expr_erase_aux length index (count - length - index) ws

/-! ## Unary pass (`expr_reduce_unary`)

The C loop runs `i` from `expr_token_count` down to `1`; in its first
iteration it reads `expr_tokens[expr_token_count]`, one slot past the live
region, so the model keeps the whole 64-slot list.  The result triple is
(workspace, count, error flag). -/

def expr_reduce_unary_aux : Nat → List ExprToken → Nat → List ExprToken × Nat × Bool
  | 0, ws, count => (ws, count, false)
  | i + 1, ws, count =>
      let ti := getTok ws (i + 1)
      if ti.type = ET_SUBEXPR_OPEN then expr_reduce_unary_aux i ws count
      else if i + 1 > 1 ∧ (getTok ws (i + 1 - 2)).type = ET_VALUE then
        expr_reduce_unary_aux i ws count
      else if i + 1 > 1 ∧ (getTok ws (i + 1 - 2)).type = ET_SUBEXPR_CLOSE then
        expr_reduce_unary_aux i ws count
      else
        let tp := getTok ws i
        if tp.type = ET_ADD then
          if ti.type ≠ ET_VALUE then (ws, count, true)
          else expr_reduce_unary_aux i (expr_erase ws count i 1) (count - 1)
        else if tp.type = ET_SUBTRACT then
          if ti.type ≠ ET_VALUE then (ws, count, true)
          else
            expr_reduce_unary_aux i
              (expr_erase (ws.set (i + 1) ⟨ti.type, ti.precedence, neg32 ti.value⟩) count i 1)
              (count - 1)
        else if tp.type = ET_INVERT then
          if ti.type ≠ ET_VALUE then (ws, count, true)
          else
            expr_reduce_unary_aux i
              (expr_erase (ws.set (i + 1) ⟨ti.type, ti.precedence, inv32 ti.value⟩) count i 1)
              (count - 1)
        else expr_reduce_unary_aux i ws count

def expr_reduce_unary (ws : List ExprToken) (count : Nat) : List ExprToken × Nat × Bool :=
  expr_reduce_unary_aux count ws count

/-! ## Precedence assignment (`expr_calc_precedence`)

`base_precedence` is an `int8_t`: it wraps on overflow.  Stored
precedences are `uint8_t`: reduced modulo 256. -/

/-- Two's-complement wrap to `int8_t`. -/
def wrap8 (x : Int) : Int := (x + 128) % 256 - 128

/-- Stored `uint8_t` precedence from the `int` sum `base + p`. -/
def prec8 (base : Int) (p : Nat) : Nat := ((base + (p : Int)) % 256).toNat

def expr_calc_precedence_aux (count : Nat) : Nat → Nat → List ExprToken → Int →
    List ExprToken × Bool
  | 0, _, ws, base => (ws, decide (base ≠ 0))
  | fuel + 1, i, ws, base =>
      if i < count then
        let t := getTok ws i
        let (ws2, base2) :=
          if t.type = ET_AND ∨ t.type = ET_OR ∨ t.type = ET_XOR then
            (ws.set i ⟨t.type, prec8 base 1, t.value⟩, base)
          else if t.type = ET_ADD ∨ t.type = ET_SUBTRACT then
            (ws.set i ⟨t.type, prec8 base 2, t.value⟩, base)
          else if t.type = ET_MULTIPLY ∨ t.type = ET_DIVIDE ∨ t.type = ET_REMAINDER then
            (ws.set i ⟨t.type, prec8 base 3, t.value⟩, base)
          else if t.type = ET_SUBEXPR_OPEN then (ws, wrap8 (base + (ET_SUBEXPR : Int)))
          else if t.type = ET_SUBEXPR_CLOSE then (ws, wrap8 (base - (ET_SUBEXPR : Int)))
          else (ws, base)
        if base2 < 0 then (ws2, true)
        else expr_calc_precedence_aux count fuel (i + 1) ws2 base2
      else (ws, decide (base ≠ 0))

def expr_calc_precedence (ws : List ExprToken) (count : Nat) : List ExprToken × Bool :=
  expr_calc_precedence_aux count count 0 ws 0

/-! ## Bracket filter (`expr_filter_brackets`) -/

def expr_filter_aux (count : Nat) : Nat → Nat → Nat → List ExprToken → List ExprToken × Nat
  | 0, _, newindex, ws => (ws, newindex)
  | fuel + 1, index, newindex, ws =>
      if index < count then
        let t := getTok ws index
        if t.type ≠ ET_SUBEXPR_OPEN ∧ t.type ≠ ET_SUBEXPR_CLOSE then
          expr_filter_aux count fuel (index + 1) (newindex + 1) (ws.set newindex t)
        else expr_filter_aux count fuel (index + 1) newindex ws
      else (ws, newindex)

def expr_filter_brackets (ws : List ExprToken) (count : Nat) : List ExprToken × Nat :=
  expr_filter_aux count count 0 0 ws

/-! ## Single reduction step (`expr_reduce`, with `expr_reduce_check`) -/

/-- The highest-precedence scan: strict `>` keeps the leftmost maximum. -/
def expr_find_max_aux (ws : List ExprToken) (count : Nat) : Nat → Nat → Nat → Nat → Nat × Nat
  | 0, _, prec, index => (prec, index)
  | fuel + 1, i, prec, index =>
      if i < count then
        if (getTok ws i).precedence > prec then
          expr_find_max_aux ws count fuel (i + 1) (getTok ws i).precedence i
        else expr_find_max_aux ws count fuel (i + 1) prec index
      else (prec, index)

def expr_find_max (ws : List ExprToken) (count : Nat) : Nat × Nat :=
  expr_find_max_aux ws count count 0 0 0

/-- `expr_reduce_check(index)`: `true` means the operation is invalid. -/
def expr_reduce_check (ws : List ExprToken) (count index : Nat) : Bool :=
  if index = 0 ∨ index = count then true
  else if (getTok ws (index - 1)).type ≠ ET_VALUE then true
  else if (getTok ws (index + 1)).type ≠ ET_VALUE then true
  else false

/-- Apply the binary operation of token type `ty` to bit patterns. -/
def applyBin (ty : Nat) (a b : Nat) : Nat :=
  if ty = ET_MULTIPLY then mul32 a b
  else if ty = ET_DIVIDE then div32 a b
  else if ty = ET_REMAINDER then rem32 a b
  else if ty = ET_ADD then add32 a b
  else if ty = ET_SUBTRACT then sub32 a b
  else if ty = ET_AND then and32 a b
  else if ty = ET_OR then or32 a b
  else if ty = ET_XOR then xor32 a b
  else 0

/-- `expr_reduce()`: `none` models `return 1` (no mutation happens on any
error path of the C function); `some ws2` is the success case, in which
exactly two tokens were erased (the caller's count drops by 2). -/
def expr_reduce (ws : List ExprToken) (count : Nat) : Option (List ExprToken) :=
  let pi := expr_find_max ws count
  let prec := pi.1
  let index := pi.2
  if prec = 0 then none
  else
    let ty := (getTok ws index).type
    if ty = ET_MULTIPLY ∨ ty = ET_DIVIDE ∨ ty = ET_REMAINDER ∨ ty = ET_ADD ∨
        ty = ET_SUBTRACT ∨ ty = ET_AND ∨ ty = ET_OR ∨ ty = ET_XOR then
      if expr_reduce_check ws count index then none
      else
        let l := getTok ws (index - 1)
        let r := getTok ws (index + 1)
        some (expr_erase (ws.set (index - 1) ⟨l.type, l.precedence, applyBin ty l.value r.value⟩)
          count index 2)
    else none

/-- The solving loop of `expr_solve`: `while (expr_token_count > 1)`.
Each successful `expr_reduce` removes two tokens, so fuel `count` suffices. -/
def expr_solve_loop_aux : Nat → List ExprToken → Nat → List ExprToken × Nat × Bool
  | 0, ws, count => (ws, count, false)
  | fuel + 1, ws, count =>
      if count > 1 then
        match expr_reduce ws count with
        | none => (ws, count, true)
        | some ws2 => expr_solve_loop_aux fuel ws2 (count - 2)
      else (ws, count, false)

def expr_solve_loop (ws : List ExprToken) (count : Nat) : List ExprToken × Nat × Bool :=
  expr_solve_loop_aux count ws count

/-! ## `expr_solve` -/

/-- `expr_solve(index, length, &error)` as a pure function of the globals it
touches.  Result: (returned value pattern, error flag, final workspace,
final token count).  `expr_token_count` is reset to 0 on entry; the
workspace array contents are whatever the previous solve left (`ws0`). -/
def expr_solve_core (mem : Mem) (vars : Nat → Nat) (nlend index length : Nat)
    (ws0 : List ExprToken) : Nat × Bool × List ExprToken × Nat :=
  let t := expr_tokenize mem vars nlend index length ws0 0
  let ws1 := t.1
  let c1 := t.2
  if c1 = EXPR_MAX_TOKENS then (0, true, ws1, c1)
  else
    let u := expr_reduce_unary ws1 c1
    if u.2.2 then (0, true, u.1, u.2.1)
    else
      let p := expr_calc_precedence u.1 u.2.1
      if p.2 then (0, true, p.1, u.2.1)
      else
        let f := expr_filter_brackets p.1 u.2.1
        let s := expr_solve_loop f.1 f.2
        if s.2.2 then (0, true, s.1, s.2.1)
        else ((getTok s.1 0).value, false, s.1, s.2.1)


/-! ## Interpreter state

All C globals in one record.  The character I/O port is a pair of byte
lists: `input` (pending bytes for `GETCHAR`) and `output` (bytes written
so far by `PUTCHAR`, in order). -/

structure TBState where
  codemem : Mem
  codemem_end : Nat
  newline_ind : Nat
  newline_end : Nat
  vars : Nat → Nat
  expr_ws : List ExprToken
  expr_count : Nat
  current_line : Nat
  input : List Nat
  output : List Nat

/-- ASCII bytes of a string literal. -/
def strBytes (s : String) : List Nat := s.data.map Char.toNat

/-! Printable strings of the source (configuration `SHORT_STRING == 0`). -/

def str_lf : List Nat := [10]
def str_space : List Nat := [32]
def str_screen_clear : List Nat := [27, 91, 50, 74, 27, 91, 72]
def str_memory_free : List Nat := strBytes (" bytes free")
def str_new_confirm : List Nat := strBytes ("Really want to do do this? [Y/n]:")
def str_new_confirm_accept : List Nat := strBytes ("I did as you said")
def str_motd : List Nat := strBytes ("TinyBasic by EPSILON0")
def str_shell_prompt : List Nat := strBytes ("> ")
def str_err : List Nat := strBytes ("Error: ")
def str_err_at_line1 : List Nat := strBytes ("Error at line ")
def str_err_at_line2 : List Nat := strBytes (": ")
def str_err_linenum : List Nat := strBytes ("Invalid line number")
def str_err_expression : List Nat := strBytes ("Failed to evaluate expression")
def str_err_run_mode : List Nat := strBytes ("Command unavailable during run mode")
def str_err_unknown : List Nat := strBytes ("Unknown command")
def str_err_string : List Nat := strBytes ("Unclosed string")
def str_err_str_garbage : List Nat := strBytes ("Invalid data after print statement")
def str_err_char_variable : List Nat := strBytes ("Expected variable after the 'CHAR' keyword")
def str_err_char_garbage : List Nat := strBytes ("Found garbage after variable")
def str_err_let_target : List Nat := strBytes ("Invalid target variable")
def str_err_let_sanity : List Nat := strBytes ("Expected '=' token after the target variable")
def str_err_goto_target : List Nat := strBytes ("Invalid target line number")
def str_err_if_exprs : List Nat := strBytes ("Expected 2 expressions for comparison")
def str_err_if_compare : List Nat := strBytes ("Invalid compare operation")
def str_err_if_then : List Nat :=
  strBytes ("Expected second expression followed by 'THEN' token")
def str_err_input_target : List Nat := strBytes ("Expected target variable")
def str_err_run_no_code : List Nat := strBytes ("No code to run, go write some")
def str_err_line_not_found1 : List Nat := strBytes ("Line ")
def str_err_line_not_found2 : List Nat := strBytes (" not found.")
def str_err_out_of_memory : List Nat := strBytes ("Ran out of memory :/")

/-! ## Printing utilities -/

/-- Decimal digit bytes of `v`, most significant first — the output of the
C `print_unsigned` loop (which computes the digit count and then extracts
digits by repeated division).  Fuel 10 covers every `uint32_t`. -/
def uDigitsAux : Nat → Nat → List Nat
  | 0, _ => []
  | fuel + 1, v => if v > 9 then uDigitsAux fuel (v / 10) ++ [v % 10 + 48] else [v + 48]

def print_unsigned (v : Nat) : List Nat := uDigitsAux 10 v

/-- `print_signed`: a minus sign and the two's-complement negation for
negative values. -/
def print_signed (v : Nat) : List Nat :=
  if toSigned v < 0 then 45 :: print_unsigned (neg32 v) else print_unsigned v

/-- `strlen(&codemem[i])`: bytes until the first NUL. -/
def strlenAtAux (mem : Mem) : Nat → Nat → Nat → Nat
  | 0, _, len => len
  | fuel + 1, i, len => if mem i ≠ 0 then strlenAtAux mem fuel (i + 1) (len + 1) else len

def strlenAt (mem : Mem) (i : Nat) : Nat := strlenAtAux mem SCAN_FUEL i 0

/-- The bytes `mem[pos], …, mem[pos+len-1]` as a list. -/
def readBytes (mem : Mem) (pos len : Nat) : List Nat :=
  (List.range len).map (fun k => mem (pos + k))

/-- The C string starting at `i` (what `print_string(&codemem[i])` emits). -/
def cString (mem : Mem) (i : Nat) : List Nat := readBytes mem i (strlenAt mem i)

/-- `skip_spaces`. -/
def skip_spaces_aux (mem : Mem) : Nat → Nat → Nat
  | 0, i => i
  | fuel + 1, i => if isblankB (mem i) then skip_spaces_aux mem fuel (i + 1) else i

def skip_spaces (mem : Mem) (i : Nat) : Nat := skip_spaces_aux mem SCAN_FUEL i

/-! ## Code memory handling -/

/-- `load_line_t`: two bytes, little endian. -/
def load_line_t (mem : Mem) (index : Nat) : Nat :=
  mem index + 256 * mem (index + 1)

/-- `store_line_t`: two bytes, little endian. -/
def store_line_t (mem : Mem) (index linenum : Nat) : Mem :=
  setByte (setByte mem index (linenum % 256)) (index + 1) (linenum / 256 % 256)

/-- `get_line_num`: 0 on parse error or a value outside `[1, MAX_LINENUM)`.
The comparison `linenum_raw <= 0` is signed. -/
def get_line_num (mem : Mem) (nlend index : Nat) : Nat :=
  match get_literal_number mem nlend index with
  | none => 0
  | some p => if toSigned p ≤ 0 ∨ (MAX_LINENUM : Int) ≤ toSigned p then 0 else p

/-- The record-body walk inside `get_line_index`:
`while (codemem[index++] != 0) { if (index >= codemem_end) break; }`. -/
def walk_body_aux (mem : Mem) (cend : Nat) : Nat → Nat → Nat
  | 0, index => index
  | fuel + 1, index =>
      if mem index ≠ 0 then
        if index + 1 ≥ cend then index + 1
        else walk_body_aux mem cend fuel (index + 1)
      else index + 1

def walk_body (mem : Mem) (cend index : Nat) : Nat :=
  walk_body_aux mem cend SCAN_FUEL index

/-- The record scan of `get_line_index` (each iteration moves `index`
forward by at least 3, so fuel `cend + 1` suffices). -/
def get_line_index_aux (mem : Mem) (cend linenum : Nat) : Nat → Nat → Nat
  | 0, index => index
  | fuel + 1, index =>
      if index < cend then
        if load_line_t mem index = linenum then index
        else get_line_index_aux mem cend linenum fuel (walk_body mem cend (index + 2))
      else index

/-- `get_line_index(linenum)`: body offset of the record, or
`codemem_end + 2` when the line is absent. -/
def get_line_index (mem : Mem) (cend linenum : Nat) : Nat :=
  get_line_index_aux mem cend linenum (cend + 1) 0 + 2

def get_potential_line_index_aux (mem : Mem) (cend linenum : Nat) : Nat → Nat → Nat
  | 0, index => index
  | fuel + 1, index =>
      if index < cend then
        if load_line_t mem index ≥ linenum then index
        else get_potential_line_index_aux mem cend linenum fuel (walk_body mem cend (index + 2))
      else index

/-- `get_potential_line_index(linenum)`. -/
def get_potential_line_index (mem : Mem) (cend linenum : Nat) : Nat :=
  get_potential_line_index_aux mem cend linenum (cend + 1) 0 + 2

/-- `codemem_shift_left(index, length, amount)`: overwrite
`[index-amount, index-amount+length)` with the bytes of
`[index, index+length)`.  The C loop copies low-to-high; the destination
lies `amount` bytes below the source, so every read sees an original byte
(at the call site `amount ≤ index`), and the written byte at `j` is the
original `mem (j + amount)`. -/
def codemem_shift_left (mem : Mem) (index length amount : Nat) : Mem :=
  fun j => if index - amount ≤ j ∧ j < index - amount + length then mem (j + amount) else mem j

/-- `codemem_shift_right(index, length, amount)`: overwrite
`[index+amount, index+amount+length)` with the bytes of
`[index, index+length)`.  The C loop copies high-to-low, so every read
sees an original byte and the written byte at `j` is the original
`mem (j - amount)`. -/
def codemem_shift_right (mem : Mem) (index length amount : Nat) : Mem :=
  fun j => if index + amount ≤ j ∧ j < index + amount + length then mem (j - amount) else mem j

/-- The forward byte copy `for (i = 0; i < len; i++) mem[dst+i] = mem[src+i]`.
When `dst ≤ src` every read sees an original byte (positions written so
far lie strictly below the position being read).  When `src < dst` and the
regions overlap, an already-written byte is re-read as soon as
`src + i ≥ dst`, giving the classic periodic repetition of the first
`dst - src` source bytes; when they do not overlap the modulus is
inoperative (`i < len ≤ dst - src`).  Both cases are captured pointwise. -/
def copy_forward (mem : Mem) (src dst len : Nat) : Mem :=
  fun j =>
    if dst ≤ j ∧ j < dst + len then
      if dst ≤ src then mem (src + (j - dst))
      else mem (src + (j - dst) % (dst - src))
    else mem j

/-- The trailing-blank strip of `store_newline`:
`while (isblank(codemem[ind + newlinelen - 1])) newlinelen--`. -/
def strip_blanks_aux (mem : Mem) (ind : Nat) : Nat → Nat → Nat
  | 0, l => l
  | fuel + 1, l =>
      if isblankB (mem (ind + l - 1)) then strip_blanks_aux mem ind fuel (l - 1) else l

def strip_blanks (mem : Mem) (ind l : Nat) : Nat := strip_blanks_aux mem ind l l

/-- `store_newline(ind)`. -/
def store_newline (st : TBState) (ind0 : Nat) : TBState :=
  let mem := st.codemem
  let linenum := get_line_num mem st.newline_end ind0
  if linenum = 0 then
    { st with output := st.output ++ str_err_linenum, newline_end := st.newline_ind }
  else
    -- `while (isalnum(codemem[ind]) && ind < newline_end) ind++; skip_spaces(&ind);`
    let ind := skip_spaces mem (ind0 + litScanLen mem st.newline_end ind0)
    let lineind0 := get_line_index mem st.codemem_end linenum
    -- delete the line if it exists
    let del :=
      if lineind0 < st.codemem_end then
        let lineind := lineind0 - 2
        let linelen := strlenAt mem (lineind + 2) + 2 + 1
        let shift_length := st.codemem_end - (lineind + linelen)
        (codemem_shift_left mem (lineind + linelen) shift_length linelen,
          st.codemem_end - linelen, lineind)
      else (mem, st.codemem_end, get_potential_line_index mem st.codemem_end linenum - 2)
    let mem1 := del.1
    let cend1 := del.2.1
    let lineind := del.2.2
    let newlinelen0 := st.newline_end - ind
    if newlinelen0 = 0 then { st with codemem := mem1, codemem_end := cend1 }
    else
      let newlinelen := strip_blanks mem1 ind newlinelen0
      if CODE_MEMORY_SIZE - cend1 < newlinelen + 8 then
        { st with
          codemem := mem1
          codemem_end := cend1
          output := st.output ++ str_err_out_of_memory }
      else
        -- stage the body at the buffer tail
        let mem2 := copy_forward mem1 ind (CODE_MEMORY_SIZE - newlinelen) newlinelen
        let shift_amount := newlinelen + 2 + 1
        let mem3 :=
          if lineind < cend1 then codemem_shift_right mem2 lineind (cend1 - lineind) shift_amount
          else mem2
        let cend2 := cend1 + shift_amount
        let mem4 := store_line_t mem3 lineind linenum
        let mem5 := setByte mem4 (lineind + newlinelen + 2) 0
        let mem6 := copy_forward mem5 (CODE_MEMORY_SIZE - newlinelen) (lineind + 2) newlinelen
        { st with codemem := mem6, codemem_end := cend2 }

/-! ## Command execution -/

/-- Keywords. -/
def kwd_clear : List Nat := strBytes ("CLEAR")
def kwd_end : List Nat := strBytes ("END")
def kwd_goto : List Nat := strBytes ("GOTO")
def kwd_if : List Nat := strBytes ("IF")
def kwd_input : List Nat := strBytes ("INPUT")
def kwd_let : List Nat := strBytes ("LET")
def kwd_list : List Nat := strBytes ("LIST")
def kwd_memory : List Nat := strBytes ("MEMORY")
def kwd_new : List Nat := strBytes ("NEW")
def kwd_print : List Nat := strBytes ("PRINT")
def kwd_char : List Nat := strBytes ("CHAR")
def kwd_rem : List Nat := strBytes ("REM")
def kwd_run : List Nat := strBytes ("RUN")
def kwd_then : List Nat := strBytes ("THEN")
def kwd_load : List Nat := strBytes ("LOAD")
def kwd_save : List Nat := strBytes ("SAVE")

/-- `command_compare(command, index)`. -/
def command_compare (mem : Mem) : List Nat → Nat → Bool
  | [], index => mem index = 0 || mem index = 32
  | c :: rest, index =>
      if c = toupperB (mem index) then command_compare mem rest (index + 1) else false

/-- `print_error(error, index)`; the caller uses its return value `MAX_LINENUM`. -/
def print_error (st : TBState) (err : List Nat) (index : Nat) : TBState :=
  if st.current_line ≠ 0 then
    { st with output := st.output ++ str_err_at_line1 ++ print_unsigned st.current_line ++
        str_err_at_line2 ++ err ++ str_lf ++ print_unsigned st.current_line ++ str_space ++
        cString st.codemem index ++ str_lf }
  else
    { st with output := st.output ++ str_err ++ err ++ str_lf ++
        cString st.codemem index ++ str_lf }

/-- `expr_solve` at the statement level: runs the pure solver on the
state's globals, stores the final workspace back, and performs the
`print_error(str_err_expression, index)` of the error path.
Result: (value, error flag, new state). -/
def expr_solve_st (st : TBState) (index length : Nat) : Nat × Bool × TBState :=
  let r := expr_solve_core st.codemem st.vars st.newline_end index length st.expr_ws
  let st2 := { st with expr_ws := r.2.2.1, expr_count := r.2.2.2 }
  if r.2.1 then (0, true, print_error st2 str_err_expression index) else (r.1, false, st2)

/-- Update one variable: `variables[variable] = expr_value`. -/
def setVar (vars : Nat → Nat) (i v : Nat) : Nat → Nat :=
  fun j => if j = i then v else vars j

/-- `handle_let(index)` (the index already points past the keyword, or at
the variable for the keyword-less form). -/
def handle_let (st : TBState) (index : Nat) : TBState × Nat :=
  let mem := st.codemem
  let initial_index := index
  let i1 := skip_spaces mem index
  if ¬ isalphaB (mem i1) then (print_error st str_err_let_target initial_index, MAX_LINENUM)
  else
    let varIdx := toupperB (mem i1) - 65
    let i2 := skip_spaces mem (i1 + 1)
    if mem i2 ≠ 61 then (print_error st str_err_let_sanity initial_index, MAX_LINENUM)
    else
      let length := strlenAt mem (i2 + 1)
      let r := expr_solve_st st (i2 + 1) length
      if r.2.1 then (r.2.2, MAX_LINENUM)
      else ({ r.2.2 with vars := setVar r.2.2.vars varIdx r.1 }, 0)

/-- The string scan of `handle_print`:
`for (len = 0; codemem[index+len+1] != 34; len++) if (== 0) return error`;
`i` is `index + 1` and `none` models the unclosed-string error. -/
def print_str_scan (mem : Mem) : Nat → Nat → Nat → Option Nat
  | 0, _, _ => none
  | fuel + 1, i, len =>
      if mem i = 34 then some len
      else if mem i = 0 then none
      else print_str_scan mem fuel (i + 1) (len + 1)

/-- Length of a PRINT expression item: bytes until NUL or `:`. -/
def print_expr_scan (mem : Mem) : Nat → Nat → Nat → Nat
  | 0, _, len => len
  | fuel + 1, i, len =>
      if mem i ≠ 0 ∧ mem i ≠ 58 then print_expr_scan mem fuel (i + 1) (len + 1) else len

/-- The item loop of `handle_print`; each iteration advances `index`, so
fuel `SCAN_FUEL + 1` suffices.  Returns the final state and directive. -/
def handle_print_loop (initial_index : Nat) : Nat → TBState → Nat → TBState × Nat
  | 0, st, _ => (st, 0)
  | fuel + 1, st, index0 =>
      let mem := st.codemem
      if mem index0 = 0 then
        -- linefeed disabled, loop exits
        (st, 0)
      else
        let index := skip_spaces mem index0
        if mem index = 34 then
          match print_str_scan mem SCAN_FUEL (index + 1) 0 with
          | none => (print_error st str_err_string initial_index, MAX_LINENUM)
          | some len =>
              let st2 := { st with output := st.output ++ readBytes mem (index + 1) len }
              let index2 := skip_spaces mem (index + len + 2)
              if mem index2 = 58 then handle_print_loop initial_index fuel st2 (index2 + 1)
              else
                -- exit the loop with linefeed still enabled
                if mem index2 ≠ 0 then
                  (print_error st2 str_err_str_garbage initial_index, MAX_LINENUM)
                else ({ st2 with output := st2.output ++ str_lf }, 0)
        else
          let length := print_expr_scan mem SCAN_FUEL index 0
          let r := expr_solve_st st index length
          if r.2.1 then (r.2.2, MAX_LINENUM)
          else
            let st2 := { r.2.2 with output := r.2.2.output ++ print_signed r.1 }
            let index2 := index + length
            if st2.codemem index2 = 58 then
              handle_print_loop initial_index fuel st2 (index2 + 1)
            else
              if st2.codemem index2 ≠ 0 then
                (print_error st2 str_err_str_garbage initial_index, MAX_LINENUM)
              else ({ st2 with output := st2.output ++ str_lf }, 0)

/-- `handle_print(index)`. -/
def handle_print (st : TBState) (index : Nat) : TBState × Nat :=
  handle_print_loop index (SCAN_FUEL + 1) st (index + 5)

/-- `handle_char(index)`. -/
def handle_char (st : TBState) (index : Nat) : TBState × Nat :=
  let mem := st.codemem
  let initial_index := index
  let i1 := skip_spaces mem (index + 4)
  if ¬ isalphaB (mem i1) then
    (print_error st str_err_char_variable initial_index, MAX_LINENUM)
  else if mem (i1 + 1) ≠ 0 then
    (print_error st str_err_char_garbage initial_index, MAX_LINENUM)
  else
    -- `char chr = (char)variables[...]`: one byte of the value pattern
    ({ st with output := st.output ++ [st.vars (toupperB (mem i1) - 65) % 256] }, 0)

/-- `handle_goto(index)`.  The parsed value is converted to `line_t`
(`uint16_t`, i.e. modulo 65536) before the range test. -/
def handle_goto (st : TBState) (index : Nat) : TBState × Nat :=
  let mem := st.codemem
  let initial_index := index
  let i1 := skip_spaces mem (index + 4)
  match get_literal_number mem st.newline_end i1 with
  | none => (print_error st str_err_goto_target initial_index, MAX_LINENUM)
  | some p =>
      let linenum := p % 65536
      if linenum = 0 ∨ linenum ≥ MAX_LINENUM then
        (print_error st str_err_goto_target initial_index, MAX_LINENUM)
      else (st, linenum)

/-- Scan of the left IF expression: length until `<`, `>`, `=` or NUL. -/
def if_left_scan (mem : Mem) : Nat → Nat → Nat → Nat
  | 0, _, len => len
  | fuel + 1, i, len =>
      let c := mem i
      if c = 60 ∨ c = 62 ∨ c = 61 ∨ c = 0 then len else if_left_scan mem fuel (i + 1) (len + 1)

/-- Scan of the right IF expression: length until the token `THEN`;
`none` when a NUL is reached first. -/
def if_then_scan (mem : Mem) : Nat → Nat → Nat → Option Nat
  | 0, _, _ => none
  | fuel + 1, i, len =>
      if mem i = 0 then none
      else if command_compare mem kwd_then i then some len
      else if_then_scan mem fuel (i + 1) (len + 1)

/-- The INPUT character loop: consumes bytes from the port, editing the
scratch area at `newline_end`.  `none` when the input stream is exhausted
before a newline (the C program would block forever waiting for more). -/
def input_read (nlend : Nat) : List Nat → Mem → Nat → Option (List Nat × Mem × Nat)
  | [], _, _ => none
  | c :: rest, mem, elen =>
      if c = 8 then
        if elen ≠ 0 then input_read nlend rest mem (elen - 1)
        else input_read nlend rest mem elen
      else if c = 10 then some (rest, mem, elen)
      else if nlend + elen < CODE_MEMORY_SIZE then
        input_read nlend rest (setByte mem (nlend + elen) c) (elen + 1)
      else input_read nlend rest mem elen

/-- `handle_input(index)`; `none` models an interpreter blocked forever on
reading. -/
def handle_input (st : TBState) (index : Nat) : Option (TBState × Nat) :=
  let mem := st.codemem
  let initial_index := index
  let i1 := skip_spaces mem (index + 5)
  if mem i1 = 0 then some (print_error st str_err_input_target initial_index, MAX_LINENUM)
  else if ¬ isalphaB (mem i1) ∨ mem (i1 + 1) ≠ 0 then
    some (print_error st str_err_input_target initial_index, MAX_LINENUM)
  else
    let varIdx := toupperB (mem i1) - 65
    match input_read st.newline_end st.input mem 0 with
    | none => none
    | some (input2, mem2, elen) =>
        let mem3 := setByte mem2 (st.newline_end + elen) 0
        let st2 := { st with codemem := mem3, input := input2 }
        let r := expr_solve_st st2 st.newline_end elen
        if r.2.1 then some (r.2.2, MAX_LINENUM)
        else some ({ r.2.2 with vars := setVar r.2.2.vars varIdx r.1 }, 0)

/-- The record walk of `handle_list` (fuel `cend + 1`: every record is at
least 3 bytes). -/
def handle_list_aux (mem : Mem) (cend : Nat) : Nat → Nat → List Nat
  | 0, _ => []
  | fuel + 1, index =>
      if index < cend then
        print_unsigned (load_line_t mem index) ++ str_space ++ cString mem (index + 2) ++
          str_lf ++ handle_list_aux mem cend fuel (index + strlenAt mem (index + 2) + 2 + 1)
      else []

/-- `handle_list()`. -/
def handle_list (st : TBState) : TBState :=
  let listing := handle_list_aux st.codemem st.codemem_end (st.codemem_end + 1) 0
  { st with output := st.output ++ listing }

/-- `handle_new()`: prompt, read one confirmation byte. `none` when the
input stream is exhausted. -/
def handle_new (st : TBState) : Option TBState :=
  let st1 := { st with output := st.output ++ str_new_confirm }
  match st1.input with
  | [] => none
  | c :: rest =>
      let st2 := { st1 with input := rest }
      if toupperB c = 89 then
        some { st2 with
          output := st2.output ++ str_lf ++ str_new_confirm_accept ++ str_lf
          codemem := fun _ => 0
          codemem_end := 0
          newline_ind := 0
          newline_end := 0 }
      else some { st2 with output := st2.output ++ str_lf }

/-- `handle_save` / `handle_load` operate on the host file system, which is
outside the model (the spec treats the persistence adapter as an external
collaborator).  They are modelled as the identity on interpreter state and
no theorem below exercises them: every scenario either never issues
SAVE/LOAD or only reaches their run-mode rejection branch, which is
handled in the dispatcher itself. -/
def handle_save (st : TBState) (_index : Nat) : TBState := st

def handle_load (st : TBState) (_index : Nat) : TBState := st

/-- The mutually recursive part of the interpreter: `execute_command`,
`handle_if` (which dispatches the post-THEN statement), `handle_run` and
its run loop.  A single fuel-indexed function keeps the recursion
structural; the fuel drops by one at each cross-call, so any fuel larger
than the recursion depth gives the C behaviour. -/
inductive Call where
  | exec (index : Nat)
  | cif (index : Nat)
  | crun
  | cloop (index : Nat)

def interp : Nat → TBState → Call → Option (TBState × Nat)
  | 0, _, _ => none
  | fuel + 1, st, Call.exec index =>
      let mem := st.codemem
      -- "LET" (the C source skips `strlen(kwd_list)` = 4 bytes)
      if command_compare mem kwd_let index then some (handle_let st (index + 4))
      -- "LET" without the keyword
      else if isalphaB (mem index) ∧
          (mem (index + 1) = 32 ∨ mem (index + 1) = 61) then
        some (handle_let st index)
      else if command_compare mem kwd_print index then some (handle_print st index)
      else if command_compare mem kwd_char index then some (handle_char st index)
      else if command_compare mem kwd_goto index then some (handle_goto st index)
      else if command_compare mem kwd_if index then interp fuel st (Call.cif index)
      else if command_compare mem kwd_input index then
        -- the return value of `handle_input` is DISCARDED by the C dispatcher
        match handle_input st index with
        | none => none
        | some (st2, _) => some (st2, 0)
      else if command_compare mem kwd_rem index then some (st, 0)
      else if command_compare mem kwd_clear index then
        some ({ st with output := st.output ++ str_screen_clear }, 0)
      else if command_compare mem kwd_end index then some (st, MAX_LINENUM)
      else if command_compare mem kwd_run index then
        if st.current_line = 0 then
          match interp fuel st Call.crun with
          | none => none
          | some (st2, _) => some (st2, 0)
        else some (print_error st str_err_run_mode index, 0)
      else if command_compare mem kwd_list index then
        if st.current_line = 0 then some (handle_list st, 0)
        else some (print_error st str_err_run_mode index, 0)
      else if command_compare mem kwd_new index then
        if st.current_line = 0 then
          match handle_new st with
          | none => none
          | some st2 => some (st2, 0)
        else some (print_error st str_err_run_mode index, 0)
      else if command_compare mem kwd_memory index then
        if st.current_line = 0 then
          let msg := print_signed (CODE_MEMORY_SIZE - st.codemem_end) ++ str_memory_free ++ str_lf
          some ({ st with output := st.output ++ msg }, 0)
        else some (print_error st str_err_run_mode index, 0)
      else if command_compare mem kwd_save index then
        if st.current_line = 0 then some (handle_save st index, 0)
        else some (print_error st str_err_run_mode index, 0)
      else if command_compare mem kwd_load index then
        if st.current_line = 0 then some (handle_load st index, 0)
        else some (print_error st str_err_run_mode index, 0)
      else some (print_error st str_err_unknown index, MAX_LINENUM)
  | fuel + 1, st, Call.cif index =>
      let mem := st.codemem
      let initial_index := index
      let i1 := skip_spaces mem (index + 2)
      let length := if_left_scan mem SCAN_FUEL i1 0
      if mem (i1 + length) = 0 then
        some (print_error st str_err_if_exprs initial_index, MAX_LINENUM)
      else
        let rl := expr_solve_st st i1 length
        if rl.2.1 then some (rl.2.2, MAX_LINENUM)
        else
          let stL := rl.2.2
          let i2 := i1 + length
          -- (compare operation, index after the operator, sane?)
          let opInfo :=
            if mem i2 = 60 then
              if mem (i2 + 1) = 62 then (1, i2 + 2, true)
              else (3, i2 + 1, true)
            else if mem i2 = 62 then (2, i2 + 1, true)
            else if mem i2 = 61 then (0, i2 + 1, true)
            else (0, i2, false)
          if ¬ opInfo.2.2 then
            some (print_error stL str_err_if_compare initial_index, MAX_LINENUM)
          else
            let i3 := opInfo.2.1
            match if_then_scan mem SCAN_FUEL i3 0 with
            | none => some (print_error stL str_err_if_then initial_index, MAX_LINENUM)
            | some length2 =>
                let rr := expr_solve_st stL i3 length2
                if rr.2.1 then some (rr.2.2, MAX_LINENUM)
                else
                  let stR := rr.2.2
                  let cond :=
                    if opInfo.1 = 0 then rl.1 = rr.1
                    else if opInfo.1 = 1 then rl.1 ≠ rr.1
                    else if opInfo.1 = 3 then toSigned rl.1 < toSigned rr.1
                    else toSigned rr.1 < toSigned rl.1
                  if cond then
                    let i4 := skip_spaces stR.codemem (i3 + length2 + 4)
                    interp fuel stR (Call.exec i4)
                  else some (stR, 0)
  | fuel + 1, st, Call.crun =>
      if st.codemem_end = 0 then
        some ({ st with output := st.output ++ str_err_run_no_code ++ str_lf }, 0)
      else
        interp fuel { st with current_line := load_line_t st.codemem 0 } (Call.cloop 2)
  | fuel + 1, st, Call.cloop index =>
      match interp fuel st (Call.exec index) with
      | none => none
      | some (st2, nextline) =>
          let st3 := { st2 with current_line := nextline }
          if nextline = MAX_LINENUM then some ({ st3 with current_line := 0 }, 0)
          else if nextline = 0 then
            let index2 := index + strlenAt st3.codemem index + 2 + 1
            if index2 ≥ st3.codemem_end then some ({ st3 with current_line := 0 }, 0)
            else interp fuel st3 (Call.cloop index2)
          else
            let index2 := get_line_index st3.codemem st3.codemem_end nextline
            if index2 = st3.codemem_end then
              let st4 := { st3 with
                current_line := 0
                output := st3.output ++ str_err_line_not_found1 ++ print_unsigned nextline ++
                  str_err_line_not_found2 ++ str_lf }
              some (st4, 0)
            else interp fuel st3 (Call.cloop index2)

/-- `execute_command(index)`: state and next-line directive
(`0` continue, `MAX_LINENUM` terminate, otherwise a GOTO target). -/
def execute_command (fuel : Nat) (st : TBState) (index : Nat) : Option (TBState × Nat) :=
  interp fuel st (Call.exec index)

/-- `handle_run()`. -/
def handle_run (fuel : Nat) (st : TBState) : Option TBState :=
  match interp fuel st Call.crun with
  | none => none
  | some (st2, _) => some st2

/-- `execute_newline()`. -/
def execute_newline (fuel : Nat) (st : TBState) : Option TBState :=
  let index := skip_spaces st.codemem st.newline_ind
  if index = st.newline_end then some st
  else if isdigitB (st.codemem index) then
    let st2 := store_newline st index
    some { st2 with newline_ind := st2.codemem_end, newline_end := st2.codemem_end }
  else
    let st1 := { st with codemem := setByte st.codemem st.newline_end 0 }
    match interp fuel st1 (Call.exec st1.newline_ind) with
    | none => none
    | some (st2, _) =>
        some { st2 with newline_ind := st2.codemem_end, newline_end := st2.codemem_end }

/-- `handle_shell()`: consume one input byte; `true` means the line must
be executed.  `none` models the C program blocking forever on `GETCHAR`. -/
def handle_shell (st : TBState) : Option (TBState × Bool) :=
  match st.input with
  | [] => none
  | c :: rest =>
      let st1 := { st with input := rest }
      if c = 8 then
        if st1.newline_end > st1.newline_ind then
          some ({ st1 with newline_end := st1.newline_end - 1 }, false)
        else some (st1, false)
      else if c = 10 then some (st1, true)
      else if st1.newline_end < CODE_MEMORY_SIZE then
        some ({ st1 with
          codemem := setByte st1.codemem st1.newline_end c
          newline_end := st1.newline_end + 1 }, false)
      else some (st1, false)

/-- The state after `main` has initialised the globals and printed the
banner and first prompt, with `input` pending on the port. -/
def initState (input : List Nat) : TBState :=
  { codemem := fun _ => 0
    codemem_end := 0
    newline_ind := 0
    newline_end := 0
    vars := fun _ => 0
    expr_ws := freshWs
    expr_count := 0
    current_line := 0
    input := input
    output := str_motd ++ str_lf ++ str_shell_prompt }

/-- The main loop, run until the input stream is exhausted (the C loop
then blocks in `GETCHAR` forever; the model stops and returns the state).
`fuel` bounds the number of shell iterations (each consumes at least one
input byte) and `efuel` is the dispatch fuel for each executed line. -/
def session_aux (efuel : Nat) : Nat → TBState → Option TBState
  | 0, st => if st.input = [] then some st else none
  | fuel + 1, st =>
      if st.input = [] then some st
      else
        match handle_shell st with
        | none => none
        | some (st1, execute) =>
            if execute then
              match execute_newline efuel st1 with
              | none => none
              | some st2 =>
                  session_aux efuel fuel { st2 with output := st2.output ++ str_shell_prompt }
            else session_aux efuel fuel st1

/-- A full interpreter session on the given input bytes. -/
def session (input : List Nat) (fuel efuel : Nat) : Option TBState :=
  session_aux efuel fuel (initState input)


/-! ## The record structure of the code store -/

/-- Parse `codemem[0, cend)` as a packed sequence of records
`linenum:u16le | body | 0x00`, returning `(linenum, body length)` pairs.
`none` when the bytes do not tile `[0, cend)` exactly (a record would
overrun `cend`).  A parsed record contains no NUL before its terminator. -/
def parseRecordsAux (mem : Mem) (cend : Nat) : Nat → Nat → Option (List (Nat × Nat))
  | 0, i => if i = cend then some [] else none
  | fuel + 1, i =>
      if i = cend then some []
      else if i + 3 > cend then none
      else
        let blen := strlenAt mem (i + 2)
        if i + 2 + blen + 1 > cend then none
        else
          match parseRecordsAux mem cend fuel (i + blen + 3) with
          | none => none
          | some rs => some ((load_line_t mem i, blen) :: rs)

def parseRecords (mem : Mem) (cend : Nat) : Option (List (Nat × Nat)) :=
  parseRecordsAux mem cend (cend + 1) 0

/-- Strictly ascending line numbers. -/
def strictAscB : List (Nat × Nat) → Bool
  | [] => true
  | [_] => true
  | a :: b :: rs => a.1 < b.1 && strictAscB (b :: rs)

/-- The code-store invariant of the spec: the bytes of `[0, code_end)` are
a packed sequence of well-terminated records (each ending in exactly one
NUL), strictly ascending by line number, with
`sum of (|body| + 3) = code_end`. -/
def storeInvB (st : TBState) : Bool :=
  match parseRecords st.codemem st.codemem_end with
  | none => false
  | some rs =>
      strictAscB rs && decide ((rs.map (fun r => r.2 + 3)).sum = st.codemem_end)

/-- Type a full line (no backspace or newline bytes in `line`) and hit
return: `handle_shell` appends each byte at `newline_end`, dropping bytes
once `newline_end` reaches `CODE_MEMORY_SIZE`, and the final newline byte
triggers `execute_newline`.  The byte-by-byte appends are performed as a
single write. -/
def submit_line (fuel : Nat) (st : TBState) (line : List Nat) : Option TBState :=
  let keep := min line.length (CODE_MEMORY_SIZE - st.newline_end)
  let mem2 := writeBytes st.codemem st.newline_end (line.take keep)
  execute_newline fuel { st with codemem := mem2, newline_end := st.newline_end + keep }

/-- Submit a sequence of lines. -/
def submit_lines (fuel : Nat) : TBState → List (List Nat) → Option TBState
  | st, [] => some st
  | st, l :: ls =>
      match submit_line fuel st l with
      | none => none
      | some st2 => submit_lines fuel st2 ls

/-! ## Byte-sequence search (for statements about the produced output) -/

/-- `pat` is an initial segment of `l`. -/
def leadsWith : List Nat → List Nat → Bool
  | [], _ => true
  | _ :: _, [] => false
  | a :: as, b :: bs => a = b && leadsWith as bs

/-- `pat` occurs contiguously somewhere in `l`. -/
def containsSeq (pat : List Nat) : List Nat → Bool
  | [] => leadsWith pat []
  | b :: bs => leadsWith pat (b :: bs) || containsSeq pat bs

/-! ## Canonical signed decimal serialization (reference for the round-trip claim) -/

def natDigits (m : Nat) : List Nat :=
  if h : m < 10 then [m + 48] else natDigits (m / 10) ++ [m % 10 + 48]
decreasing_by exact Nat.div_lt_self (by omega) (by omega)

def serializeInt (n : Int) : List Nat :=
  if n < 0 then 45 :: natDigits (-n).toNat else natDigits n.toNat

def parseFold (ds : List Nat) (acc : Nat) : Nat :=
  ds.foldl (fun a d => (a * 10 + (d - 48)) % W) acc

/-! ## Reference expression grammar (from the specification, for the refinement claim) -/

/-- The reference expression grammar of the specification, as a leveled
derivation relation on token lists paired with the derived 32-bit value.
Level 0: values, single unary operators applied to a value, bracketed
expressions.  Level 1 adds left-associated `* / %`, level 2 adds `+ -`,
level 3 adds `| & ^` (the three precedence classes, lowest last, with
brackets overriding). -/
inductive Gram : Nat → List ExprToken → Nat → Prop where
  | value (p v : Nat) : Gram 0 [⟨ET_VALUE, p, v⟩] v
  | paren (p q : Nat) (l : List ExprToken) (v : Nat) :
      Gram 3 l v →
      Gram 0 (⟨ET_SUBEXPR_OPEN, p, 0⟩ :: l ++ [⟨ET_SUBEXPR_CLOSE, q, 0⟩]) v
  | pos (p q v : Nat) : Gram 0 [⟨ET_ADD, p, 0⟩, ⟨ET_VALUE, q, v⟩] v
  | neg (p q v : Nat) : Gram 0 [⟨ET_SUBTRACT, p, 0⟩, ⟨ET_VALUE, q, v⟩] (neg32 v)
  | inv (p q v : Nat) : Gram 0 [⟨ET_INVERT, p, 0⟩, ⟨ET_VALUE, q, v⟩] (inv32 v)
  | up1 (l : List ExprToken) (v : Nat) : Gram 0 l v → Gram 1 l v
  | mul (p : Nat) (l1 l2 : List ExprToken) (v1 v2 : Nat) :
      Gram 1 l1 v1 → Gram 0 l2 v2 →
      Gram 1 (l1 ++ ⟨ET_MULTIPLY, p, 0⟩ :: l2) (mul32 v1 v2)
  | div (p : Nat) (l1 l2 : List ExprToken) (v1 v2 : Nat) :
      Gram 1 l1 v1 → Gram 0 l2 v2 →
      Gram 1 (l1 ++ ⟨ET_DIVIDE, p, 0⟩ :: l2) (div32 v1 v2)
  | rem (p : Nat) (l1 l2 : List ExprToken) (v1 v2 : Nat) :
      Gram 1 l1 v1 → Gram 0 l2 v2 →
      Gram 1 (l1 ++ ⟨ET_REMAINDER, p, 0⟩ :: l2) (rem32 v1 v2)
  | up2 (l : List ExprToken) (v : Nat) : Gram 1 l v → Gram 2 l v
  | add (p : Nat) (l1 l2 : List ExprToken) (v1 v2 : Nat) :
      Gram 2 l1 v1 → Gram 1 l2 v2 →
      Gram 2 (l1 ++ ⟨ET_ADD, p, 0⟩ :: l2) (add32 v1 v2)
  | sub (p : Nat) (l1 l2 : List ExprToken) (v1 v2 : Nat) :
      Gram 2 l1 v1 → Gram 1 l2 v2 →
      Gram 2 (l1 ++ ⟨ET_SUBTRACT, p, 0⟩ :: l2) (sub32 v1 v2)
  | up3 (l : List ExprToken) (v : Nat) : Gram 2 l v → Gram 3 l v
  | band (p : Nat) (l1 l2 : List ExprToken) (v1 v2 : Nat) :
      Gram 3 l1 v1 → Gram 2 l2 v2 →
      Gram 3 (l1 ++ ⟨ET_AND, p, 0⟩ :: l2) (and32 v1 v2)
  | bor (p : Nat) (l1 l2 : List ExprToken) (v1 v2 : Nat) :
      Gram 3 l1 v1 → Gram 2 l2 v2 →
      Gram 3 (l1 ++ ⟨ET_OR, p, 0⟩ :: l2) (or32 v1 v2)
  | bxor (p : Nat) (l1 l2 : List ExprToken) (v1 v2 : Nat) :
      Gram 3 l1 v1 → Gram 2 l2 v2 →
      Gram 3 (l1 ++ ⟨ET_XOR, p, 0⟩ :: l2) (xor32 v1 v2)

/-! ## The byte encoding of stored records (for the store claims) -/

/-- One stored record as bytes: `linenum:u16le | body | 0x00`. -/
def encodeRec (r : Nat × List Nat) : List Nat :=
  r.1 % 256 :: r.1 / 256 % 256 :: (r.2 ++ [0])

/-- A packed store of records. -/
def encodeRecs : List (Nat × List Nat) → List Nat
  | [] => []
  | r :: rs => encodeRec r ++ encodeRecs rs

/-- First record with the given line number. -/
def recsFind : List (Nat × List Nat) → Nat → Option (List Nat)
  | [], _ => none
  | r :: rest, t => if r.1 = t then some r.2 else recsFind rest t

/-- Remove the first record with the given line number. -/
def recsDelete : List (Nat × List Nat) → Nat → List (Nat × List Nat)
  | [], _ => []
  | r :: rest, t => if r.1 = t then rest else r :: recsDelete rest t

/-- Byte offset of the first record with the given line number. -/
def lookupOff : List (Nat × List Nat) → Nat → Nat → Option Nat
  | [], _, _ => none
  | r :: rest, off, t =>
      if r.1 = t then some off else lookupOff rest (off + r.2.length + 3) t

/-- Bytes freed by the deletion step of `store_newline` for line `t`. -/
def recsDelLen (R : List (Nat × List Nat)) (t : Nat) : Nat :=
  match recsFind R t with
  | some b => b.length + 3
  | none => 0

/-- A well-formed stored record: line number in `[1, 65536)` and a
NUL-free body. -/
def goodRec (r : Nat × List Nat) : Prop :=
  1 ≤ r.1 ∧ r.1 < 65536 ∧ ∀ b ∈ r.2, b ≠ 0

def goodRecs (R : List (Nat × List Nat)) : Prop := ∀ r ∈ R, goodRec r

/-- Strictly ascending line numbers. -/
def recsAsc : List (Nat × List Nat) → Prop
  | [] => True
  | [_] => True
  | a :: b :: rs => a.1 < b.1 ∧ recsAsc (b :: rs)

/-- The session state right after the shell has read a full line into the
edit region (which starts at `codemem_end`): the code store holds the
encoded records, the line's bytes follow at `newline_ind = codemem_end`. -/
def mkEditState (R : List (Nat × List Nat)) (line : List Nat) (vars0 : Nat → Nat)
    (ws0 : List ExprToken) (cnt0 cl0 : Nat) (inp0 out0 : List Nat) : TBState :=
  { codemem := memOfBytes (encodeRecs R ++ line)
    codemem_end := (encodeRecs R).length
    newline_ind := (encodeRecs R).length
    newline_end := (encodeRecs R).length + line.length
    vars := vars0
    expr_ws := ws0
    expr_count := cnt0
    current_line := cl0
    input := inp0
    output := out0 }

/-! ## Pure models for the grammar refinement: unary fold, precedence
assignment, bracket filter, flat lists and their evaluation -/

/-! ## The pure-list mirror of the unary pass -/

def ufold : Nat → List ExprToken → List ExprToken × Bool
  | 0, T => (T, false)
  | i + 1, T =>
      let ti := getTok T (i + 1)
      if ti.type = ET_SUBEXPR_OPEN then ufold i T
      else if i + 1 > 1 ∧ (getTok T (i + 1 - 2)).type = ET_VALUE then ufold i T
      else if i + 1 > 1 ∧ (getTok T (i + 1 - 2)).type = ET_SUBEXPR_CLOSE then ufold i T
      else
        let tp := getTok T i
        if tp.type = ET_ADD then
          if ti.type ≠ ET_VALUE then (T, true)
          else ufold i (T.take i ++ ti :: T.drop (i + 2))
        else if tp.type = ET_SUBTRACT then
          if ti.type ≠ ET_VALUE then (T, true)
          else ufold i (T.take i ++ ⟨ti.type, ti.precedence, neg32 ti.value⟩ :: T.drop (i + 2))
        else if tp.type = ET_INVERT then
          if ti.type ≠ ET_VALUE then (T, true)
          else ufold i (T.take i ++ ⟨ti.type, ti.precedence, inv32 ti.value⟩ :: T.drop (i + 2))
        else ufold i T

/-! ## Binary-operator token classification -/

def isBinopB (ty : Nat) : Bool := decide (2 ≤ ty ∧ ty ≤ 9)

/-! ## The unary-free fragment of the reference grammar -/

inductive GramU : Nat → List ExprToken → Nat → Prop where
  | value (p v : Nat) : GramU 0 [(ExprToken.mk ET_VALUE p v)] v
  | paren (p q : Nat) (l : List ExprToken) (v : Nat) :
      GramU 3 l v →
      GramU 0 ((ExprToken.mk ET_SUBEXPR_OPEN p 0) :: l ++ [(ExprToken.mk ET_SUBEXPR_CLOSE q 0)]) v
  | up1 (l : List ExprToken) (v : Nat) : GramU 0 l v → GramU 1 l v
  | mul (p : Nat) (l1 l2 : List ExprToken) (v1 v2 : Nat) :
      GramU 1 l1 v1 → GramU 0 l2 v2 →
      GramU 1 (l1 ++ (ExprToken.mk ET_MULTIPLY p 0) :: l2) (mul32 v1 v2)
  | div (p : Nat) (l1 l2 : List ExprToken) (v1 v2 : Nat) :
      GramU 1 l1 v1 → GramU 0 l2 v2 →
      GramU 1 (l1 ++ (ExprToken.mk ET_DIVIDE p 0) :: l2) (div32 v1 v2)
  | rem (p : Nat) (l1 l2 : List ExprToken) (v1 v2 : Nat) :
      GramU 1 l1 v1 → GramU 0 l2 v2 →
      GramU 1 (l1 ++ (ExprToken.mk ET_REMAINDER p 0) :: l2) (rem32 v1 v2)
  | up2 (l : List ExprToken) (v : Nat) : GramU 1 l v → GramU 2 l v
  | add (p : Nat) (l1 l2 : List ExprToken) (v1 v2 : Nat) :
      GramU 2 l1 v1 → GramU 1 l2 v2 →
      GramU 2 (l1 ++ (ExprToken.mk ET_ADD p 0) :: l2) (add32 v1 v2)
  | sub (p : Nat) (l1 l2 : List ExprToken) (v1 v2 : Nat) :
      GramU 2 l1 v1 → GramU 1 l2 v2 →
      GramU 2 (l1 ++ (ExprToken.mk ET_SUBTRACT p 0) :: l2) (sub32 v1 v2)
  | up3 (l : List ExprToken) (v : Nat) : GramU 2 l v → GramU 3 l v
  | band (p : Nat) (l1 l2 : List ExprToken) (v1 v2 : Nat) :
      GramU 3 l1 v1 → GramU 2 l2 v2 →
      GramU 3 (l1 ++ (ExprToken.mk ET_AND p 0) :: l2) (and32 v1 v2)
  | bor (p : Nat) (l1 l2 : List ExprToken) (v1 v2 : Nat) :
      GramU 3 l1 v1 → GramU 2 l2 v2 →
      GramU 3 (l1 ++ (ExprToken.mk ET_OR p 0) :: l2) (or32 v1 v2)
  | bxor (p : Nat) (l1 l2 : List ExprToken) (v1 v2 : Nat) :
      GramU 3 l1 v1 → GramU 2 l2 v2 →
      GramU 3 (l1 ++ (ExprToken.mk ET_XOR p 0) :: l2) (xor32 v1 v2)

/-- The left-context condition: nothing, an opening bracket, or a binary
operator stands immediately left of the segment. -/
def UCtx (L : List ExprToken) : Prop :=
  L = [] ∨ (getTok L (L.length - 1)).type = ET_SUBEXPR_OPEN ∨
    isBinopB (getTok L (L.length - 1)).type = true

/-- The induction invariant: in any admissible context, the unary pass
maps the segment to a unary-free segment of the same value. -/
def UGood (lvl : Nat) (l : List ExprToken) (v : Nat) : Prop :=
  ∀ L R : List ExprToken, UCtx L →
    (∀ t ∈ l, t.precedence = 0) →
    ∃ l', GramU lvl l' v ∧ 1 ≤ l'.length ∧ l'.length ≤ l.length ∧
      (∀ t ∈ l', t.precedence = 0) ∧
      ufold (L.length + l.length) (L ++ (l ++ R)) = ufold L.length (L ++ (l' ++ R))

/-! ## The precedence pass as a pure list recursion -/

/-- The base-precedence update of one token. -/
def baseStep (b : Int) (t : ExprToken) : Int :=
  if t.type = ET_SUBEXPR_OPEN then wrap8 (b + (ET_SUBEXPR : Int))
  else if t.type = ET_SUBEXPR_CLOSE then wrap8 (b - (ET_SUBEXPR : Int))
  else b

/-- The token update of one token. -/
def tokStep (b : Int) (t : ExprToken) : ExprToken :=
  if t.type = ET_AND ∨ t.type = ET_OR ∨ t.type = ET_XOR then ⟨t.type, prec8 b 1, t.value⟩
  else if t.type = ET_ADD ∨ t.type = ET_SUBTRACT then ⟨t.type, prec8 b 2, t.value⟩
  else if t.type = ET_MULTIPLY ∨ t.type = ET_DIVIDE ∨ t.type = ET_REMAINDER then
    ⟨t.type, prec8 b 3, t.value⟩
  else t

def passign : Int → List ExprToken → List ExprToken
  | _, [] => []
  | b, t :: rest => tokStep b t :: passign (baseStep b t) rest

def pbase : Int → List ExprToken → Int
  | b, [] => b
  | b, t :: rest => pbase (baseStep b t) rest

/-- Error freedom: the running base stays nonnegative after every token. -/
def pok : Int → List ExprToken → Prop
  | _, [] => True
  | b, t :: rest => 0 ≤ baseStep b t ∧ pok (baseStep b t) rest

/-! ## The bracket filter as a pure list function -/

def bfilter (l : List ExprToken) : List ExprToken :=
  l.filter (fun t => decide (t.type ≠ ET_SUBEXPR_OPEN ∧ t.type ≠ ET_SUBEXPR_CLOSE))

/-! ## Flat evaluation lists -/

/-- A flat alternating list `VALUE (op VALUE)*`: values carry precedence 0,
operators are binary with positive precedence. -/
inductive Flat : List ExprToken → Prop where
  | single (v : Nat) : Flat [⟨ET_VALUE, 0, v⟩]
  | cons (v : Nat) (o : ExprToken) (rest : List ExprToken) :
      isBinopB o.type = true → 1 ≤ o.precedence → Flat rest →
      Flat (⟨ET_VALUE, 0, v⟩ :: o :: rest)

/-! ## The rightmost-minimum scan -/

def rminAux : List ExprToken → Nat → Nat → Nat → Nat × Nat
  | [], _, bp, bi => (bp, bi)
  | t :: rest, i, bp, bi =>
      if isBinopB t.type = true ∧ t.precedence ≤ bp then rminAux rest (i + 1) t.precedence i
      else rminAux rest (i + 1) bp bi

def rmin (F : List ExprToken) : Nat × Nat := rminAux F 0 256 0

/-! ## The reference evaluation of a flat list -/

def evalF : Nat → List ExprToken → Nat
  | 0, F => (getTok F 0).value
  | fuel + 1, F =>
      if F.length ≤ 1 then (getTok F 0).value
      else
        applyBin (getTok F (rmin F).2).type
          (evalF fuel (F.take (rmin F).2)) (evalF fuel (F.drop ((rmin F).2 + 1)))

/-! ## Flattening a derivable, unary-free segment -/

def minclass : Nat → Int
  | 3 => 1
  | 2 => 2
  | 1 => 3
  | _ => 5

/-! ## Lemmas: tokenizer capacity -/

theorem expr_tokenize_aux_count_le (mem : Mem) (vars : Nat → Nat) (nlend endIdx : Nat) :
    ∀ fuel index ws count, count ≤ EXPR_MAX_TOKENS →
      (expr_tokenize_aux mem vars nlend endIdx fuel index ws count).2 ≤ EXPR_MAX_TOKENS := by
  intro fuel
  induction fuel with
  | zero => intro index ws count h; simpa [expr_tokenize_aux] using h
  | succ n ih =>
      intro index ws count h
      by_cases hc : count = EXPR_MAX_TOKENS
      · simp [expr_tokenize_aux, hc]
      · have hlt : count + 1 ≤ EXPR_MAX_TOKENS := by
          have : count < EXPR_MAX_TOKENS := lt_of_le_of_ne h hc
          omega
        simp only [expr_tokenize_aux, hc, if_false]
        split
        · exact h
        · split
          · split
            · simp [EXPR_MAX_TOKENS]
            · exact ih _ _ _ hlt
          · split
            · exact ih _ _ _ hlt
            · split
              · exact ih _ _ _ h
              · split
                · simp [EXPR_MAX_TOKENS]
                · exact ih _ _ _ hlt

set_option maxHeartbeats 1000000 in
theorem expr_solve_core_of_full (mem : Mem) (vars : Nat → Nat) (nlend index length : Nat)
    (ws0 : List ExprToken)
    (hfull : (expr_tokenize mem vars nlend index length ws0 0).2 = EXPR_MAX_TOKENS) :
    expr_solve_core mem vars nlend index length ws0 =
        (0, true, (expr_tokenize mem vars nlend index length ws0 0).1,
          (expr_tokenize mem vars nlend index length ws0 0).2) := by
  unfold expr_solve_core
  rw [if_pos hfull]

/-! ## Lemmas: the round-trip of decimal serialization -/

theorem natDigits_digits : ∀ m, ∀ d ∈ natDigits m, 48 ≤ d ∧ d ≤ 57 := by
  intro m
  induction m using Nat.strong_induction_on with
  | _ m ih =>
      intro d hd
      by_cases h : m < 10
      · rw [natDigits, dif_pos h] at hd
        simp at hd
        omega
      · rw [natDigits, dif_neg h] at hd
        simp at hd
        rcases hd with hd | hd
        · exact ih (m / 10) (Nat.div_lt_self (by omega) (by omega)) d hd
        · have := Nat.mod_lt m (y := 10) (by omega)
          omega

theorem natDigits_ne_nil (m : Nat) : natDigits m ≠ [] := by
  rw [natDigits]
  by_cases h : m < 10 <;> simp [h]

theorem natDigits_head_ne_zero (m : Nat) (hm : 1 ≤ m) : (natDigits m).getD 0 0 ≠ 48 := by
  induction m using Nat.strong_induction_on with
  | _ m ih =>
      by_cases h : m < 10
      · rw [natDigits, dif_pos h]
        simp
        omega
      · rw [natDigits, dif_neg h]
        have h1 : 1 ≤ m / 10 := Nat.one_le_div_iff (by omega) |>.mpr (by omega)
        have hh := ih (m / 10) (Nat.div_lt_self (by omega) (by omega)) h1
        have hne := natDigits_ne_nil (m / 10)
        rcases hd : natDigits (m / 10) with _ | ⟨a, rest⟩
        · exact absurd hd hne
        · rw [hd] at hh
          simpa using hh

theorem parseFold_natDigits (m : Nat) :
    ∀ acc, parseFold (natDigits m) acc = (acc * 10 ^ (natDigits m).length + m) % W := by
  induction m using Nat.strong_induction_on with
  | _ m ih =>
      intro acc
      by_cases h : m < 10
      · rw [natDigits, dif_pos h]
        simp [parseFold]
      · rw [natDigits, dif_neg h]
        have hrec := ih (m / 10) (Nat.div_lt_self (by omega) (by omega))
        have hfold : ∀ (l : List Nat) (a : Nat),
            List.foldl (fun a d => (a * 10 + (d - 48)) % W) a l = parseFold l a := fun l a => rfl
        simp only [parseFold, List.foldl_append, List.foldl_cons, List.foldl_nil]
        rw [hfold, hrec acc]
        have hsub : m % 10 + 48 - 48 = m % 10 := by omega
        rw [hsub]
        simp only [List.length_append, List.length_cons, List.length_nil, Nat.zero_add]
        rw [pow_succ]
        have hm : acc * (10 ^ (natDigits (m / 10)).length * 10) + m
            = (acc * 10 ^ (natDigits (m / 10)).length + m / 10) * 10 + m % 10 := by
          calc acc * (10 ^ (natDigits (m / 10)).length * 10) + m
              = acc * 10 ^ (natDigits (m / 10)).length * 10 + (m / 10 * 10 + m % 10) := by
                rw [Nat.div_add_mod']; ring
            _ = (acc * 10 ^ (natDigits (m / 10)).length + m / 10) * 10 + m % 10 := by ring
        rw [hm]
        exact ((Nat.mod_modEq _ W).mul_right 10).add_right (m % 10)

theorem decDigitsAux_region (mem : Mem) :
    ∀ (ds : List Nat) (i acc fuel : Nat), ds.length < fuel →
      (∀ d ∈ ds, 48 ≤ d ∧ d ≤ 57) →
      (∀ k, k < ds.length → mem (i + k) = ds.getD k 0) →
      ¬ isdigitB (mem (i + ds.length)) →
      decDigitsAux mem fuel i acc = parseFold ds acc := by
  intro ds
  induction ds with
  | nil =>
      intro i acc fuel hf _ _ hend
      match fuel, hf with
      | fuel + 1, _ =>
        simp only [decDigitsAux]
        rw [if_neg]
        · rfl
        · simpa using hend
  | cons d rest ih =>
      intro i acc fuel hf hds hreg hend
      match fuel, hf with
      | fuel + 1, hf =>
        have hd0 : mem i = d := by simpa using hreg 0 (by simp)
        have hdig : isdigitB d := by
          have := hds d (by simp)
          simp [isdigitB]
          omega
        simp only [decDigitsAux, hd0, hdig, if_true]
        have : parseFold (d :: rest) acc = parseFold rest ((acc * 10 + (d - 48)) % W) := rfl
        rw [this]
        apply ih
        · simp only [List.length_cons] at hf
          omega
        · intro x hx; exact hds x (by simp [hx])
        · intro k hk
          have := hreg (k + 1) (by simpa using Nat.succ_lt_succ hk)
          simpa [Nat.add_assoc, Nat.add_comm 1 k] using this
        · have := hend
          simpa [Nat.add_assoc, Nat.add_comm 1 rest.length] using this

theorem alnumRunAux_region (mem : Mem) :
    ∀ (len i acc fuel : Nat), len < fuel →
      (∀ k, k < len → isalnumB (mem (i + k))) →
      ¬ isalnumB (mem (i + len)) →
      alnumRunAux mem fuel i acc = acc + len := by
  intro len
  induction len with
  | zero =>
      intro i acc fuel hf _ hend
      match fuel, hf with
      | fuel + 1, _ =>
        simp only [alnumRunAux]
        rw [if_neg (by simpa using hend)]
        omega
  | succ n ih =>
      intro i acc fuel hf hreg hend
      match fuel, hf with
      | fuel + 1, hf =>
        have h0 : isalnumB (mem i) := by simpa using hreg 0 (by omega)
        simp only [alnumRunAux, h0, if_true]
        rw [ih (i + 1) (acc + 1) fuel (by omega)]
        · omega
        · intro k hk
          have := hreg (k + 1) (by omega)
          simpa [Nat.add_assoc, Nat.add_comm 1 k] using this
        · have := hend
          simpa [Nat.add_assoc, Nat.add_comm 1 n] using this

theorem litScanAux_region (mem : Mem) (nlend : Nat) :
    ∀ (len i acc fuel : Nat), len < fuel →
      (∀ k, k < len → isalnumB (mem (i + k)) ∧ i + k < nlend) →
      (¬ isalnumB (mem (i + len)) ∨ nlend ≤ i + len) →
      litScanAux mem nlend fuel i acc = acc + len := by
  intro len
  induction len with
  | zero =>
      intro i acc fuel hf _ hend
      match fuel, hf with
      | fuel + 1, _ =>
        have hc : ¬ (isalnumB (mem i) ∧ i < nlend) := by
          rcases hend with h | h
          · intro hcc; exact h (by simpa using hcc.1)
          · intro hcc; omega
        simp only [litScanAux]
        rw [if_neg hc]
        omega
  | succ n ih =>
      intro i acc fuel hf hreg hend
      match fuel, hf with
      | fuel + 1, hf =>
        have h0 := hreg 0 (by omega)
        simp only [litScanAux]
        rw [if_pos (by simpa using h0)]
        rw [ih (i + 1) (acc + 1) fuel (by omega)]
        · omega
        · intro k hk
          have := hreg (k + 1) (by omega)
          constructor
          · have h1 := this.1
            simpa [Nat.add_assoc, Nat.add_comm 1 k] using h1
          · have h2 := this.2
            omega
        · rcases hend with h | h
          · left
            simpa [Nat.add_assoc, Nat.add_comm 1 n] using h
          · right
            omega

theorem natDigits_length_le (k : Nat) : ∀ m, m < 10 ^ k → 1 ≤ k → (natDigits m).length ≤ k := by
  induction k with
  | zero => intro m _ h; omega
  | succ k ih =>
      intro m hm _
      by_cases h : m < 10
      · rw [natDigits, dif_pos h]
        simp
      · rw [natDigits, dif_neg h]
        have hk : 1 ≤ k := by
          by_contra hk
          have : k = 0 := by omega
          subst this
          simp [pow_succ] at hm
          omega
        have : m / 10 < 10 ^ k := by
          rw [Nat.div_lt_iff_lt_mul (by omega)]
          calc m < 10 ^ (k + 1) := hm
            _ = 10 ^ k * 10 := by rw [pow_succ]
        have := ih (m / 10) this hk
        simp [List.length_append]
        omega

/-- Any digit string of a number below `2^32` fits far inside the scan fuel. -/
theorem natDigits_length_lt_fuel (m : Nat) (hm : m < 4294967296) :
    (natDigits m).length < SCAN_FUEL := by
  have h10 : m < 10 ^ 10 := by
    have : (4294967296 : Nat) < 10 ^ 10 := by norm_num
    omega
  have := natDigits_length_le 10 m h10 (by omega)
  simp [SCAN_FUEL, CODE_MEMORY_SIZE]
  omega

/-- `get_literal_number` on the memory holding exactly the digit string of
`m ≥ 1` (no leading zero) parses it as a wrapped decimal. -/
theorem get_literal_number_digits (m i : Nat) (hm : 1 ≤ m) (hlt : m < 4294967296)
    (mem : Mem) (nlend : Nat)
    (hreg : ∀ k, k < (natDigits m).length → mem (i + k) = (natDigits m).getD k 0)
    (hend : mem (i + (natDigits m).length) = 0) :
    get_literal_number mem nlend i = some (m % W) := by
  have hds := natDigits_digits m
  have hlen := natDigits_length_lt_fuel m hlt
  have hd0 : mem i = (natDigits m).getD 0 0 := by
    simpa using hreg 0 (by
      have := natDigits_ne_nil m
      cases h : natDigits m with
      | nil => exact absurd h this
      | cons a l => simp)
  have hne48 : mem i ≠ 48 := by
    rw [hd0]
    exact natDigits_head_ne_zero m hm
  have hdig : ∀ k, k < (natDigits m).length → isdigitB (mem (i + k)) := by
    intro k hk
    rw [hreg k hk]
    have hmem : (natDigits m).getD k 0 ∈ natDigits m := by
      rw [List.getD_eq_getElem (natDigits m) 0 hk]
      exact List.getElem_mem hk
    have h2 := hds _ hmem
    revert h2
    generalize (natDigits m).getD k 0 = d
    intro h2
    simp [isdigitB]
    omega
  have hendd : ¬ isdigitB (mem (i + (natDigits m).length)) := by
    rw [hend]; simp [isdigitB]
  unfold get_literal_number
  rw [if_neg (by intro hc; exact hne48 hc.2.1)]
  rw [if_neg (by intro hc; exact hne48 hc.2.1)]
  rw [if_neg (by intro hc; exact hne48 hc.2)]
  rw [decDigitsAux_region mem (natDigits m) i 0 SCAN_FUEL hlen hds hreg hendd]
  rw [parseFold_natDigits]
  simp

/-- The tokenizer loop stops as soon as `index` reaches the end of the span. -/
theorem expr_tokenize_aux_stop (mem : Mem) (vars : Nat → Nat) (nlend endIdx fuel index : Nat)
    (ws : List ExprToken) (count : Nat) (h : index ≥ endIdx) :
    expr_tokenize_aux mem vars nlend endIdx fuel index ws count = (ws, count) := by
  cases fuel with
  | zero => rfl
  | succ f =>
      simp only [expr_tokenize_aux]
      by_cases hc : count = EXPR_MAX_TOKENS
      · rw [if_pos hc]
      · rw [if_neg hc, if_pos h]

theorem natDigits_isalnum (m : Nat) : ∀ k, k < (natDigits m).length →
    isalnumB ((natDigits m).getD k 0) := by
  intro k hk
  have hmem : (natDigits m).getD k 0 ∈ natDigits m := by
    rw [List.getD_eq_getElem (natDigits m) 0 hk]
    exact List.getElem_mem hk
  have h2 := natDigits_digits m _ hmem
  revert h2
  generalize (natDigits m).getD k 0 = d
  intro h2
  simp [isalnumB, isalphaB, isdigitB, toupperB]
  omega

/-- Tokenizing exactly the digit string of `1 ≤ m < 2^32` yields one VALUE
token holding `m % W`. -/
theorem expr_tokenize_digits (m : Nat) (hm : 1 ≤ m) (hlt : m < 4294967296)
    (vars : Nat → Nat) (nlend : Nat) :
    expr_tokenize (memOfBytes (natDigits m)) vars nlend 0 (natDigits m).length freshWs 0
      = (freshWs.set 0 ⟨ET_VALUE, 0, m % W⟩, 1) := by
  have hne := natDigits_ne_nil m
  have hlen1 : 1 ≤ (natDigits m).length := by
    cases h : natDigits m with
    | nil => exact absurd h hne
    | cons a l => simp
  have hreg : ∀ k, k < (natDigits m).length →
      memOfBytes (natDigits m) (0 + k) = (natDigits m).getD k 0 := by
    intro k hk
    simp [memOfBytes]
  have hend : memOfBytes (natDigits m) (0 + (natDigits m).length) = 0 := by
    simp [memOfBytes]
  have hlit := get_literal_number_digits m 0 hm hlt (memOfBytes (natDigits m)) nlend hreg hend
  have halnum : alnumRun (memOfBytes (natDigits m)) 0 = (natDigits m).length := by
    have hr := alnumRunAux_region (memOfBytes (natDigits m)) (natDigits m).length 0 0 SCAN_FUEL
      (natDigits_length_lt_fuel m hlt)
      (fun k hk => by rw [hreg k hk]; exact natDigits_isalnum m k hk)
      (by rw [hend]; simp [isalnumB, isalphaB, isdigitB, toupperB])
    rw [alnumRun, hr]
    omega
  have hdig0 : isdigitB (memOfBytes (natDigits m) 0) := by
    have h0 : memOfBytes (natDigits m) (0 + 0) = (natDigits m).getD 0 0 := hreg 0 (by omega)
    simp only [Nat.add_zero] at h0
    rw [h0]
    have hmem : (natDigits m).getD 0 0 ∈ natDigits m := by
      rw [List.getD_eq_getElem (natDigits m) 0 (by omega)]
      exact List.getElem_mem (by omega)
    have h2 := natDigits_digits m _ hmem
    revert h2
    generalize (natDigits m).getD 0 0 = d
    intro h2
    simp [isdigitB]
    omega
  rw [expr_tokenize]
  simp only [expr_tokenize_aux]
  rw [if_neg (by decide)]
  rw [if_neg (by omega)]
  rw [if_pos hdig0]
  rw [hlit, halnum]
  exact expr_tokenize_aux_stop _ _ _ _ _ _ _ _ (by omega)

/-- Tokenizing a minus sign followed by the digit string of `1 ≤ m < 2^32`
yields a SUBTRACT token and a VALUE token holding `m % W`. -/
theorem expr_tokenize_negdigits (m : Nat) (hm : 1 ≤ m) (hlt : m < 4294967296)
    (vars : Nat → Nat) (nlend : Nat) :
    expr_tokenize (memOfBytes (45 :: natDigits m)) vars nlend 0 ((natDigits m).length + 1)
      freshWs 0
      = ((freshWs.set 0 ⟨ET_SUBTRACT, 0, 0⟩).set 1 ⟨ET_VALUE, 0, m % W⟩, 2) := by
  have hne := natDigits_ne_nil m
  have hlen1 : 1 ≤ (natDigits m).length := by
    cases h : natDigits m with
    | nil => exact absurd h hne
    | cons a l => simp
  have h45 : memOfBytes (45 :: natDigits m) 0 = 45 := rfl
  have hreg : ∀ k, k < (natDigits m).length →
      memOfBytes (45 :: natDigits m) (1 + k) = (natDigits m).getD k 0 := by
    intro k hk
    have : (1 : Nat) + k = k + 1 := by omega
    rw [this]
    simp [memOfBytes, List.getD]
  have hend : memOfBytes (45 :: natDigits m) (1 + (natDigits m).length) = 0 := by
    have : (1 : Nat) + (natDigits m).length = (natDigits m).length + 1 := by omega
    rw [this]
    simp [memOfBytes, List.getD]
  have hlit := get_literal_number_digits m 1 hm hlt (memOfBytes (45 :: natDigits m)) nlend hreg
    hend
  have halnum : alnumRun (memOfBytes (45 :: natDigits m)) 1 = (natDigits m).length := by
    have hr := alnumRunAux_region (memOfBytes (45 :: natDigits m)) (natDigits m).length 1 0
      SCAN_FUEL (natDigits_length_lt_fuel m hlt)
      (fun k hk => by rw [hreg k hk]; exact natDigits_isalnum m k hk)
      (by rw [hend]; simp [isalnumB, isalphaB, isdigitB, toupperB])
    rw [alnumRun, hr]
    omega
  have hdig1 : isdigitB (memOfBytes (45 :: natDigits m) 1) := by
    have h0 : memOfBytes (45 :: natDigits m) (1 + 0) = (natDigits m).getD 0 0 := hreg 0 (by omega)
    simp only [Nat.add_zero] at h0
    rw [h0]
    have hmem : (natDigits m).getD 0 0 ∈ natDigits m := by
      rw [List.getD_eq_getElem (natDigits m) 0 (by omega)]
      exact List.getElem_mem (by omega)
    have h2 := natDigits_digits m _ hmem
    revert h2
    generalize (natDigits m).getD 0 0 = d
    intro h2
    simp [isdigitB]
    omega
  rw [expr_tokenize]
  simp only [expr_tokenize_aux]
  rw [if_neg (by decide)]
  rw [if_neg (by omega)]
  rw [h45]
  rw [if_neg (by decide)]
  rw [if_neg (by decide)]
  rw [if_neg (by decide)]
  rw [if_neg (by decide)]
  rw [if_neg (by decide)]
  rw [if_neg (by omega)]
  rw [if_pos hdig1]
  rw [hlit, halnum]
  exact expr_tokenize_aux_stop (memOfBytes (45 :: natDigits m)) vars nlend
    (0 + ((natDigits m).length + 1)) (natDigits m).length (0 + 1 + (natDigits m).length)
    ((freshWs.set 0 ⟨opTokenType 45, 0, 0⟩).set (0 + 1) ⟨ET_VALUE, 0, m % W⟩) (0 + 1 + 1)
    (by omega)

set_option maxHeartbeats 10000000 in
/-- Running the solve pipeline on a workspace holding a single VALUE token
returns that token's value with the error flag clear. -/
theorem expr_solve_core_single_value (mem : Mem) (vars : Nat → Nat)
    (nlend index length v : Nat)
    (ht : expr_tokenize mem vars nlend index length freshWs 0
      = (freshWs.set 0 ⟨ET_VALUE, 0, v⟩, 1)) :
    (expr_solve_core mem vars nlend index length freshWs).1 = v ∧
    (expr_solve_core mem vars nlend index length freshWs).2.1 = false := by
  unfold expr_solve_core
  rw [ht]
  exact ⟨rfl, rfl⟩

set_option maxHeartbeats 10000000 in
/-- Running the solve pipeline on a workspace holding a SUBTRACT token and a
VALUE token applies the unary negation and returns the negated value. -/
theorem expr_solve_core_neg_value (mem : Mem) (vars : Nat → Nat)
    (nlend index length v : Nat)
    (ht : expr_tokenize mem vars nlend index length freshWs 0
      = ((freshWs.set 0 ⟨ET_SUBTRACT, 0, 0⟩).set 1 ⟨ET_VALUE, 0, v⟩, 2)) :
    (expr_solve_core mem vars nlend index length freshWs).1 = neg32 v ∧
    (expr_solve_core mem vars nlend index length freshWs).2.1 = false := by
  unfold expr_solve_core
  rw [ht]
  exact ⟨rfl, rfl⟩

theorem get_literal_number_zero (nlend : Nat) :
    get_literal_number (memOfBytes [48]) nlend 0 = some 0 := by
  have hlen : litScanLen (memOfBytes [48]) nlend 0 ≤ 1 := by
    by_cases hn : 0 < nlend
    · have hr := litScanAux_region (memOfBytes [48]) nlend 1 0 0 SCAN_FUEL (by decide)
        (fun k hk => by
          have hk0 : k = 0 := by omega
          subst hk0
          exact ⟨by decide, by omega⟩)
        (by left; decide)
      rw [litScanLen, hr]
    · have hr := litScanAux_region (memOfBytes [48]) nlend 0 0 0 SCAN_FUEL (by decide)
        (fun k hk => absurd hk (by omega))
        (by right; omega)
      rw [litScanLen, hr]
      omega
  have hdec : decDigitsAux (memOfBytes [48]) SCAN_FUEL 0 0 = 0 := by
    have hr := decDigitsAux_region (memOfBytes [48]) [48] 0 0 SCAN_FUEL (by decide)
      (by intro d hd; simp at hd; omega)
      (fun k hk => by
        have hk1 : k < 1 := by simpa using hk
        have hk0 : k = 0 := by omega
        subst hk0
        rfl)
      (by decide)
    rw [hr]
    rfl
  unfold get_literal_number
  rw [if_neg (by intro hc; have := hc.1; omega)]
  rw [if_neg (by intro hc; have := hc.1; omega)]
  rw [if_neg (by intro hc; have := hc.1; omega)]
  rw [hdec]

theorem expr_tokenize_zero (vars : Nat → Nat) (nlend : Nat) :
    expr_tokenize (memOfBytes [48]) vars nlend 0 1 freshWs 0
      = (freshWs.set 0 ⟨ET_VALUE, 0, 0⟩, 1) := by
  have halnum : alnumRun (memOfBytes [48]) 0 = 1 := by
    have hr := alnumRunAux_region (memOfBytes [48]) 1 0 0 SCAN_FUEL (by decide)
      (fun k hk => by
        have hk0 : k = 0 := by omega
        subst hk0
        decide)
      (by decide)
    rw [alnumRun, hr]
  rw [expr_tokenize]
  simp only [expr_tokenize_aux]
  rw [if_neg (by decide)]
  rw [if_neg (by decide)]
  rw [if_pos (by decide)]
  rw [get_literal_number_zero nlend, halnum]
  exact expr_tokenize_aux_stop (memOfBytes [48]) vars nlend (0 + 1) 1 (0 + 1)
    (freshWs.set 0 ⟨ET_VALUE, 0, 0⟩) (0 + 1) (by omega)

theorem toSigned_of_lt (m : Nat) (h : m < 2147483648) : toSigned m = (m : Int) := by
  rw [toSigned, if_pos h]

theorem neg32_eq_sub (m : Nat) (h1 : 1 ≤ m) (h2 : m ≤ 4294967296) : neg32 m = W - m := by
  simp only [neg32, ofInt, W]
  omega

theorem toSigned_neg32 (m : Nat) (h1 : 1 ≤ m) (h2 : m ≤ 2147483648) :
    toSigned (neg32 m) = -(m : Int) := by
  rw [neg32_eq_sub m h1 (by omega)]
  simp only [toSigned, W]
  rw [if_neg (by omega)]
  omega

/-! ## Lemmas: single-operation solves against the reference grammar -/

/-- Every derivable token list contains a VALUE token. -/
theorem gram_has_value (lvl : Nat) (l : List ExprToken) (v : Nat) (h : Gram lvl l v) :
    ∃ t, t ∈ l ∧ t.type = ET_VALUE := by
  induction h with
  | value p v => exact ⟨⟨ET_VALUE, p, v⟩, by simp, rfl⟩
  | paren p q l v h ih =>
      obtain ⟨t, ht, hty⟩ := ih
      exact ⟨t, by simp [ht], hty⟩
  | pos p q v => exact ⟨⟨ET_VALUE, q, v⟩, by simp, rfl⟩
  | neg p q v => exact ⟨⟨ET_VALUE, q, v⟩, by simp, rfl⟩
  | inv p q v => exact ⟨⟨ET_VALUE, q, v⟩, by simp, rfl⟩
  | up1 l v h ih => exact ih
  | mul p l1 l2 v1 v2 h1 h2 ih1 ih2 =>
      obtain ⟨t, ht, hty⟩ := ih1
      exact ⟨t, by simp [ht], hty⟩
  | div p l1 l2 v1 v2 h1 h2 ih1 ih2 =>
      obtain ⟨t, ht, hty⟩ := ih1
      exact ⟨t, by simp [ht], hty⟩
  | rem p l1 l2 v1 v2 h1 h2 ih1 ih2 =>
      obtain ⟨t, ht, hty⟩ := ih1
      exact ⟨t, by simp [ht], hty⟩
  | up2 l v h ih => exact ih
  | add p l1 l2 v1 v2 h1 h2 ih1 ih2 =>
      obtain ⟨t, ht, hty⟩ := ih1
      exact ⟨t, by simp [ht], hty⟩
  | sub p l1 l2 v1 v2 h1 h2 ih1 ih2 =>
      obtain ⟨t, ht, hty⟩ := ih1
      exact ⟨t, by simp [ht], hty⟩
  | up3 l v h ih => exact ih
  | band p l1 l2 v1 v2 h1 h2 ih1 ih2 =>
      obtain ⟨t, ht, hty⟩ := ih1
      exact ⟨t, by simp [ht], hty⟩
  | bor p l1 l2 v1 v2 h1 h2 ih1 ih2 =>
      obtain ⟨t, ht, hty⟩ := ih1
      exact ⟨t, by simp [ht], hty⟩
  | bxor p l1 l2 v1 v2 h1 h2 ih1 ih2 =>
      obtain ⟨t, ht, hty⟩ := ih1
      exact ⟨t, by simp [ht], hty⟩

/-- The empty bracket pair derives no value at any level. -/
theorem gram_no_empty_brackets :
    ¬ ∃ lvl v, Gram lvl [⟨ET_SUBEXPR_OPEN, 0, 0⟩, ⟨ET_SUBEXPR_CLOSE, 0, 0⟩] v := by
  rintro ⟨lvl, v, h⟩
  obtain ⟨t, ht, hty⟩ := gram_has_value lvl _ v h
  simp at ht
  rcases ht with ht | ht <;> rw [ht] at hty <;> exact absurd hty (by decide)

theorem isalnum_of_isdigit (b : Nat) (h : isdigitB b) : isalnumB b := by
  simp [isalnumB, h]

theorem alnumRunAux_acc_le (mem : Mem) :
    ∀ fuel i acc, acc ≤ alnumRunAux mem fuel i acc := by
  intro fuel
  induction fuel with
  | zero => intro i acc; exact Nat.le_refl acc
  | succ f ih =>
      intro i acc
      simp only [alnumRunAux]
      by_cases h : isalnumB (mem i)
      · rw [if_pos h]
        have := ih (i + 1) (acc + 1)
        omega
      · rw [if_neg h]

theorem alnumRunAux_pos (mem : Mem) :
    ∀ fuel i, isalnumB (mem i) → 1 ≤ fuel → 1 ≤ alnumRunAux mem fuel i 0 := by
  intro fuel i h hf
  match fuel, hf with
  | f + 1, _ =>
    simp only [alnumRunAux]
    rw [if_pos h]
    exact le_trans (by omega) (alnumRunAux_acc_le mem f (i + 1) (0 + 1))

theorem alnumRun_pos (mem : Mem) (i : Nat) (h : isalnumB (mem i)) : 1 ≤ alnumRun mem i := by
  rw [alnumRun]
  exact alnumRunAux_pos mem SCAN_FUEL i h (by decide)

/-- The tokenizer result does not depend on the fuel, as long as the fuel
covers the remaining span (every iteration advances the index). -/
theorem expr_tokenize_aux_fuel_cast (mem : Mem) (vars : Nat → Nat) (nlend endIdx : Nat) :
    ∀ fuel fuel' index ws count, endIdx ≤ index + fuel → endIdx ≤ index + fuel' →
      expr_tokenize_aux mem vars nlend endIdx fuel index ws count
        = expr_tokenize_aux mem vars nlend endIdx fuel' index ws count := by
  intro fuel
  induction fuel with
  | zero =>
      intro fuel' index ws count h h'
      have hstop : index ≥ endIdx := by omega
      rw [expr_tokenize_aux_stop mem vars nlend endIdx 0 index ws count hstop,
          expr_tokenize_aux_stop mem vars nlend endIdx fuel' index ws count hstop]
  | succ f ih =>
      intro fuel' index ws count h h'
      by_cases hstop : index ≥ endIdx
      · rw [expr_tokenize_aux_stop mem vars nlend endIdx (f + 1) index ws count hstop,
            expr_tokenize_aux_stop mem vars nlend endIdx fuel' index ws count hstop]
      · cases fuel' with
        | zero => omega
        | succ f' =>
            simp only [expr_tokenize_aux]
            by_cases hc : count = EXPR_MAX_TOKENS
            · rw [if_pos hc, if_pos hc]
            · rw [if_neg hc, if_neg hc, if_neg hstop, if_neg hstop]
              by_cases hd : isdigitB (mem index)
              · rw [if_pos hd, if_pos hd]
                cases hg : get_literal_number mem nlend index with
                | none => rfl
                | some v =>
                    have hrun := alnumRun_pos mem index (isalnum_of_isdigit _ hd)
                    exact ih f' (index + alnumRun mem index) _ _ (by omega) (by omega)
              · rw [if_neg hd, if_neg hd]
                by_cases ha : isalphaB (mem index)
                · rw [if_pos ha, if_pos ha]
                  exact ih f' (index + 1) _ _ (by omega) (by omega)
                · rw [if_neg ha, if_neg ha]
                  by_cases hb : mem index = 32 ∨ mem index = 9
                  · rw [if_pos hb, if_pos hb]
                    exact ih f' (index + 1) _ _ (by omega) (by omega)
                  · rw [if_neg hb, if_neg hb]
                    by_cases hop : opTokenType (mem index) = ET_NONE
                    · rw [if_pos hop, if_pos hop]
                    · rw [if_neg hop, if_neg hop]
                      exact ih f' (index + 1) _ _ (by omega) (by omega)

/-- `get_literal_number` on a digit region of the string of `m ≥ 1`
followed by any non-digit byte parses it as a wrapped decimal. -/
theorem get_literal_number_digits_stop (m i : Nat) (hm : 1 ≤ m) (hlt : m < 4294967296)
    (mem : Mem) (nlend : Nat)
    (hreg : ∀ k, k < (natDigits m).length → mem (i + k) = (natDigits m).getD k 0)
    (hstop : ¬ isdigitB (mem (i + (natDigits m).length))) :
    get_literal_number mem nlend i = some (m % W) := by
  have hds := natDigits_digits m
  have hlen := natDigits_length_lt_fuel m hlt
  have hd0 : mem i = (natDigits m).getD 0 0 := by
    simpa using hreg 0 (by
      have := natDigits_ne_nil m
      cases h : natDigits m with
      | nil => exact absurd h this
      | cons a l => simp)
  have hne48 : mem i ≠ 48 := by
    rw [hd0]
    exact natDigits_head_ne_zero m hm
  unfold get_literal_number
  rw [if_neg (by intro hc; exact hne48 hc.2.1)]
  rw [if_neg (by intro hc; exact hne48 hc.2.1)]
  rw [if_neg (by intro hc; exact hne48 hc.2)]
  rw [decDigitsAux_region mem (natDigits m) i 0 SCAN_FUEL hlen hds hreg hstop]
  rw [parseFold_natDigits]
  simp

/-- The alphanumeric run over the digit string of `m` followed by a
non-alphanumeric byte has exactly the digit string's length. -/
theorem alnumRun_digits_stop (m i : Nat) (hlt : m < 4294967296) (mem : Mem)
    (hreg : ∀ k, k < (natDigits m).length → mem (i + k) = (natDigits m).getD k 0)
    (hstop : ¬ isalnumB (mem (i + (natDigits m).length))) :
    alnumRun mem i = (natDigits m).length := by
  have hr := alnumRunAux_region mem (natDigits m).length i 0 SCAN_FUEL
    (natDigits_length_lt_fuel m hlt)
    (fun k hk => by rw [hreg k hk]; exact natDigits_isalnum m k hk)
    hstop
  rw [alnumRun, hr]
  omega

theorem isdigitB_natDigits_getD (m k : Nat) (hk : k < (natDigits m).length) :
    isdigitB ((natDigits m).getD k 0) := by
  have hmem : (natDigits m).getD k 0 ∈ natDigits m := by
    rw [List.getD_eq_getElem (natDigits m) 0 hk]
    exact List.getElem_mem hk
  have h2 := natDigits_digits m _ hmem
  revert h2
  generalize (natDigits m).getD k 0 = d
  intro h2
  simp [isdigitB]
  omega

set_option maxHeartbeats 1000000 in
/-- Tokenizing `literal ⊕ literal` (an operator byte between two decimal
digit strings) yields VALUE, operator, VALUE. -/
theorem expr_tokenize_two_literals (mem : Mem) (vars : Nat → Nat) (nlend : Nat)
    (m1 m2 o : Nat) (hm1 : 1 ≤ m1) (hl1 : m1 < 4294967296) (hm2 : 1 ≤ m2)
    (hl2 : m2 < 4294967296)
    (ho : opTokenType o ≠ ET_NONE) (hoan : ¬ isalnumB o) (hob : ¬ (o = 32 ∨ o = 9))
    (hreg1 : ∀ k, k < (natDigits m1).length → mem (0 + k) = (natDigits m1).getD k 0)
    (hmo : mem ((natDigits m1).length) = o)
    (hreg2 : ∀ k, k < (natDigits m2).length →
      mem ((natDigits m1).length + 1 + k) = (natDigits m2).getD k 0)
    (hend2 : mem ((natDigits m1).length + 1 + (natDigits m2).length) = 0) :
    expr_tokenize mem vars nlend 0 ((natDigits m1).length + 1 + (natDigits m2).length)
      freshWs 0
      = (((freshWs.set 0 ⟨ET_VALUE, 0, m1 % W⟩).set 1 ⟨opTokenType o, 0, 0⟩).set 2
          ⟨ET_VALUE, 0, m2 % W⟩, 3) := by
  have hL1 : 1 ≤ (natDigits m1).length := by
    cases h : natDigits m1 with
    | nil => exact absurd h (natDigits_ne_nil m1)
    | cons a l => simp
  have hL2 : 1 ≤ (natDigits m2).length := by
    cases h : natDigits m2 with
    | nil => exact absurd h (natDigits_ne_nil m2)
    | cons a l => simp
  have hod : ¬ isdigitB o := fun h => hoan (isalnum_of_isdigit o h)
  have hoa : ¬ isalphaB o := fun h => hoan (by simp [isalnumB, h])
  have hdig0 : isdigitB (mem 0) := by
    have h0 := hreg1 0 (by omega)
    simp only [Nat.add_zero] at h0
    rw [h0]
    exact isdigitB_natDigits_getD m1 0 (by omega)
  have hdig2 : isdigitB (mem ((natDigits m1).length + 1)) := by
    have h0 := hreg2 0 (by omega)
    simp only [Nat.add_zero] at h0
    rw [h0]
    exact isdigitB_natDigits_getD m2 0 (by omega)
  have hstop1d : ¬ isdigitB (mem (0 + (natDigits m1).length)) := by
    rw [Nat.zero_add, hmo]
    exact hod
  have hstop1a : ¬ isalnumB (mem (0 + (natDigits m1).length)) := by
    rw [Nat.zero_add, hmo]
    exact hoan
  have hlit1 := get_literal_number_digits_stop m1 0 hm1 hl1 mem nlend hreg1 hstop1d
  have halnum1 := alnumRun_digits_stop m1 0 hl1 mem hreg1 hstop1a
  have hstop2d : ¬ isdigitB (mem ((natDigits m1).length + 1 + (natDigits m2).length)) := by
    rw [hend2]
    decide
  have hstop2a : ¬ isalnumB (mem ((natDigits m1).length + 1 + (natDigits m2).length)) := by
    rw [hend2]
    decide
  have hlit2 := get_literal_number_digits_stop m2 ((natDigits m1).length + 1) hm2 hl2 mem nlend
    hreg2 hstop2d
  have halnum2 := alnumRun_digits_stop m2 ((natDigits m1).length + 1) hl2 mem hreg2 hstop2a
  have e1 : expr_tokenize mem vars nlend 0
      ((natDigits m1).length + 1 + (natDigits m2).length) freshWs 0
      = expr_tokenize_aux mem vars nlend ((natDigits m1).length + 1 + (natDigits m2).length)
        ((natDigits m1).length + 1 + (natDigits m2).length + 1) 0 freshWs 0 := by
    rw [expr_tokenize, Nat.zero_add]
  have e2 : expr_tokenize_aux mem vars nlend
      ((natDigits m1).length + 1 + (natDigits m2).length)
      ((natDigits m1).length + 1 + (natDigits m2).length + 1) 0 freshWs 0
      = expr_tokenize_aux mem vars nlend ((natDigits m1).length + 1 + (natDigits m2).length)
        ((natDigits m1).length + 1 + (natDigits m2).length) (0 + alnumRun mem 0)
        (freshWs.set 0 ⟨ET_VALUE, 0, m1 % W⟩) (0 + 1) := by
    simp only [expr_tokenize_aux]
    rw [if_neg (by decide), if_neg (by omega), if_pos hdig0, hlit1]
  have e3 : expr_tokenize_aux mem vars nlend
      ((natDigits m1).length + 1 + (natDigits m2).length)
      ((natDigits m1).length + 1 + (natDigits m2).length) (0 + alnumRun mem 0)
      (freshWs.set 0 ⟨ET_VALUE, 0, m1 % W⟩) (0 + 1)
      = expr_tokenize_aux mem vars nlend ((natDigits m1).length + 1 + (natDigits m2).length)
        ((natDigits m2).length + 1 + 1) ((natDigits m1).length)
        (freshWs.set 0 ⟨ET_VALUE, 0, m1 % W⟩) (0 + 1) := by
    rw [halnum1, Nat.zero_add]
    exact expr_tokenize_aux_fuel_cast mem vars nlend
      ((natDigits m1).length + 1 + (natDigits m2).length)
      ((natDigits m1).length + 1 + (natDigits m2).length) ((natDigits m2).length + 1 + 1)
      ((natDigits m1).length) (freshWs.set 0 ⟨ET_VALUE, 0, m1 % W⟩) (0 + 1)
      (by omega) (by omega)
  have e4 : expr_tokenize_aux mem vars nlend
      ((natDigits m1).length + 1 + (natDigits m2).length)
      ((natDigits m2).length + 1 + 1) ((natDigits m1).length)
      (freshWs.set 0 ⟨ET_VALUE, 0, m1 % W⟩) (0 + 1)
      = expr_tokenize_aux mem vars nlend ((natDigits m1).length + 1 + (natDigits m2).length)
        ((natDigits m2).length + 1) ((natDigits m1).length + 1)
        ((freshWs.set 0 ⟨ET_VALUE, 0, m1 % W⟩).set (0 + 1) ⟨opTokenType o, 0, 0⟩)
        (0 + 1 + 1) := by
    simp only [expr_tokenize_aux]
    rw [if_neg (by decide), if_neg (by omega), hmo]
    rw [if_neg hod, if_neg hoa, if_neg hob, if_neg ho]
  have e5 : expr_tokenize_aux mem vars nlend
      ((natDigits m1).length + 1 + (natDigits m2).length)
      ((natDigits m2).length + 1) ((natDigits m1).length + 1)
      ((freshWs.set 0 ⟨ET_VALUE, 0, m1 % W⟩).set (0 + 1) ⟨opTokenType o, 0, 0⟩)
      (0 + 1 + 1)
      = expr_tokenize_aux mem vars nlend ((natDigits m1).length + 1 + (natDigits m2).length)
        ((natDigits m2).length) ((natDigits m1).length + 1 + alnumRun mem ((natDigits m1).length + 1))
        (((freshWs.set 0 ⟨ET_VALUE, 0, m1 % W⟩).set (0 + 1) ⟨opTokenType o, 0, 0⟩).set
          (0 + 1 + 1) ⟨ET_VALUE, 0, m2 % W⟩)
        (0 + 1 + 1 + 1) := by
    simp only [expr_tokenize_aux]
    rw [if_neg (by decide), if_neg (by omega), if_pos hdig2, hlit2]
  have e6 : expr_tokenize_aux mem vars nlend
      ((natDigits m1).length + 1 + (natDigits m2).length)
      ((natDigits m2).length) ((natDigits m1).length + 1 + alnumRun mem ((natDigits m1).length + 1))
      (((freshWs.set 0 ⟨ET_VALUE, 0, m1 % W⟩).set (0 + 1) ⟨opTokenType o, 0, 0⟩).set
        (0 + 1 + 1) ⟨ET_VALUE, 0, m2 % W⟩)
      (0 + 1 + 1 + 1)
      = (((freshWs.set 0 ⟨ET_VALUE, 0, m1 % W⟩).set (0 + 1) ⟨opTokenType o, 0, 0⟩).set
          (0 + 1 + 1) ⟨ET_VALUE, 0, m2 % W⟩, 0 + 1 + 1 + 1) := by
    rw [halnum2]
    exact expr_tokenize_aux_stop mem vars nlend
      ((natDigits m1).length + 1 + (natDigits m2).length) ((natDigits m2).length)
      ((natDigits m1).length + 1 + (natDigits m2).length)
      (((freshWs.set 0 ⟨ET_VALUE, 0, m1 % W⟩).set (0 + 1) ⟨opTokenType o, 0, 0⟩).set
        (0 + 1 + 1) ⟨ET_VALUE, 0, m2 % W⟩)
      (0 + 1 + 1 + 1) (by omega)
  exact (((((e1.trans e2).trans e3).trans e4).trans e5).trans e6).trans (by rfl)

theorem memOfBytes_two_literals_reg1 (d1 d2 : List Nat) (o : Nat) :
    ∀ k, k < d1.length → memOfBytes (d1 ++ o :: d2) (0 + k) = d1.getD k 0 := by
  intro k hk
  rw [Nat.zero_add]
  simp only [memOfBytes]
  rw [List.getD_append _ _ _ _ hk]

theorem memOfBytes_two_literals_op (d1 d2 : List Nat) (o : Nat) :
    memOfBytes (d1 ++ o :: d2) d1.length = o := by
  simp only [memOfBytes]
  rw [List.getD_append_right _ _ _ _ (Nat.le_refl _)]
  simp

theorem memOfBytes_two_literals_reg2 (d1 d2 : List Nat) (o : Nat) :
    ∀ k, k < d2.length → memOfBytes (d1 ++ o :: d2) (d1.length + 1 + k) = d2.getD k 0 := by
  intro k hk
  simp only [memOfBytes]
  rw [List.getD_append_right _ _ _ _ (by omega)]
  have h : d1.length + 1 + k - d1.length = k + 1 := by omega
  rw [h]
  simp

theorem memOfBytes_two_literals_end (d1 d2 : List Nat) (o : Nat) :
    memOfBytes (d1 ++ o :: d2) (d1.length + 1 + d2.length) = 0 := by
  simp only [memOfBytes]
  rw [List.getD_eq_default]
  simp
  omega

/-- Tokenizing the span `decimal(m1) ⊕ decimal(m2)` for an operator byte. -/
theorem expr_tokenize_binop (m1 m2 o : Nat) (hm1 : 1 ≤ m1) (hl1 : m1 < 4294967296)
    (hm2 : 1 ≤ m2) (hl2 : m2 < 4294967296)
    (ho : opTokenType o ≠ ET_NONE) (hoan : ¬ isalnumB o) (hob : ¬ (o = 32 ∨ o = 9))
    (vars : Nat → Nat) (nlend : Nat) :
    expr_tokenize (memOfBytes (natDigits m1 ++ o :: natDigits m2)) vars nlend 0
      ((natDigits m1).length + 1 + (natDigits m2).length) freshWs 0
      = (((freshWs.set 0 ⟨ET_VALUE, 0, m1 % W⟩).set 1 ⟨opTokenType o, 0, 0⟩).set 2
          ⟨ET_VALUE, 0, m2 % W⟩, 3) :=
  expr_tokenize_two_literals (memOfBytes (natDigits m1 ++ o :: natDigits m2)) vars nlend
    m1 m2 o hm1 hl1 hm2 hl2 ho hoan hob
    (memOfBytes_two_literals_reg1 (natDigits m1) (natDigits m2) o)
    (memOfBytes_two_literals_op (natDigits m1) (natDigits m2) o)
    (memOfBytes_two_literals_reg2 (natDigits m1) (natDigits m2) o)
    (memOfBytes_two_literals_end (natDigits m1) (natDigits m2) o)


theorem getTok_set_self (ws : List ExprToken) (i : Nat) (t : ExprToken) (h : i < ws.length) :
    getTok (ws.set i t) i = t := by
  simp [getTok, List.getD, List.getElem?_set_self, h]

theorem getTok_set_ne (ws : List ExprToken) (i j : Nat) (t : ExprToken) (h : i ≠ j) :
    getTok (ws.set i t) j = getTok ws j := by
  simp [getTok, List.getD, List.getElem?_set_ne, h]

theorem getTok_freshWs (j : Nat) : getTok freshWs j = ⟨ET_NONE, 0, 0⟩ := by
  by_cases h : j < 64
  · rw [getTok, freshWs, List.getD_eq_getElem _ _ (by simpa using h), List.getElem_replicate]
    rfl
  · rw [getTok, freshWs, List.getD_eq_default _ _ (by simpa using h)]
    rfl

/-- On a three-token workspace `VALUE op VALUE` (with a clean stale slot),
the unary pass changes nothing. -/
theorem expr_reduce_unary_binop (ws : List ExprToken) (ty v1 v2 : Nat)
    (h0 : getTok ws 0 = ⟨ET_VALUE, 0, v1⟩) (h1 : getTok ws 1 = ⟨ty, 0, 0⟩)
    (h2 : getTok ws 2 = ⟨ET_VALUE, 0, v2⟩) (h3 : getTok ws 3 = ⟨ET_NONE, 0, 0⟩)
    (hty1 : 2 ≤ ty) (hty2 : ty ≤ 9) :
    expr_reduce_unary ws 3 = (ws, 3, false) := by
  have e11 : ty ≠ 11 := by omega
  have e1 : ty ≠ 1 := by omega
  have e12 : ty ≠ 12 := by omega
  rw [expr_reduce_unary]
  simp [expr_reduce_unary_aux, h0, h1, h2, h3, e11, e1, e12, ET_VALUE, ET_NONE,
    ET_SUBEXPR_OPEN, ET_SUBEXPR_CLOSE, ET_ADD, ET_SUBTRACT, ET_INVERT]

/-- Precedence assignment on `VALUE op VALUE`: the operator receives its
class precedence (1 for `| & ^`, 2 for `+ -`, 3 for `* / %`), no error. -/
theorem expr_calc_precedence_binop (ws : List ExprToken) (ty v1 v2 c : Nat)
    (h0 : getTok ws 0 = ⟨ET_VALUE, 0, v1⟩) (h1 : getTok ws 1 = ⟨ty, 0, 0⟩)
    (h2 : getTok ws 2 = ⟨ET_VALUE, 0, v2⟩)
    (hc : (c = 1 ∧ (ty = 7 ∨ ty = 8 ∨ ty = 9)) ∨ (c = 2 ∧ (ty = 2 ∨ ty = 3)) ∨
      (c = 3 ∧ (ty = 4 ∨ ty = 5 ∨ ty = 6))) :
    expr_calc_precedence ws 3 = (ws.set 1 ⟨ty, c, 0⟩, false) := by
  rw [expr_calc_precedence]
  rcases hc with ⟨hc1, hty | hty | hty⟩ | ⟨hc1, hty | hty⟩ | ⟨hc1, hty | hty | hty⟩ <;>
    subst hc1 <;> subst hty <;>
    simp [expr_calc_precedence_aux, h0, h1, h2, getTok_set_ne, prec8, ET_VALUE, ET_AND,
      ET_OR, ET_XOR, ET_ADD, ET_SUBTRACT, ET_MULTIPLY, ET_DIVIDE, ET_REMAINDER,
      ET_SUBEXPR_OPEN, ET_SUBEXPR_CLOSE]

/-- The bracket filter is the identity (re-copy) on `VALUE op VALUE`. -/
theorem expr_filter_binop (ws : List ExprToken) (ty v1 v2 c : Nat)
    (h0 : getTok ws 0 = ⟨ET_VALUE, 0, v1⟩) (h1 : getTok ws 1 = ⟨ty, c, 0⟩)
    (h2 : getTok ws 2 = ⟨ET_VALUE, 0, v2⟩)
    (hty1 : 2 ≤ ty) (hty2 : ty ≤ 9) :
    expr_filter_brackets ws 3
      = (((ws.set 0 ⟨ET_VALUE, 0, v1⟩).set 1 ⟨ty, c, 0⟩).set 2 ⟨ET_VALUE, 0, v2⟩, 3) := by
  have e11 : ty ≠ 11 := by omega
  have e12 : ty ≠ 12 := by omega
  rw [expr_filter_brackets]
  simp [expr_filter_aux, h0, h1, h2, getTok_set_ne, e11, e12, ET_VALUE,
    ET_SUBEXPR_OPEN, ET_SUBEXPR_CLOSE]

/-- The reduce loop on `VALUE op VALUE` performs the single binary
operation and leaves one VALUE. -/
theorem expr_solve_loop_binop (ws : List ExprToken) (ty v1 v2 c : Nat)
    (h0 : getTok ws 0 = ⟨ET_VALUE, 0, v1⟩) (h1 : getTok ws 1 = ⟨ty, c, 0⟩)
    (h2 : getTok ws 2 = ⟨ET_VALUE, 0, v2⟩)
    (hc1 : 1 ≤ c) (hty1 : 2 ≤ ty) (hty2 : ty ≤ 9) :
    expr_solve_loop ws 3 = (ws.set 0 ⟨ET_VALUE, 0, applyBin ty v1 v2⟩, 1, false) := by
  have hcpos : 0 < c := hc1
  have hcne : c ≠ 0 := by omega
  have hdisj : ty = ET_MULTIPLY ∨ ty = ET_DIVIDE ∨ ty = ET_REMAINDER ∨ ty = ET_ADD ∨
      ty = ET_SUBTRACT ∨ ty = ET_AND ∨ ty = ET_OR ∨ ty = ET_XOR := by
    simp only [ET_MULTIPLY, ET_DIVIDE, ET_REMAINDER, ET_ADD, ET_SUBTRACT, ET_AND, ET_OR,
      ET_XOR]
    omega
  rw [expr_solve_loop]
  simp [expr_solve_loop_aux, expr_reduce, expr_find_max, expr_find_max_aux,
    expr_reduce_check, expr_erase, expr_erase_aux, h0, h1, h2, hcpos, hcne, hdisj,
    getTok_set_ne, ET_VALUE]

/-- `expr_solve` on a span that tokenizes to `VALUE op VALUE` returns the
wrapped binary application, error-free. -/
theorem expr_solve_core_binop (mem : Mem) (vars : Nat → Nat)
    (nlend index length ty c v1 v2 : Nat)
    (ht : expr_tokenize mem vars nlend index length freshWs 0
      = (((freshWs.set 0 ⟨ET_VALUE, 0, v1⟩).set 1 ⟨ty, 0, 0⟩).set 2 ⟨ET_VALUE, 0, v2⟩, 3))
    (hc : (c = 1 ∧ (ty = 7 ∨ ty = 8 ∨ ty = 9)) ∨ (c = 2 ∧ (ty = 2 ∨ ty = 3)) ∨
      (c = 3 ∧ (ty = 4 ∨ ty = 5 ∨ ty = 6))) :
    (expr_solve_core mem vars nlend index length freshWs).1 = applyBin ty v1 v2 ∧
    (expr_solve_core mem vars nlend index length freshWs).2.1 = false := by
  have hty1 : 2 ≤ ty := by rcases hc with ⟨_, h⟩ | ⟨_, h⟩ | ⟨_, h⟩ <;> omega
  have hty2 : ty ≤ 9 := by rcases hc with ⟨_, h⟩ | ⟨_, h⟩ | ⟨_, h⟩ <;> omega
  have hc1 : 1 ≤ c := by rcases hc with ⟨h, _⟩ | ⟨h, _⟩ | ⟨h, _⟩ <;> omega
  have hlen0 : (0 : Nat) < freshWs.length := by simp [freshWs]
  have hlen1 : (1 : Nat) < (freshWs.set 0 ⟨ET_VALUE, 0, v1⟩).length := by simp [freshWs]
  have hlen2 : (2 : Nat) <
      ((freshWs.set 0 ⟨ET_VALUE, 0, v1⟩).set 1 ⟨ty, 0, 0⟩).length := by simp [freshWs]
  have hA0 : getTok (((freshWs.set 0 ⟨ET_VALUE, 0, v1⟩).set 1 ⟨ty, 0, 0⟩).set 2
      ⟨ET_VALUE, 0, v2⟩) 0 = ⟨ET_VALUE, 0, v1⟩ := by
    rw [getTok_set_ne _ _ _ _ (by omega), getTok_set_ne _ _ _ _ (by omega),
      getTok_set_self _ _ _ hlen0]
  have hA1 : getTok (((freshWs.set 0 ⟨ET_VALUE, 0, v1⟩).set 1 ⟨ty, 0, 0⟩).set 2
      ⟨ET_VALUE, 0, v2⟩) 1 = ⟨ty, 0, 0⟩ := by
    rw [getTok_set_ne _ _ _ _ (by omega), getTok_set_self _ _ _ hlen1]
  have hA2 : getTok (((freshWs.set 0 ⟨ET_VALUE, 0, v1⟩).set 1 ⟨ty, 0, 0⟩).set 2
      ⟨ET_VALUE, 0, v2⟩) 2 = ⟨ET_VALUE, 0, v2⟩ := by
    rw [getTok_set_self _ _ _ hlen2]
  have hA3 : getTok (((freshWs.set 0 ⟨ET_VALUE, 0, v1⟩).set 1 ⟨ty, 0, 0⟩).set 2
      ⟨ET_VALUE, 0, v2⟩) 3 = ⟨ET_NONE, 0, 0⟩ := by
    rw [getTok_set_ne _ _ _ _ (by omega), getTok_set_ne _ _ _ _ (by omega),
      getTok_set_ne _ _ _ _ (by omega), getTok_freshWs]
  have hu := expr_reduce_unary_binop _ ty v1 v2 hA0 hA1 hA2 hA3 hty1 hty2
  have hp := expr_calc_precedence_binop _ ty v1 v2 c hA0 hA1 hA2 hc
  have hB0 : getTok ((((freshWs.set 0 ⟨ET_VALUE, 0, v1⟩).set 1 ⟨ty, 0, 0⟩).set 2
      ⟨ET_VALUE, 0, v2⟩).set 1 ⟨ty, c, 0⟩) 0 = ⟨ET_VALUE, 0, v1⟩ := by
    rw [getTok_set_ne _ _ _ _ (by omega), hA0]
  have hB1 : getTok ((((freshWs.set 0 ⟨ET_VALUE, 0, v1⟩).set 1 ⟨ty, 0, 0⟩).set 2
      ⟨ET_VALUE, 0, v2⟩).set 1 ⟨ty, c, 0⟩) 1 = ⟨ty, c, 0⟩ := by
    rw [getTok_set_self _ _ _ (by simp [freshWs])]
  have hB2 : getTok ((((freshWs.set 0 ⟨ET_VALUE, 0, v1⟩).set 1 ⟨ty, 0, 0⟩).set 2
      ⟨ET_VALUE, 0, v2⟩).set 1 ⟨ty, c, 0⟩) 2 = ⟨ET_VALUE, 0, v2⟩ := by
    rw [getTok_set_ne _ _ _ _ (by omega), hA2]
  have hf := expr_filter_binop _ ty v1 v2 c hB0 hB1 hB2 hty1 hty2
  have hC0 : getTok (((((((freshWs.set 0 ⟨ET_VALUE, 0, v1⟩).set 1 ⟨ty, 0, 0⟩).set 2
      ⟨ET_VALUE, 0, v2⟩).set 1 ⟨ty, c, 0⟩).set 0 ⟨ET_VALUE, 0, v1⟩).set 1
      ⟨ty, c, 0⟩).set 2 ⟨ET_VALUE, 0, v2⟩) 0 = ⟨ET_VALUE, 0, v1⟩ := by
    rw [getTok_set_ne _ _ _ _ (by omega), getTok_set_ne _ _ _ _ (by omega),
      getTok_set_self _ _ _ (by simp [freshWs])]
  have hC1 : getTok (((((((freshWs.set 0 ⟨ET_VALUE, 0, v1⟩).set 1 ⟨ty, 0, 0⟩).set 2
      ⟨ET_VALUE, 0, v2⟩).set 1 ⟨ty, c, 0⟩).set 0 ⟨ET_VALUE, 0, v1⟩).set 1
      ⟨ty, c, 0⟩).set 2 ⟨ET_VALUE, 0, v2⟩) 1 = ⟨ty, c, 0⟩ := by
    rw [getTok_set_ne _ _ _ _ (by omega), getTok_set_self _ _ _ (by simp [freshWs])]
  have hC2 : getTok (((((((freshWs.set 0 ⟨ET_VALUE, 0, v1⟩).set 1 ⟨ty, 0, 0⟩).set 2
      ⟨ET_VALUE, 0, v2⟩).set 1 ⟨ty, c, 0⟩).set 0 ⟨ET_VALUE, 0, v1⟩).set 1
      ⟨ty, c, 0⟩).set 2 ⟨ET_VALUE, 0, v2⟩) 2 = ⟨ET_VALUE, 0, v2⟩ := by
    rw [getTok_set_self _ _ _ (by simp [freshWs])]
  have hl := expr_solve_loop_binop _ ty v1 v2 c hC0 hC1 hC2 hc1 hty1 hty2
  have hval : getTok ((((((((freshWs.set 0 ⟨ET_VALUE, 0, v1⟩).set 1 ⟨ty, 0, 0⟩).set 2
      ⟨ET_VALUE, 0, v2⟩).set 1 ⟨ty, c, 0⟩).set 0 ⟨ET_VALUE, 0, v1⟩).set 1
      ⟨ty, c, 0⟩).set 2 ⟨ET_VALUE, 0, v2⟩).set 0 ⟨ET_VALUE, 0, applyBin ty v1 v2⟩) 0
      = ⟨ET_VALUE, 0, applyBin ty v1 v2⟩ := by
    rw [getTok_set_self _ _ _ (by simp [freshWs])]
  unfold expr_solve_core
  rw [ht]
  simp only [if_neg (show ¬ ((3 : Nat) = EXPR_MAX_TOKENS) by decide)]
  simp only [hu, hp, hf, hl, hval]
  simp


theorem expr_tokenize_parens (vars : Nat → Nat) (nlend : Nat) :
    expr_tokenize (memOfBytes [40, 41]) vars nlend 0 2 freshWs 0
      = ((freshWs.set 0 ⟨ET_SUBEXPR_OPEN, 0, 0⟩).set 1 ⟨ET_SUBEXPR_CLOSE, 0, 0⟩, 2) := by
  have h0 : memOfBytes [40, 41] 0 = 40 := rfl
  have h1 : memOfBytes [40, 41] 1 = 41 := rfl
  rw [expr_tokenize]
  simp [expr_tokenize_aux, h0, h1, opTokenType, isdigitB, isalphaB, ET_NONE, ET_ADD,
    ET_SUBTRACT, ET_MULTIPLY, ET_DIVIDE, ET_REMAINDER, ET_AND, ET_OR, ET_XOR, ET_INVERT,
    ET_SUBEXPR_OPEN, ET_SUBEXPR_CLOSE, EXPR_MAX_TOKENS]




theorem expr_solve_core_parens (vars : Nat → Nat) (nlend : Nat) :
    (expr_solve_core (memOfBytes [40, 41]) vars nlend 0 2 freshWs).1 = 0 ∧
    (expr_solve_core (memOfBytes [40, 41]) vars nlend 0 2 freshWs).2.1 = false := by
  have g0 : getTok ((freshWs.set 0 ⟨11, 0, 0⟩).set 1 ⟨12, 0, 0⟩) 0 = ⟨11, 0, 0⟩ := by
    rw [getTok_set_ne _ _ _ _ (by omega), getTok_set_self _ _ _ (by simp [freshWs])]
  have g1 : getTok ((freshWs.set 0 ⟨11, 0, 0⟩).set 1 ⟨12, 0, 0⟩) 1 = ⟨12, 0, 0⟩ := by
    rw [getTok_set_self _ _ _ (by simp [freshWs])]
  have g2 : getTok ((freshWs.set 0 ⟨11, 0, 0⟩).set 1 ⟨12, 0, 0⟩) 2 = ⟨0, 0, 0⟩ := by
    rw [getTok_set_ne _ _ _ _ (by omega), getTok_set_ne _ _ _ _ (by omega), getTok_freshWs]
    rfl
  have hu : expr_reduce_unary
      ((freshWs.set 0 ⟨ET_SUBEXPR_OPEN, 0, 0⟩).set 1 ⟨ET_SUBEXPR_CLOSE, 0, 0⟩) 2
      = ((freshWs.set 0 ⟨ET_SUBEXPR_OPEN, 0, 0⟩).set 1 ⟨ET_SUBEXPR_CLOSE, 0, 0⟩, 2, false) := by
    rw [expr_reduce_unary]
    simp [expr_reduce_unary_aux, g0, g1, g2, ET_NONE, ET_VALUE, ET_ADD, ET_SUBTRACT,
      ET_INVERT, ET_SUBEXPR_OPEN, ET_SUBEXPR_CLOSE]
  have hp : expr_calc_precedence
      ((freshWs.set 0 ⟨ET_SUBEXPR_OPEN, 0, 0⟩).set 1 ⟨ET_SUBEXPR_CLOSE, 0, 0⟩) 2
      = ((freshWs.set 0 ⟨ET_SUBEXPR_OPEN, 0, 0⟩).set 1 ⟨ET_SUBEXPR_CLOSE, 0, 0⟩, false) := by
    rw [expr_calc_precedence]
    norm_num [expr_calc_precedence_aux, g0, g1, wrap8, ET_VALUE, ET_AND, ET_OR, ET_XOR,
      ET_ADD, ET_SUBTRACT, ET_MULTIPLY, ET_DIVIDE, ET_REMAINDER, ET_SUBEXPR_OPEN,
      ET_SUBEXPR_CLOSE, ET_SUBEXPR]
  have hf : expr_filter_brackets
      ((freshWs.set 0 ⟨ET_SUBEXPR_OPEN, 0, 0⟩).set 1 ⟨ET_SUBEXPR_CLOSE, 0, 0⟩) 2
      = ((freshWs.set 0 ⟨ET_SUBEXPR_OPEN, 0, 0⟩).set 1 ⟨ET_SUBEXPR_CLOSE, 0, 0⟩, 0) := by
    rw [expr_filter_brackets]
    simp [expr_filter_aux, g0, g1, ET_SUBEXPR_OPEN, ET_SUBEXPR_CLOSE]
  unfold expr_solve_core
  rw [expr_tokenize_parens vars nlend]
  simp only [if_neg (show ¬ ((2 : Nat) = EXPR_MAX_TOKENS) by decide)]
  simp only [hu, hp, hf]
  simp [expr_solve_loop, expr_solve_loop_aux, g0, ET_SUBEXPR_OPEN, ET_SUBEXPR_CLOSE]


theorem gram_mul3 (v1 v2 : Nat) :
    Gram 3 [⟨ET_VALUE, 0, v1⟩, ⟨ET_MULTIPLY, 0, 0⟩, ⟨ET_VALUE, 0, v2⟩] (mul32 v1 v2) :=
  Gram.up3 _ _ (Gram.up2 _ _ (Gram.mul 0 [⟨ET_VALUE, 0, v1⟩] [⟨ET_VALUE, 0, v2⟩] v1 v2
    (Gram.up1 _ _ (Gram.value 0 v1)) (Gram.value 0 v2)))

theorem gram_div3 (v1 v2 : Nat) :
    Gram 3 [⟨ET_VALUE, 0, v1⟩, ⟨ET_DIVIDE, 0, 0⟩, ⟨ET_VALUE, 0, v2⟩] (div32 v1 v2) :=
  Gram.up3 _ _ (Gram.up2 _ _ (Gram.div 0 [⟨ET_VALUE, 0, v1⟩] [⟨ET_VALUE, 0, v2⟩] v1 v2
    (Gram.up1 _ _ (Gram.value 0 v1)) (Gram.value 0 v2)))

theorem gram_rem3 (v1 v2 : Nat) :
    Gram 3 [⟨ET_VALUE, 0, v1⟩, ⟨ET_REMAINDER, 0, 0⟩, ⟨ET_VALUE, 0, v2⟩] (rem32 v1 v2) :=
  Gram.up3 _ _ (Gram.up2 _ _ (Gram.rem 0 [⟨ET_VALUE, 0, v1⟩] [⟨ET_VALUE, 0, v2⟩] v1 v2
    (Gram.up1 _ _ (Gram.value 0 v1)) (Gram.value 0 v2)))

theorem gram_add3 (v1 v2 : Nat) :
    Gram 3 [⟨ET_VALUE, 0, v1⟩, ⟨ET_ADD, 0, 0⟩, ⟨ET_VALUE, 0, v2⟩] (add32 v1 v2) :=
  Gram.up3 _ _ (Gram.add 0 [⟨ET_VALUE, 0, v1⟩] [⟨ET_VALUE, 0, v2⟩] v1 v2
    (Gram.up2 _ _ (Gram.up1 _ _ (Gram.value 0 v1))) (Gram.up1 _ _ (Gram.value 0 v2)))

theorem gram_sub3 (v1 v2 : Nat) :
    Gram 3 [⟨ET_VALUE, 0, v1⟩, ⟨ET_SUBTRACT, 0, 0⟩, ⟨ET_VALUE, 0, v2⟩] (sub32 v1 v2) :=
  Gram.up3 _ _ (Gram.sub 0 [⟨ET_VALUE, 0, v1⟩] [⟨ET_VALUE, 0, v2⟩] v1 v2
    (Gram.up2 _ _ (Gram.up1 _ _ (Gram.value 0 v1))) (Gram.up1 _ _ (Gram.value 0 v2)))

theorem gram_and3 (v1 v2 : Nat) :
    Gram 3 [⟨ET_VALUE, 0, v1⟩, ⟨ET_AND, 0, 0⟩, ⟨ET_VALUE, 0, v2⟩] (and32 v1 v2) :=
  Gram.band 0 [⟨ET_VALUE, 0, v1⟩] [⟨ET_VALUE, 0, v2⟩] v1 v2
    (Gram.up3 _ _ (Gram.up2 _ _ (Gram.up1 _ _ (Gram.value 0 v1))))
    (Gram.up2 _ _ (Gram.up1 _ _ (Gram.value 0 v2)))

theorem gram_or3 (v1 v2 : Nat) :
    Gram 3 [⟨ET_VALUE, 0, v1⟩, ⟨ET_OR, 0, 0⟩, ⟨ET_VALUE, 0, v2⟩] (or32 v1 v2) :=
  Gram.bor 0 [⟨ET_VALUE, 0, v1⟩] [⟨ET_VALUE, 0, v2⟩] v1 v2
    (Gram.up3 _ _ (Gram.up2 _ _ (Gram.up1 _ _ (Gram.value 0 v1))))
    (Gram.up2 _ _ (Gram.up1 _ _ (Gram.value 0 v2)))

theorem gram_xor3 (v1 v2 : Nat) :
    Gram 3 [⟨ET_VALUE, 0, v1⟩, ⟨ET_XOR, 0, 0⟩, ⟨ET_VALUE, 0, v2⟩] (xor32 v1 v2) :=
  Gram.bxor 0 [⟨ET_VALUE, 0, v1⟩] [⟨ET_VALUE, 0, v2⟩] v1 v2
    (Gram.up3 _ _ (Gram.up2 _ _ (Gram.up1 _ _ (Gram.value 0 v1))))
    (Gram.up2 _ _ (Gram.up1 _ _ (Gram.value 0 v2)))

/-! ## Lemmas: encoded stores and the deletion phase of store_newline -/

theorem length_encodeRec (r : Nat × List Nat) : (encodeRec r).length = r.2.length + 3 := by
  simp [encodeRec]

theorem length_encodeRecs_cons (r : Nat × List Nat) (rs : List (Nat × List Nat)) :
    (encodeRecs (r :: rs)).length = r.2.length + 3 + (encodeRecs rs).length := by
  simp [encodeRecs, length_encodeRec]

theorem encodeRecs_append (R1 R2 : List (Nat × List Nat)) :
    encodeRecs (R1 ++ R2) = encodeRecs R1 ++ encodeRecs R2 := by
  induction R1 with
  | nil => simp [encodeRecs]
  | cons r rs ih => simp [encodeRecs, ih]

theorem length_le_length_encodeRecs (R : List (Nat × List Nat)) :
    R.length ≤ (encodeRecs R).length := by
  induction R with
  | nil => simp [encodeRecs]
  | cons r rs ih =>
      rw [length_encodeRecs_cons]
      simp only [List.length_cons]
      omega

/-- Split a pointwise byte-region fact over an append. -/
theorem match_split (mem : Mem) (off : Nat) (l1 l2 : List Nat)
    (h : ∀ k, k < (l1 ++ l2).length → mem (off + k) = (l1 ++ l2).getD k 0) :
    (∀ k, k < l1.length → mem (off + k) = l1.getD k 0) ∧
    (∀ k, k < l2.length → mem (off + l1.length + k) = l2.getD k 0) := by
  constructor
  · intro k hk
    rw [h k (by simp; omega), List.getD_append _ _ _ _ hk]
  · intro k hk
    have h2 := h (l1.length + k) (by simp; omega)
    rw [List.getD_append_right _ _ _ _ (by omega)] at h2
    have e1 : off + (l1.length + k) = off + l1.length + k := by omega
    have e2 : l1.length + k - l1.length = k := by omega
    rw [e1, e2] at h2
    exact h2

/-- `strlen` over a NUL-free byte region followed by a NUL. -/
theorem strlenAtAux_region (mem : Mem) :
    ∀ (b : List Nat) (i acc fuel : Nat), b.length < fuel →
      (∀ x ∈ b, x ≠ 0) →
      (∀ k, k < b.length → mem (i + k) = b.getD k 0) →
      mem (i + b.length) = 0 →
      strlenAtAux mem fuel i acc = acc + b.length := by
  intro b
  induction b with
  | nil =>
      intro i acc fuel hf _ _ hend
      match fuel, hf with
      | fuel + 1, _ =>
        simp only [strlenAtAux]
        rw [if_neg (by simpa using hend)]
        simp
  | cons x rest ih =>
      intro i acc fuel hf hnz hreg hend
      match fuel, hf with
      | fuel + 1, hf =>
        have h0 : mem i = x := by simpa using hreg 0 (by simp)
        have hx : x ≠ 0 := hnz x (by simp)
        simp only [strlenAtAux]
        rw [if_pos (by rw [h0]; simpa using hx)]
        rw [ih (i + 1) (acc + 1) fuel (by simp at hf; omega)
          (fun y hy => hnz y (by simp [hy]))
          (fun k hk => by
            have := hreg (k + 1) (by simpa using Nat.succ_lt_succ hk)
            simpa [Nat.add_assoc, Nat.add_comm 1 k] using this)
          (by
            have := hend
            simpa [Nat.add_assoc, Nat.add_comm 1 rest.length] using this)]
        simp [List.length_cons]
        omega

theorem strlenAt_region (mem : Mem) (i : Nat) (b : List Nat) (hlen : b.length < SCAN_FUEL)
    (hnz : ∀ x ∈ b, x ≠ 0) (hreg : ∀ k, k < b.length → mem (i + k) = b.getD k 0)
    (hend : mem (i + b.length) = 0) : strlenAt mem i = b.length := by
  rw [strlenAt, strlenAtAux_region mem b i 0 SCAN_FUEL hlen hnz hreg hend]
  omega

/-- The body walk of `get_line_index` over a NUL-free region followed by a
NUL strictly below `cend` lands one past the NUL. -/
theorem walk_body_aux_region (mem : Mem) (cend : Nat) :
    ∀ (b : List Nat) (i fuel : Nat), b.length < fuel →
      (∀ x ∈ b, x ≠ 0) →
      (∀ k, k < b.length → mem (i + k) = b.getD k 0) →
      mem (i + b.length) = 0 →
      i + b.length < cend →
      walk_body_aux mem cend fuel i = i + b.length + 1 := by
  intro b
  induction b with
  | nil =>
      intro i fuel hf _ _ hend _
      match fuel, hf with
      | fuel + 1, _ =>
        simp only [walk_body_aux]
        rw [if_neg (by simpa using hend)]
        simp
  | cons x rest ih =>
      intro i fuel hf hnz hreg hend hcend
      match fuel, hf with
      | fuel + 1, hf =>
        have h0 : mem i = x := by simpa using hreg 0 (by simp)
        have hx : x ≠ 0 := hnz x (by simp)
        simp only [walk_body_aux]
        rw [if_pos (by rw [h0]; simpa using hx)]
        rw [if_neg (by simp at hcend ⊢; omega)]
        rw [ih (i + 1) fuel (by simp at hf; omega)
          (fun y hy => hnz y (by simp [hy]))
          (fun k hk => by
            have := hreg (k + 1) (by simpa using Nat.succ_lt_succ hk)
            simpa [Nat.add_assoc, Nat.add_comm 1 k] using this)
          (by
            have := hend
            simpa [Nat.add_assoc, Nat.add_comm 1 rest.length] using this)
          (by simp at hcend ⊢; omega)]
        simp [List.length_cons]
        omega

theorem walk_body_region (mem : Mem) (cend i : Nat) (b : List Nat)
    (hlen : b.length < SCAN_FUEL) (hnz : ∀ x ∈ b, x ≠ 0)
    (hreg : ∀ k, k < b.length → mem (i + k) = b.getD k 0)
    (hend : mem (i + b.length) = 0) (hcend : i + b.length < cend) :
    walk_body mem cend i = i + b.length + 1 := by
  rw [walk_body, walk_body_aux_region mem cend b i SCAN_FUEL hlen hnz hreg hend hcend]

theorem encodeRec_region (mem : Mem) (off m : Nat) (b : List Nat)
    (h : ∀ k, k < (encodeRec (m, b)).length → mem (off + k) = (encodeRec (m, b)).getD k 0) :
    mem off = m % 256 ∧ mem (off + 1) = m / 256 % 256 ∧
    (∀ k, k < b.length → mem (off + 2 + k) = b.getD k 0) ∧
    mem (off + 2 + b.length) = 0 := by
  have h' : ∀ k, k < ([m % 256, m / 256 % 256] ++ (b ++ [0])).length →
      mem (off + k) = ([m % 256, m / 256 % 256] ++ (b ++ [0])).getD k 0 := h
  obtain ⟨hhead, htail⟩ := match_split mem off _ _ h'
  obtain ⟨hbody, hterm⟩ := match_split mem (off + 2) b [0] (by simpa using htail)
  refine ⟨?_, ?_, hbody, ?_⟩
  · simpa using hhead 0 (by simp)
  · simpa using hhead 1 (by simp)
  · simpa using hterm 0 (by simp)

theorem load_line_t_of_region (mem : Mem) (off m : Nat) (h0 : mem off = m % 256)
    (h1 : mem (off + 1) = m / 256 % 256) (hm : m < 65536) : load_line_t mem off = m := by
  rw [load_line_t, h0, h1]
  omega

theorem get_line_index_aux_encoded (mem : Mem) (cend t : Nat) :
    ∀ (R : List (Nat × List Nat)) (off fuel : Nat),
      goodRecs R →
      (∀ k, k < (encodeRecs R).length → mem (off + k) = (encodeRecs R).getD k 0) →
      off + (encodeRecs R).length = cend →
      R.length < fuel →
      (encodeRecs R).length < SCAN_FUEL →
      get_line_index_aux mem cend t fuel off
        = (match lookupOff R off t with
           | some o => o
           | none => cend) := by
  intro R
  induction R with
  | nil =>
      intro off fuel _ _ hoff hf _
      match fuel, hf with
      | fuel + 1, _ =>
        simp only [get_line_index_aux, lookupOff]
        rw [if_neg (by simp [encodeRecs] at hoff; omega)]
        simp [encodeRecs] at hoff
        omega
  | cons r rest ih =>
      obtain ⟨m, b⟩ := r
      intro off fuel hgood hmatch hoff hf hscan
      match fuel, hf with
      | fuel + 1, hf =>
        have hmatch' : ∀ k, k < (encodeRec (m, b) ++ encodeRecs rest).length →
            mem (off + k) = (encodeRec (m, b) ++ encodeRecs rest).getD k 0 := hmatch
        obtain ⟨hrec, hrest⟩ := match_split mem off _ _ hmatch'
        obtain ⟨h0, h1, hbody, hterm⟩ := encodeRec_region mem off m b hrec
        have hgr := hgood (m, b) (by simp)
        have hload : load_line_t mem off = m :=
          load_line_t_of_region mem off m h0 h1 hgr.2.1
        have hlenrec : (encodeRec (m, b)).length = b.length + 3 := length_encodeRec _
        have hlencons : (encodeRecs ((m, b) :: rest)).length
            = b.length + 3 + (encodeRecs rest).length := length_encodeRecs_cons _ _
        simp only [get_line_index_aux]
        rw [if_pos (by omega)]
        rw [hload]
        by_cases hmt : m = t
        · rw [if_pos hmt]
          simp only [lookupOff]
          rw [if_pos hmt]
        · rw [if_neg hmt]
          have hwalk : walk_body mem cend (off + 2) = off + b.length + 3 := by
            have hw := walk_body_region mem cend (off + 2) b (by omega) hgr.2.2 hbody hterm
              (by omega)
            rw [hw]
            omega
          rw [hwalk]
          simp only [lookupOff]
          rw [if_neg hmt]
          exact ih (off + b.length + 3) fuel (fun r hr => hgood r (by simp [hr]))
            (fun k hk => by
              have h2 := hrest k hk
              rw [hlenrec] at h2
              rw [show off + (b.length + 3) + k = off + b.length + 3 + k by omega] at h2
              exact h2)
            (by omega) (by simp at hf; omega) (by omega)

theorem get_line_index_encoded (mem : Mem) (t : Nat) (R : List (Nat × List Nat))
    (hgood : goodRecs R)
    (hmatch : ∀ k, k < (encodeRecs R).length → mem k = (encodeRecs R).getD k 0)
    (hscan : (encodeRecs R).length < SCAN_FUEL) :
    get_line_index mem (encodeRecs R).length t
      = (match lookupOff R 0 t with
         | some o => o + 2
         | none => (encodeRecs R).length + 2) := by
  rw [get_line_index]
  rw [get_line_index_aux_encoded mem (encodeRecs R).length t R 0 ((encodeRecs R).length + 1)
    hgood (by simpa using hmatch) (by omega)
    (by have := length_le_length_encodeRecs R; omega) hscan]
  cases lookupOff R 0 t <;> rfl

theorem parseRecordsAux_encoded (mem : Mem) (cend : Nat) :
    ∀ (R : List (Nat × List Nat)) (off fuel : Nat),
      goodRecs R →
      (∀ k, k < (encodeRecs R).length → mem (off + k) = (encodeRecs R).getD k 0) →
      off + (encodeRecs R).length = cend →
      R.length < fuel →
      (encodeRecs R).length < SCAN_FUEL →
      parseRecordsAux mem cend fuel off = some (R.map (fun r => (r.1, r.2.length))) := by
  intro R
  induction R with
  | nil =>
      intro off fuel _ _ hoff hf _
      match fuel, hf with
      | fuel + 1, _ =>
        simp only [parseRecordsAux]
        rw [if_pos (by simp [encodeRecs] at hoff; omega)]
        simp
  | cons r rest ih =>
      obtain ⟨m, b⟩ := r
      intro off fuel hgood hmatch hoff hf hscan
      match fuel, hf with
      | fuel + 1, hf =>
        have hmatch' : ∀ k, k < (encodeRec (m, b) ++ encodeRecs rest).length →
            mem (off + k) = (encodeRec (m, b) ++ encodeRecs rest).getD k 0 := hmatch
        obtain ⟨hrec, hrest⟩ := match_split mem off _ _ hmatch'
        obtain ⟨h0, h1, hbody, hterm⟩ := encodeRec_region mem off m b hrec
        have hgr := hgood (m, b) (by simp)
        have hload : load_line_t mem off = m :=
          load_line_t_of_region mem off m h0 h1 hgr.2.1
        have hlenrec : (encodeRec (m, b)).length = b.length + 3 := length_encodeRec _
        have hlencons : (encodeRecs ((m, b) :: rest)).length
            = b.length + 3 + (encodeRecs rest).length := length_encodeRecs_cons _ _
        have hstrlen : strlenAt mem (off + 2) = b.length :=
          strlenAt_region mem (off + 2) b (by omega) hgr.2.2 hbody hterm
        simp only [parseRecordsAux]
        rw [if_neg (by omega)]
        rw [if_neg (by omega)]
        rw [hstrlen]
        rw [if_neg (by omega)]
        rw [ih (off + b.length + 3) fuel (fun r hr => hgood r (by simp [hr]))
          (fun k hk => by
            have h2 := hrest k hk
            rw [hlenrec] at h2
            rw [show off + (b.length + 3) + k = off + b.length + 3 + k by omega] at h2
            exact h2)
          (by omega) (by simp at hf; omega) (by omega)]
        rw [hload]
        simp

theorem parseRecords_encoded (mem : Mem) (R : List (Nat × List Nat))
    (hgood : goodRecs R)
    (hmatch : ∀ k, k < (encodeRecs R).length → mem k = (encodeRecs R).getD k 0)
    (hscan : (encodeRecs R).length < SCAN_FUEL) :
    parseRecords mem (encodeRecs R).length
      = some (R.map (fun r => (r.1, r.2.length))) := by
  rw [parseRecords]
  exact parseRecordsAux_encoded mem (encodeRecs R).length R 0 ((encodeRecs R).length + 1)
    hgood (by simpa using hmatch) (by omega)
    (by have := length_le_length_encodeRecs R; omega) hscan

theorem lookupOff_none_iff (t : Nat) :
    ∀ (R : List (Nat × List Nat)) (off : Nat),
      lookupOff R off t = none ↔ recsFind R t = none := by
  intro R
  induction R with
  | nil => intro off; simp [lookupOff, recsFind]
  | cons r rest ih =>
      intro off
      simp only [lookupOff, recsFind]
      by_cases h : r.1 = t
      · rw [if_pos h, if_pos h]
        simp
      · rw [if_neg h, if_neg h]
        exact ih _

theorem recsFind_none_iff (t : Nat) :
    ∀ R : List (Nat × List Nat), recsFind R t = none ↔ ∀ r ∈ R, r.1 ≠ t := by
  intro R
  induction R with
  | nil => simp [recsFind]
  | cons r rest ih =>
      simp only [recsFind]
      by_cases h : r.1 = t
      · rw [if_pos h]
        simp [h]
      · rw [if_neg h]
        rw [ih]
        constructor
        · intro ha x hx
          rcases List.mem_cons.mp hx with hx | hx
          · rw [hx]; exact h
          · exact ha x hx
        · intro ha x hx
          exact ha x (by simp [hx])

theorem lookupOff_some_split (t : Nat) :
    ∀ (R : List (Nat × List Nat)) (off o : Nat),
      lookupOff R off t = some o →
      ∃ R1 b R2, R = R1 ++ (t, b) :: R2 ∧ recsFind R t = some b ∧
        recsDelete R t = R1 ++ R2 ∧ o = off + (encodeRecs R1).length ∧
        ∀ r ∈ R1, r.1 ≠ t := by
  intro R
  induction R with
  | nil => intro off o h; simp [lookupOff] at h
  | cons r rest ih =>
      intro off o h
      simp only [lookupOff] at h
      by_cases hr : r.1 = t
      · rw [if_pos hr] at h
        have hoo : o = off := by
          injection h with h2
          omega
        refine ⟨[], r.2, rest, ?_, ?_, ?_, ?_, by simp⟩
        · simp [← hr]
        · simp [recsFind, hr]
        · simp [recsDelete, hr]
        · simp [encodeRecs, hoo]
      · rw [if_neg hr] at h
        obtain ⟨R1, b, R2, he, hfind, hdel, ho, hne⟩ := ih (off + r.2.length + 3) o h
        refine ⟨r :: R1, b, R2, by simp [he], ?_, ?_, ?_, ?_⟩
        · simp [recsFind, hr, hfind]
        · simp [recsDelete, hr, hdel]
        · rw [length_encodeRecs_cons]
          omega
        · intro x hx
          rcases List.mem_cons.mp hx with hx | hx
          · rw [hx]; exact hr
          · exact hne x hx

theorem recsAsc_tail (a : Nat × List Nat) (R : List (Nat × List Nat))
    (h : recsAsc (a :: R)) : recsAsc R := by
  cases R with
  | nil => trivial
  | cons x rest => exact h.2

theorem recsAsc_head_lt :
    ∀ (R : List (Nat × List Nat)) (a : Nat × List Nat),
      recsAsc (a :: R) → ∀ r ∈ R, a.1 < r.1 := by
  intro R
  induction R with
  | nil => intro a _ r hr; simp at hr
  | cons x rest ih =>
      intro a h r hr
      rcases List.mem_cons.mp hr with hr | hr
      · rw [hr]; exact h.1
      · exact lt_trans h.1 (ih x h.2 r hr)

theorem recsAsc_middle :
    ∀ (R1 : List (Nat × List Nat)) (a : Nat × List Nat) (R2 : List (Nat × List Nat)),
      recsAsc (R1 ++ a :: R2) → ∀ r ∈ R2, a.1 < r.1 := by
  intro R1
  induction R1 with
  | nil => intro a R2 h; exact recsAsc_head_lt R2 a h
  | cons x rest ih =>
      intro a R2 h
      exact ih a R2 (recsAsc_tail x _ h)

theorem recsDelete_of_none (t : Nat) :
    ∀ R : List (Nat × List Nat), recsFind R t = none → recsDelete R t = R := by
  intro R
  induction R with
  | nil => intro _; rfl
  | cons r rest ih =>
      intro h
      simp only [recsFind] at h
      by_cases hr : r.1 = t
      · rw [if_pos hr] at h; simp at h
      · rw [if_neg hr] at h
        simp only [recsDelete]
        rw [if_neg hr, ih h]

theorem shift_left_above (mem : Mem) (index length amount j : Nat)
    (h : index - amount + length ≤ j) : codemem_shift_left mem index length amount j = mem j := by
  rw [codemem_shift_left, if_neg (by omega)]

theorem shift_left_in (mem : Mem) (index length amount j : Nat)
    (h1 : index - amount ≤ j) (h2 : j < index - amount + length) :
    codemem_shift_left mem index length amount j = mem (j + amount) := by
  rw [codemem_shift_left, if_pos ⟨h1, h2⟩]

theorem shift_left_below (mem : Mem) (index length amount j : Nat)
    (h : j < index - amount) : codemem_shift_left mem index length amount j = mem j := by
  rw [codemem_shift_left, if_neg (by omega)]

/-- After the deletion shift, the low region of the store encodes the
record list with the found record removed. -/
theorem shift_left_encodes (mem : Mem) (R1 R2 : List (Nat × List Nat)) (t : Nat)
    (b : List Nat)
    (hmatch : ∀ k, k < (encodeRecs (R1 ++ (t, b) :: R2)).length →
      mem k = (encodeRecs (R1 ++ (t, b) :: R2)).getD k 0) :
    ∀ k, k < (encodeRecs (R1 ++ R2)).length →
      codemem_shift_left mem ((encodeRecs R1).length + (b.length + 3))
        ((encodeRecs (R1 ++ (t, b) :: R2)).length - ((encodeRecs R1).length + (b.length + 3)))
        (b.length + 3) k
      = (encodeRecs (R1 ++ R2)).getD k 0 := by
  intro k hk
  have he1 : encodeRecs (R1 ++ (t, b) :: R2)
      = encodeRecs R1 ++ (encodeRec (t, b) ++ encodeRecs R2) := by
    rw [encodeRecs_append]
    rfl
  have hd : (encodeRec (t, b)).length = b.length + 3 := length_encodeRec _
  have he2 : encodeRecs (R1 ++ R2) = encodeRecs R1 ++ encodeRecs R2 := encodeRecs_append _ _
  have hlen1 : (encodeRecs (R1 ++ (t, b) :: R2)).length
      = (encodeRecs R1).length + (b.length + 3) + (encodeRecs R2).length := by
    rw [he1]
    simp [hd]
    omega
  have hlen2 : (encodeRecs (R1 ++ R2)).length
      = (encodeRecs R1).length + (encodeRecs R2).length := by
    rw [he2]
    simp
  by_cases hko : k < (encodeRecs R1).length
  · rw [shift_left_below mem _ _ _ k (by omega)]
    rw [hmatch k (by omega)]
    rw [he1, List.getD_append _ _ _ _ hko, he2, List.getD_append _ _ _ _ hko]
  · rw [shift_left_in mem _ _ _ k (by omega) (by omega)]
    rw [hmatch (k + (b.length + 3)) (by omega)]
    rw [he1, List.getD_append_right _ _ _ _ (by omega),
      List.getD_append_right _ _ _ _ (by omega)]
    rw [he2, List.getD_append_right _ _ _ _ (by omega)]
    rw [show k + (b.length + 3) - (encodeRecs R1).length - (encodeRec (t, b)).length
        = k - (encodeRecs R1).length by rw [hd]; omega]

theorem skip_spaces_aux_succ (mem : Mem) (f i : Nat) :
    skip_spaces_aux mem (f + 1) i
      = if isblankB (mem i) then skip_spaces_aux mem f (i + 1) else i := rfl

theorem skip_spaces_one_blank (mem : Mem) (i : Nat) (h1 : isblankB (mem i))
    (h2 : ¬ isblankB (mem (i + 1))) : skip_spaces mem i = i + 1 := by
  rw [skip_spaces, show SCAN_FUEL = 8192 + 1 from rfl, skip_spaces_aux_succ, if_pos h1,
    show (8192 : Nat) = 8191 + 1 from rfl, skip_spaces_aux_succ, if_neg h2]

theorem strip_blanks_keep (mem : Mem) (ind l : Nat) (hl : 1 ≤ l)
    (h : ¬ isblankB (mem (ind + l - 1))) : strip_blanks mem ind l = l := by
  rw [strip_blanks]
  match l, hl with
  | k + 1, _ =>
    simp only [strip_blanks_aux]
    rw [if_neg h]

theorem litScanLen_digits (m i nlend : Nat) (hlt : m < 4294967296) (mem : Mem)
    (hreg : ∀ k, k < (natDigits m).length → mem (i + k) = (natDigits m).getD k 0)
    (hin : i + (natDigits m).length ≤ nlend)
    (hstop : ¬ isalnumB (mem (i + (natDigits m).length)) ∨ nlend ≤ i + (natDigits m).length) :
    litScanLen mem nlend i = (natDigits m).length := by
  have hr := litScanAux_region mem nlend (natDigits m).length i 0 SCAN_FUEL
    (natDigits_length_lt_fuel m hlt)
    (fun k hk => ⟨by rw [hreg k hk]; exact natDigits_isalnum m k hk, by omega⟩)
    hstop
  rw [litScanLen, hr]
  omega

theorem get_line_num_digits (mem : Mem) (nlend i n : Nat) (hn1 : 1 ≤ n) (hn2 : n < 10000)
    (hreg : ∀ k, k < (natDigits n).length → mem (i + k) = (natDigits n).getD k 0)
    (hstop : ¬ isdigitB (mem (i + (natDigits n).length))) :
    get_line_num mem nlend i = n := by
  rw [get_line_num]
  rw [get_literal_number_digits_stop n i hn1 (by omega) mem nlend hreg hstop]
  have hmod : n % W = n := Nat.mod_eq_of_lt (by simp only [W]; omega)
  rw [hmod]
  have hts : toSigned n = (n : Int) := toSigned_of_lt n (by omega)
  have hfin : (if toSigned n ≤ 0 ∨ (MAX_LINENUM : Int) ≤ toSigned n then 0 else n) = n := by
    rw [hts, if_neg (by simp only [MAX_LINENUM]; push_cast; omega)]
  exact hfin

set_option maxHeartbeats 2000000 in
theorem store_newline_oom_trace (R : List (Nat × List Nat)) (n : Nat) (body : List Nat)
    (vars0 : Nat → Nat) (ws0 : List ExprToken) (cnt0 cl0 : Nat) (inp0 out0 : List Nat)
    (hgood : goodRecs R) (hasc : recsAsc R)
    (hn1 : 1 ≤ n) (hn2 : n < 10000)
    (hb : 1 ≤ body.length)
    (hb0 : ¬ isblankB (body.getD 0 0))
    (hbl : ¬ isblankB (body.getD (body.length - 1) 0))
    (hscan : (encodeRecs R).length + ((natDigits n).length + 1 + body.length) < SCAN_FUEL) :
    ((store_newline (mkEditState R (natDigits n ++ 32 :: body) vars0 ws0 cnt0 cl0 inp0 out0)
        (encodeRecs R).length).output
      = (if CODE_MEMORY_SIZE - ((encodeRecs R).length - recsDelLen R n) < body.length + 8
         then out0 ++ str_err_out_of_memory else out0)) ∧
    (CODE_MEMORY_SIZE - ((encodeRecs R).length - recsDelLen R n) < body.length + 8 →
      (store_newline (mkEditState R (natDigits n ++ 32 :: body) vars0 ws0 cnt0 cl0 inp0 out0)
          (encodeRecs R).length).codemem_end
        = (encodeRecs R).length - recsDelLen R n ∧
      get_line_index
          (store_newline (mkEditState R (natDigits n ++ 32 :: body) vars0 ws0 cnt0 cl0 inp0
            out0) (encodeRecs R).length).codemem
          ((encodeRecs R).length - recsDelLen R n) n
        = (encodeRecs R).length - recsDelLen R n + 2 ∧
      parseRecords
          (store_newline (mkEditState R (natDigits n ++ 32 :: body) vars0 ws0 cnt0 cl0 inp0
            out0) (encodeRecs R).length).codemem
          ((encodeRecs R).length - recsDelLen R n)
        = some ((recsDelete R n).map (fun r => (r.1, r.2.length)))) := by
  have hnlt : n < 4294967296 := by omega
  have hLpos : 1 ≤ (natDigits n).length := by
    cases h : natDigits n with
    | nil => exact absurd h (natDigits_ne_nil n)
    | cons a l => simp
  have hLlt : (natDigits n).length < SCAN_FUEL := natDigits_length_lt_fuel n hnlt
  -- the concrete memory
  have hfull : ∀ k, k < (encodeRecs R ++ (natDigits n ++ 32 :: body)).length →
      memOfBytes (encodeRecs R ++ (natDigits n ++ 32 :: body)) (0 + k)
        = (encodeRecs R ++ (natDigits n ++ 32 :: body)).getD k 0 := by
    intro k hk
    rw [Nat.zero_add]
    rfl
  obtain ⟨hRm0, hline⟩ := match_split _ 0 _ _ hfull
  have hRm : ∀ k, k < (encodeRecs R).length →
      memOfBytes (encodeRecs R ++ (natDigits n ++ 32 :: body)) k
        = (encodeRecs R).getD k 0 := fun k hk => by
    have := hRm0 k hk
    rwa [Nat.zero_add] at this
  have hline' : ∀ k, k < (natDigits n ++ 32 :: body).length →
      memOfBytes (encodeRecs R ++ (natDigits n ++ 32 :: body)) ((encodeRecs R).length + k)
        = (natDigits n ++ 32 :: body).getD k 0 := fun k hk => by
    have := hline k hk
    rwa [Nat.zero_add] at this
  obtain ⟨hdig, htail⟩ := match_split _ (encodeRecs R).length _ _ hline'
  have hsp32 : memOfBytes (encodeRecs R ++ (natDigits n ++ 32 :: body))
      ((encodeRecs R).length + (natDigits n).length) = 32 := by
    simpa using htail 0 (by simp)
  have hbody : ∀ k, k < body.length →
      memOfBytes (encodeRecs R ++ (natDigits n ++ 32 :: body))
        ((encodeRecs R).length + (natDigits n).length + 1 + k) = body.getD k 0 := by
    intro k hk
    have h2 := htail (k + 1) (by simp only [List.length_cons]; omega)
    rw [show (encodeRecs R).length + (natDigits n).length + (k + 1)
        = (encodeRecs R).length + (natDigits n).length + 1 + k by omega] at h2
    simpa using h2
  have hlinenum : get_line_num (memOfBytes (encodeRecs R ++ (natDigits n ++ 32 :: body)))
      ((encodeRecs R).length + (natDigits n ++ 32 :: body).length) (encodeRecs R).length
      = n :=
    get_line_num_digits _ _ _ n hn1 hn2 hdig (by rw [hsp32]; decide)
  have hlsl : litScanLen (memOfBytes (encodeRecs R ++ (natDigits n ++ 32 :: body)))
      ((encodeRecs R).length + (natDigits n ++ 32 :: body).length) (encodeRecs R).length
      = (natDigits n).length :=
    litScanLen_digits n (encodeRecs R).length _ hnlt _ hdig
      (by simp only [List.length_append, List.length_cons]; omega)
      (Or.inl (by rw [hsp32]; decide))
  have hskip : skip_spaces (memOfBytes (encodeRecs R ++ (natDigits n ++ 32 :: body)))
      ((encodeRecs R).length + (natDigits n).length)
      = (encodeRecs R).length + (natDigits n).length + 1 :=
    skip_spaces_one_blank _ _ (by rw [hsp32]; decide)
      (by
        have h2 := hbody 0 (by omega)
        rw [show (encodeRecs R).length + (natDigits n).length + 1 + 0
            = (encodeRecs R).length + (natDigits n).length + 1 by omega] at h2
        rw [h2]
        exact hb0)
  have hgli := get_line_index_encoded (memOfBytes (encodeRecs R ++ (natDigits n ++ 32 :: body)))
    n R hgood hRm (by omega)
  have hlenline : (natDigits n ++ 32 :: body).length
      = (natDigits n).length + (body.length + 1) := by simp
  rcases hfind : recsFind R n with _ | b
  · -- the line is not stored: the deletion step is a no-op
    have hlook : lookupOff R 0 n = none := (lookupOff_none_iff n R 0).mpr hfind
    have hgli2 : get_line_index (memOfBytes (encodeRecs R ++ (natDigits n ++ 32 :: body)))
        (encodeRecs R).length n = (encodeRecs R).length + 2 := by
      rw [hgli, hlook]
    have hdl : recsDelLen R n = 0 := by simp [recsDelLen, hfind]
    have hdel : recsDelete R n = R := recsDelete_of_none n R hfind
    have hstrip : strip_blanks (memOfBytes (encodeRecs R ++ (natDigits n ++ 32 :: body)))
        ((encodeRecs R).length + (natDigits n).length + 1) body.length = body.length := by
      refine strip_blanks_keep _ _ _ hb ?_
      have h2 := hbody (body.length - 1) (by omega)
      rw [show (encodeRecs R).length + (natDigits n).length + 1 + (body.length - 1)
          = (encodeRecs R).length + (natDigits n).length + 1 + body.length - 1 by omega] at h2
      rw [h2]
      exact hbl
    have hparse := parseRecords_encoded
      (memOfBytes (encodeRecs R ++ (natDigits n ++ 32 :: body))) R hgood hRm (by omega)
    rw [hdl, Nat.sub_zero, hdel]
    simp only [store_newline, mkEditState]
    simp only [hlinenum]
    simp only [eq_false (show ¬ (n = 0) from by omega), if_false]
    simp only [hlsl, hskip, hgli2]
    simp only [eq_false
      (show ¬ ((encodeRecs R).length + 2 < (encodeRecs R).length) from by omega), if_false]
    simp only [hlenline]
    simp only [show (encodeRecs R).length + ((natDigits n).length + (body.length + 1))
        - ((encodeRecs R).length + (natDigits n).length + 1) = body.length from by omega]
    simp only [eq_false (show ¬ (body.length = 0) from by omega), if_false]
    simp only [hstrip]
    by_cases hoomc : CODE_MEMORY_SIZE - (encodeRecs R).length < body.length + 8
    · simp only [eq_true hoomc, if_true]
      exact ⟨trivial, fun _ => ⟨trivial, hgli2, hparse⟩⟩
    · simp only [eq_false hoomc, if_false]
      exact ⟨trivial, fun hc => hc.elim⟩
  · -- the line is stored: the deletion step removes its record
    have hlookne : lookupOff R 0 n ≠ none := by
      intro h
      have h2 := (lookupOff_none_iff n R 0).mp h
      rw [hfind] at h2
      exact Option.noConfusion h2
    obtain ⟨o, hlook⟩ : ∃ o, lookupOff R 0 n = some o := by
      cases h : lookupOff R 0 n with
      | none => exact absurd h hlookne
      | some o => exact ⟨o, rfl⟩
    obtain ⟨R1, b2, R2, hsplit, hfind2, hdel, ho, hne1⟩ := lookupOff_some_split n R 0 o hlook
    have hbb : b2 = b := by
      have h2 := hfind.symm.trans hfind2
      injection h2 with h3
      exact h3.symm
    rw [hbb] at hsplit
    have ho0 : o = (encodeRecs R1).length := by omega
    subst ho0
    subst hsplit
    have hlenapp : (encodeRecs (R1 ++ (n, b) :: R2)).length
        = (encodeRecs R1).length + (b.length + 3) + (encodeRecs R2).length := by
      rw [encodeRecs_append]
      simp only [List.length_append, length_encodeRecs_cons]
      omega
    have hlendel : (encodeRecs (R1 ++ R2)).length
        = (encodeRecs R1).length + (encodeRecs R2).length := by
      rw [encodeRecs_append]
      simp
    have hgli2 : get_line_index
        (memOfBytes (encodeRecs (R1 ++ (n, b) :: R2) ++ (natDigits n ++ 32 :: body)))
        (encodeRecs (R1 ++ (n, b) :: R2)).length n = (encodeRecs R1).length + 2 := by
      rw [hgli, hlook]
    -- record region facts at the found record
    have hRm2 : ∀ k, k < (encodeRecs R1 ++ (encodeRec (n, b) ++ encodeRecs R2)).length →
        memOfBytes (encodeRecs (R1 ++ (n, b) :: R2) ++ (natDigits n ++ 32 :: body)) (0 + k)
          = (encodeRecs R1 ++ (encodeRec (n, b) ++ encodeRecs R2)).getD k 0 := by
      intro k hk
      rw [Nat.zero_add]
      rw [show encodeRecs R1 ++ (encodeRec (n, b) ++ encodeRecs R2)
          = encodeRecs (R1 ++ (n, b) :: R2) by rw [encodeRecs_append]; rfl] at hk ⊢
      exact hRm k hk
    obtain ⟨hA, hB⟩ := match_split _ 0 _ _ hRm2
    have hB' : ∀ k, k < (encodeRec (n, b) ++ encodeRecs R2).length →
        memOfBytes (encodeRecs (R1 ++ (n, b) :: R2) ++ (natDigits n ++ 32 :: body))
          ((encodeRecs R1).length + k)
          = (encodeRec (n, b) ++ encodeRecs R2).getD k 0 := fun k hk => by
      have := hB k hk
      rwa [Nat.zero_add] at this
    obtain ⟨hrec, hrest⟩ := match_split _ (encodeRecs R1).length _ _ hB'
    obtain ⟨hh0, hh1, hbodyrec, htermrec⟩ := encodeRec_region _ (encodeRecs R1).length n b hrec
    have hgoodb : ∀ x ∈ b, x ≠ 0 := (hgood (n, b) (by simp)).2.2
    have hstrlen : strlenAt
        (memOfBytes (encodeRecs (R1 ++ (n, b) :: R2) ++ (natDigits n ++ 32 :: body)))
        ((encodeRecs R1).length + 2) = b.length :=
      strlenAt_region _ _ b (by omega) hgoodb hbodyrec htermrec
    have hdl : recsDelLen (R1 ++ (n, b) :: R2) n = b.length + 3 := by
      simp [recsDelLen, hfind]
    -- the deleted store
    have hm1 := shift_left_encodes
      (memOfBytes (encodeRecs (R1 ++ (n, b) :: R2) ++ (natDigits n ++ 32 :: body)))
      R1 R2 n b (fun k hk => hRm k hk)
    have hgooddel : goodRecs (R1 ++ R2) := by
      intro r hr
      rcases List.mem_append.mp hr with h | h
      · exact hgood r (List.mem_append_left _ h)
      · exact hgood r (List.mem_append_right _ (List.mem_cons_of_mem _ h))
    have hnotin : ∀ r ∈ R1 ++ R2, r.1 ≠ n := by
      intro r hr
      rcases List.mem_append.mp hr with h | h
      · exact hne1 r h
      · exact Ne.symm (Nat.ne_of_lt (recsAsc_middle R1 (n, b) R2 hasc r h))
    have hlookdel : lookupOff (R1 ++ R2) 0 n = none :=
      (lookupOff_none_iff n (R1 ++ R2) 0).mpr ((recsFind_none_iff n (R1 ++ R2)).mpr hnotin)
    have hglidel := get_line_index_encoded
      (codemem_shift_left
        (memOfBytes (encodeRecs (R1 ++ (n, b) :: R2) ++ (natDigits n ++ 32 :: body)))
        ((encodeRecs R1).length + (b.length + 3))
        ((encodeRecs (R1 ++ (n, b) :: R2)).length - ((encodeRecs R1).length + (b.length + 3)))
        (b.length + 3))
      n (R1 ++ R2) hgooddel hm1 (by omega)
    have hglidel2 : get_line_index
        (codemem_shift_left
          (memOfBytes (encodeRecs (R1 ++ (n, b) :: R2) ++ (natDigits n ++ 32 :: body)))
          ((encodeRecs R1).length + (b.length + 3))
          ((encodeRecs (R1 ++ (n, b) :: R2)).length
            - ((encodeRecs R1).length + (b.length + 3)))
          (b.length + 3))
        (encodeRecs (R1 ++ R2)).length n = (encodeRecs (R1 ++ R2)).length + 2 := by
      rw [hglidel, hlookdel]
    have hparsedel := parseRecords_encoded
      (codemem_shift_left
        (memOfBytes (encodeRecs (R1 ++ (n, b) :: R2) ++ (natDigits n ++ 32 :: body)))
        ((encodeRecs R1).length + (b.length + 3))
        ((encodeRecs (R1 ++ (n, b) :: R2)).length - ((encodeRecs R1).length + (b.length + 3)))
        (b.length + 3))
      (R1 ++ R2) hgooddel hm1 (by omega)
    have hstrip : strip_blanks
        (codemem_shift_left
          (memOfBytes (encodeRecs (R1 ++ (n, b) :: R2) ++ (natDigits n ++ 32 :: body)))
          ((encodeRecs R1).length + (b.length + 3))
          ((encodeRecs (R1 ++ (n, b) :: R2)).length
            - ((encodeRecs R1).length + (b.length + 3)))
          (b.length + 3))
        ((encodeRecs (R1 ++ (n, b) :: R2)).length + (natDigits n).length + 1) body.length
        = body.length := by
      refine strip_blanks_keep _ _ _ hb ?_
      rw [shift_left_above _ _ _ _ _ (by omega)]
      have h2 := hbody (body.length - 1) (by omega)
      rw [show (encodeRecs (R1 ++ (n, b) :: R2)).length + (natDigits n).length + 1
            + (body.length - 1)
          = (encodeRecs (R1 ++ (n, b) :: R2)).length + (natDigits n).length + 1
            + body.length - 1 by omega] at h2
      rw [h2]
      exact hbl
    rw [hdl]
    simp only [store_newline, mkEditState]
    simp only [hlinenum]
    simp only [eq_false (show ¬ (n = 0) from by omega), if_false]
    simp only [hlsl, hskip, hgli2]
    simp only [eq_true
      (show (encodeRecs R1).length + 2 < (encodeRecs (R1 ++ (n, b) :: R2)).length from
        by omega), if_true]
    simp only [show (encodeRecs R1).length + 2 - 2 = (encodeRecs R1).length from by omega]
    simp only [hstrlen]
    simp only [show b.length + 2 + 1 = b.length + 3 from by omega]
    simp only [hlenline]
    simp only [show (encodeRecs (R1 ++ (n, b) :: R2)).length
        + ((natDigits n).length + (body.length + 1))
        - ((encodeRecs (R1 ++ (n, b) :: R2)).length + (natDigits n).length + 1)
        = body.length from by omega]
    simp only [eq_false (show ¬ (body.length = 0) from by omega), if_false]
    simp only [hstrip]
    by_cases hoomc : CODE_MEMORY_SIZE
        - ((encodeRecs (R1 ++ (n, b) :: R2)).length - (b.length + 3)) < body.length + 8
    · simp only [eq_true hoomc, if_true]
      refine ⟨trivial, fun _ => ⟨trivial, ?_, ?_⟩⟩
      · rw [show (encodeRecs (R1 ++ (n, b) :: R2)).length - (b.length + 3)
            = (encodeRecs (R1 ++ R2)).length from by omega]
        exact hglidel2
      · rw [show (encodeRecs (R1 ++ (n, b) :: R2)).length - (b.length + 3)
            = (encodeRecs (R1 ++ R2)).length from by omega]
        rw [hdel]
        exact hparsedel
    · simp only [eq_false hoomc, if_false]
      exact ⟨trivial, fun hc => hc.elim⟩

theorem natDigits_90 : natDigits 90 = [57, 48] := by
  rw [natDigits]
  norm_num
  rw [natDigits]
  norm_num

theorem R0_len :
    (encodeRecs [(50, List.replicate 8161 66), (90, [88])]).length = 8168 := by
  rw [length_encodeRecs_cons, length_encodeRecs_cons]
  rw [show encodeRecs [] = [] from rfl]
  simp only [List.length_replicate, List.length_cons, List.length_nil]

theorem R0_dellen : recsDelLen [(50, List.replicate 8161 66), (90, [88])] 90 = 4 := by
  simp [recsDelLen, recsFind]

theorem R0_good : goodRecs [(50, List.replicate 8161 66), (90, [88])] := by
  intro r hr
  rcases List.mem_cons.mp hr with h | h
  · rw [h]
    refine ⟨by norm_num, by norm_num, ?_⟩
    intro x hx
    rw [List.eq_of_mem_replicate hx]
    norm_num
  · rcases List.mem_cons.mp h with h2 | h2
    · rw [h2]
      refine ⟨by norm_num, by norm_num, ?_⟩
      intro x hx
      simp at hx
      omega
    · simp at h2

theorem R0_asc : recsAsc [(50, List.replicate 8161 66), (90, [88])] :=
  ⟨by norm_num, trivial⟩

/-! ## Lemmas: the solver pipeline on grammar-derivable spans -/

/-! ## Basic getTok lemmas on pure lists -/

theorem getTok_eq_getElem (T : List ExprToken) (j : Nat) (h : j < T.length) :
    getTok T j = T[j] := by
  rw [getTok, List.getD_eq_getElem?_getD, List.getElem?_eq_getElem h]
  rfl

theorem getTok_default (T : List ExprToken) (j : Nat) (h : T.length ≤ j) :
    getTok T j = ⟨0, 0, 0⟩ := by
  rw [getTok, List.getD_eq_getElem?_getD, List.getElem?_eq_none h]
  rfl

theorem getTok_take (T : List ExprToken) (i j : Nat) (h : j < i) :
    getTok (T.take i) j = getTok T j := by
  rw [getTok, getTok, List.getD_eq_getElem?_getD, List.getD_eq_getElem?_getD,
    List.getElem?_take, if_pos h]

theorem getTok_drop (T : List ExprToken) (n m : Nat) :
    getTok (T.drop n) m = getTok T (n + m) := by
  rw [getTok, getTok, List.getD_eq_getElem?_getD, List.getD_eq_getElem?_getD,
    List.getElem?_drop]

theorem getTok_append_left (T1 T2 : List ExprToken) (j : Nat) (h : j < T1.length) :
    getTok (T1 ++ T2) j = getTok T1 j := by
  rw [getTok, getTok, List.getD_eq_getElem?_getD, List.getD_eq_getElem?_getD,
    List.getElem?_append, if_pos h]

theorem getTok_append_right (T1 T2 : List ExprToken) (j : Nat) (h : T1.length ≤ j) :
    getTok (T1 ++ T2) j = getTok T2 (j - T1.length) := by
  rw [getTok, getTok, List.getD_eq_getElem?_getD, List.getD_eq_getElem?_getD,
    List.getElem?_append_right h]

theorem getTok_cons_zero (t : ExprToken) (T : List ExprToken) :
    getTok (t :: T) 0 = t := rfl

theorem getTok_cons_succ (t : ExprToken) (T : List ExprToken) (j : Nat) :
    getTok (t :: T) (j + 1) = getTok T j := rfl

/-! ## `expr_erase` window characterization -/

theorem erase_aux_getTok (len : Nat) : ∀ (rem s : Nat) (ws : List ExprToken),
    s + rem ≤ ws.length →
    (expr_erase_aux len s rem ws).length = ws.length ∧
    ∀ j, getTok (expr_erase_aux len s rem ws) j =
      if s ≤ j ∧ j < s + rem then getTok ws (j + len) else getTok ws j := by
  intro rem
  induction rem with
  | zero =>
      intro s ws _
      refine ⟨rfl, ?_⟩
      intro j
      have : ¬ (s ≤ j ∧ j < s + 0) := by omega
      rw [if_neg this]
      rfl
  | succ rem ih =>
      intro s ws hlen
      have hs : s < ws.length := by omega
      have hset : (ws.set s (getTok ws (s + len))).length = ws.length := by
        simp
      have hrec := ih (s + 1) (ws.set s (getTok ws (s + len))) (by omega)
      constructor
      · show (expr_erase_aux len (s + 1) rem (ws.set s (getTok ws (s + len)))).length = _
        rw [hrec.1, hset]
      · intro j
        show getTok (expr_erase_aux len (s + 1) rem (ws.set s (getTok ws (s + len)))) j = _
        rw [hrec.2 j]
        by_cases h1 : s + 1 ≤ j ∧ j < s + 1 + rem
        · rw [if_pos h1]
          rw [getTok_set_ne _ _ _ _ (by omega)]
          rw [if_pos (by omega)]
        · rw [if_neg h1]
          by_cases h2 : j = s
          · subst h2
            rw [getTok_set_self _ _ _ hs, if_pos (by omega)]
          · rw [getTok_set_ne _ _ _ _ (by omega), if_neg (by omega)]

/-- Window relation between the machine erase of a folded slot and the
pure-list surgery. -/
theorem fold_window (ws2 T : List ExprToken) (i : Nat) (tok : ExprToken)
    (hws : ws2.length = 64) (hlt : i + 1 < T.length) (hT : T.length ≤ 64)
    (hwin : ∀ j, j < T.length → j ≠ i + 1 → getTok ws2 j = getTok T j)
    (htok : getTok ws2 (i + 1) = tok) :
    (expr_erase ws2 T.length i 1).length = 64 ∧
    (T.take i ++ tok :: T.drop (i + 2)).length = T.length - 1 ∧
    ∀ j, j < T.length - 1 →
      getTok (expr_erase ws2 T.length i 1) j
        = getTok (T.take i ++ tok :: T.drop (i + 2)) j := by
  have herase := erase_aux_getTok 1 (T.length - 1 - i) i ws2 (by omega)
  have hmin : min i T.length = i := by omega
  have hlen2 : (T.take i ++ tok :: T.drop (i + 2)).length = T.length - 1 := by
    rw [List.length_append, List.length_take, List.length_cons, List.length_drop]
    omega
  refine ⟨by rw [show expr_erase ws2 T.length i 1
      = expr_erase_aux 1 i (T.length - 1 - i) ws2 from rfl, herase.1, hws], hlen2, ?_⟩
  intro j hj
  rw [show expr_erase ws2 T.length i 1
      = expr_erase_aux 1 i (T.length - 1 - i) ws2 from rfl, herase.2 j]
  by_cases hji : j < i
  · rw [if_neg (by omega), hwin j (by omega) (by omega),
      getTok_append_left _ _ _ (by rw [List.length_take]; omega),
      getTok_take T i j hji]
  · rw [if_pos (by omega),
      getTok_append_right _ _ _ (by rw [List.length_take]; omega),
      List.length_take, hmin]
    by_cases hje : j = i
    · subst hje
      rw [htok, Nat.sub_self, getTok_cons_zero]
    · rw [hwin (j + 1) (by omega) (by omega),
        show j - i = (j - i - 1) + 1 by omega, getTok_cons_succ, getTok_drop]
      congr 1
      omega

/-! ## Simulation: the machine unary pass against `ufold` -/

theorem ufold_sim : ∀ (i : Nat) (T ws : List ExprToken),
    ws.length = 64 → T.length ≤ 63 → i ≤ T.length →
    (i = T.length → getTok ws T.length = ⟨0, 0, 0⟩) →
    (∀ j, j < T.length → getTok ws j = getTok T j) →
    (expr_reduce_unary_aux i ws T.length).2.2 = (ufold i T).2 ∧
    (expr_reduce_unary_aux i ws T.length).2.1 = (ufold i T).1.length ∧
    (expr_reduce_unary_aux i ws T.length).1.length = 64 ∧
    (∀ j, j < (ufold i T).1.length →
      getTok (expr_reduce_unary_aux i ws T.length).1 j = getTok (ufold i T).1 j) := by
  intro i
  induction i with
  | zero =>
      intro T ws hws _ _ _ hwin
      exact ⟨rfl, rfl, hws, fun j hj => hwin j hj⟩
  | succ i ih =>
      intro T ws hws hT hi htop hwin
      have hT1 : 1 ≤ T.length := by omega
      have hti : getTok ws (i + 1) = getTok T (i + 1) := by
        by_cases h : i + 1 = T.length
        · rw [h, htop (by omega), getTok_default T _ (by omega)]
        · exact hwin (i + 1) (by omega)
      have hprev : getTok ws (i + 1 - 2) = getTok T (i + 1 - 2) :=
        hwin _ (by omega)
      have hop : getTok ws i = getTok T i := hwin i (by omega)
      rw [expr_reduce_unary_aux, ufold]
      simp only [hti, hprev, hop]
      by_cases h1 : (getTok T (i + 1)).type = ET_SUBEXPR_OPEN
      · rw [if_pos h1, if_pos h1]
        exact ih T ws hws hT (by omega) (fun h => absurd h (by omega)) hwin
      rw [if_neg h1, if_neg h1]
      by_cases h2 : i + 1 > 1 ∧ (getTok T (i + 1 - 2)).type = ET_VALUE
      · rw [if_pos h2, if_pos h2]
        exact ih T ws hws hT (by omega) (fun h => absurd h (by omega)) hwin
      rw [if_neg h2, if_neg h2]
      by_cases h3 : i + 1 > 1 ∧ (getTok T (i + 1 - 2)).type = ET_SUBEXPR_CLOSE
      · rw [if_pos h3, if_pos h3]
        exact ih T ws hws hT (by omega) (fun h => absurd h (by omega)) hwin
      rw [if_neg h3, if_neg h3]
      -- the three fold candidates share one argument shape
      have main : ∀ tok : ExprToken,
          (getTok T (i + 1)).type = ET_VALUE →
          getTok (ws.set (i + 1) tok) (i + 1) = tok →
          (∀ j, j < T.length → j ≠ i + 1 → getTok (ws.set (i + 1) tok) j = getTok T j) →
          (expr_reduce_unary_aux i (expr_erase (ws.set (i + 1) tok) T.length i 1)
              (T.length - 1)).2.2
            = (ufold i (T.take i ++ tok :: T.drop (i + 2))).2 ∧
          (expr_reduce_unary_aux i (expr_erase (ws.set (i + 1) tok) T.length i 1)
              (T.length - 1)).2.1
            = (ufold i (T.take i ++ tok :: T.drop (i + 2))).1.length ∧
          (expr_reduce_unary_aux i (expr_erase (ws.set (i + 1) tok) T.length i 1)
              (T.length - 1)).1.length = 64 ∧
          (∀ j, j < (ufold i (T.take i ++ tok :: T.drop (i + 2))).1.length →
            getTok (expr_reduce_unary_aux i (expr_erase (ws.set (i + 1) tok) T.length i 1)
                (T.length - 1)).1 j
              = getTok (ufold i (T.take i ++ tok :: T.drop (i + 2))).1 j) := by
        intro tok hv htok2 hwin2
        have hlt : i + 1 < T.length := by
          by_contra hc
          have he : i + 1 = T.length := by omega
          rw [he, getTok_default T _ (by omega)] at hv
          exact absurd hv (by decide)
        have hfw := fold_window (ws.set (i + 1) tok) T i tok (by simp [hws]) hlt
          (by omega) hwin2 htok2
        have hrec := ih (T.take i ++ tok :: T.drop (i + 2))
          (expr_erase (ws.set (i + 1) tok) T.length i 1)
          hfw.1 (by rw [hfw.2.1]; omega) (by rw [hfw.2.1]; omega)
          (fun h => absurd (by rw [hfw.2.1] at h; omega : i = T.length - 1 ∧ i + 1 < T.length)
            (by omega))
          (by rw [hfw.2.1]; exact hfw.2.2)
        rw [hfw.2.1] at hrec
        exact hrec
      by_cases h4 : (getTok T i).type = ET_ADD
      · rw [if_pos h4, if_pos h4]
        by_cases h5 : (getTok T (i + 1)).type ≠ ET_VALUE
        · rw [if_pos h5, if_pos h5]
          exact ⟨rfl, rfl, hws, fun j hj => hwin j hj⟩
        · rw [if_neg h5, if_neg h5]
          push_neg at h5
          have hlt : i + 1 < T.length := by
            by_contra hc
            have he : i + 1 = T.length := by omega
            rw [he, getTok_default T _ (by omega)] at h5
            exact absurd h5 (by decide)
          -- the ADD fold has no set; rephrase it as a trivial set
          have hsetid : ws.set (i + 1) (getTok T (i + 1)) = ws := by
            rw [← hti, getTok_eq_getElem ws (i + 1) (by omega)]
            apply List.ext_getElem?
            intro m
            by_cases hm : m = i + 1
            · subst hm
              rw [List.getElem?_set_self (by omega), List.getElem?_eq_getElem (by omega)]
            · rw [List.getElem?_set_ne (fun he => hm he.symm)]
          have hm := main (getTok T (i + 1)) h5
            (by rw [hsetid]; exact hti)
            (fun j hj hne => by rw [hsetid]; exact hwin j hj)
          rw [hsetid] at hm
          exact hm
      rw [if_neg h4, if_neg h4]
      by_cases h6 : (getTok T i).type = ET_SUBTRACT
      · rw [if_pos h6, if_pos h6]
        by_cases h5 : (getTok T (i + 1)).type ≠ ET_VALUE
        · rw [if_pos h5, if_pos h5]
          exact ⟨rfl, rfl, hws, fun j hj => hwin j hj⟩
        · rw [if_neg h5, if_neg h5]
          push_neg at h5
          exact main ⟨(getTok T (i + 1)).type, (getTok T (i + 1)).precedence,
              neg32 (getTok T (i + 1)).value⟩ h5
            (getTok_set_self _ _ _ (by omega))
            (fun j hj hne => getTok_set_ne _ _ _ _ (fun he => hne he.symm) |>.symm ▸
              hwin j hj)
      rw [if_neg h6, if_neg h6]
      by_cases h7 : (getTok T i).type = ET_INVERT
      · rw [if_pos h7, if_pos h7]
        by_cases h5 : (getTok T (i + 1)).type ≠ ET_VALUE
        · rw [if_pos h5, if_pos h5]
          exact ⟨rfl, rfl, hws, fun j hj => hwin j hj⟩
        · rw [if_neg h5, if_neg h5]
          push_neg at h5
          exact main ⟨(getTok T (i + 1)).type, (getTok T (i + 1)).precedence,
              inv32 (getTok T (i + 1)).value⟩ h5
            (getTok_set_self _ _ _ (by omega))
            (fun j hj hne => getTok_set_ne _ _ _ _ (fun he => hne he.symm) |>.symm ▸
              hwin j hj)
      rw [if_neg h7, if_neg h7]
      exact ih T ws hws hT (by omega) (fun h => absurd h (by omega)) hwin

theorem ufold_sim_entry (T ws : List ExprToken)
    (hws : ws.length = 64) (hT : T.length ≤ 63)
    (htop : getTok ws T.length = ⟨0, 0, 0⟩)
    (hwin : ∀ j, j < T.length → getTok ws j = getTok T j) :
    (expr_reduce_unary ws T.length).2.2 = (ufold T.length T).2 ∧
    (expr_reduce_unary ws T.length).2.1 = (ufold T.length T).1.length ∧
    (expr_reduce_unary ws T.length).1.length = 64 ∧
    (∀ j, j < (ufold T.length T).1.length →
      getTok (expr_reduce_unary ws T.length).1 j = getTok (ufold T.length T).1 j) :=
  ufold_sim T.length T ws hws hT (le_refl _) (fun _ => htop) hwin

/-! ## Step lemmas for `ufold` -/

theorem ufold_skip_op (i : Nat) (T : List ExprToken)
    (h2 : (getTok T i).type ≠ ET_ADD) (h3 : (getTok T i).type ≠ ET_SUBTRACT)
    (h4 : (getTok T i).type ≠ ET_INVERT) :
    ufold (i + 1) T = ufold i T := by
  rw [ufold]
  simp only []
  by_cases h1 : (getTok T (i + 1)).type = ET_SUBEXPR_OPEN
  · rw [if_pos h1]
  rw [if_neg h1]
  by_cases g2 : i + 1 > 1 ∧ (getTok T (i + 1 - 2)).type = ET_VALUE
  · rw [if_pos g2]
  rw [if_neg g2]
  by_cases g3 : i + 1 > 1 ∧ (getTok T (i + 1 - 2)).type = ET_SUBEXPR_CLOSE
  · rw [if_pos g3]
  rw [if_neg g3, if_neg h2, if_neg h3, if_neg h4]

theorem ufold_skip_prev (i : Nat) (T : List ExprToken) (h1 : 1 ≤ i)
    (h : (getTok T (i - 1)).type = ET_VALUE ∨ (getTok T (i - 1)).type = ET_SUBEXPR_CLOSE) :
    ufold (i + 1) T = ufold i T := by
  rw [ufold]
  simp only []
  have hidx : i + 1 - 2 = i - 1 := by omega
  by_cases g1 : (getTok T (i + 1)).type = ET_SUBEXPR_OPEN
  · rw [if_pos g1]
  rw [if_neg g1]
  rcases h with h | h
  · rw [if_pos ⟨by omega, by rw [hidx]; exact h⟩]
  · by_cases g2 : i + 1 > 1 ∧ (getTok T (i + 1 - 2)).type = ET_VALUE
    · rw [if_pos g2]
    · rw [if_neg g2, if_pos ⟨by omega, by rw [hidx]; exact h⟩]

theorem ufold_fold_add (i : Nat) (T : List ExprToken) (q v : Nat)
    (hti : getTok T (i + 1) = ⟨ET_VALUE, q, v⟩)
    (hop : (getTok T i).type = ET_ADD)
    (hprev : i = 0 ∨ ((getTok T (i - 1)).type ≠ ET_VALUE ∧
      (getTok T (i - 1)).type ≠ ET_SUBEXPR_CLOSE)) :
    ufold (i + 1) T = ufold i (T.take i ++ ⟨ET_VALUE, q, v⟩ :: T.drop (i + 2)) := by
  rw [ufold]
  simp only [hti]
  rw [if_neg (by simp [ET_VALUE, ET_SUBEXPR_OPEN] : ¬ (ExprToken.mk ET_VALUE q v).type = ET_SUBEXPR_OPEN)]
  have hidx : i + 1 - 2 = i - 1 := by omega
  have g2 : ¬ (i + 1 > 1 ∧ (getTok T (i + 1 - 2)).type = ET_VALUE) := by
    rcases hprev with h | h
    · omega
    · rw [hidx]; intro hc; exact h.1 hc.2
  have g3 : ¬ (i + 1 > 1 ∧ (getTok T (i + 1 - 2)).type = ET_SUBEXPR_CLOSE) := by
    rcases hprev with h | h
    · omega
    · rw [hidx]; intro hc; exact h.2 hc.2
  rw [if_neg g2, if_neg g3, if_pos hop,
    if_neg (by simp : ¬ (ExprToken.mk ET_VALUE q v).type ≠ ET_VALUE)]

theorem ufold_fold_sub (i : Nat) (T : List ExprToken) (q v : Nat)
    (hti : getTok T (i + 1) = ⟨ET_VALUE, q, v⟩)
    (hop : (getTok T i).type = ET_SUBTRACT)
    (hprev : i = 0 ∨ ((getTok T (i - 1)).type ≠ ET_VALUE ∧
      (getTok T (i - 1)).type ≠ ET_SUBEXPR_CLOSE)) :
    ufold (i + 1) T = ufold i (T.take i ++ ⟨ET_VALUE, q, neg32 v⟩ :: T.drop (i + 2)) := by
  rw [ufold]
  simp only [hti]
  rw [if_neg (by simp [ET_VALUE, ET_SUBEXPR_OPEN] : ¬ (ExprToken.mk ET_VALUE q v).type = ET_SUBEXPR_OPEN)]
  have hidx : i + 1 - 2 = i - 1 := by omega
  have g2 : ¬ (i + 1 > 1 ∧ (getTok T (i + 1 - 2)).type = ET_VALUE) := by
    rcases hprev with h | h
    · omega
    · rw [hidx]; intro hc; exact h.1 hc.2
  have g3 : ¬ (i + 1 > 1 ∧ (getTok T (i + 1 - 2)).type = ET_SUBEXPR_CLOSE) := by
    rcases hprev with h | h
    · omega
    · rw [hidx]; intro hc; exact h.2 hc.2
  have hns : (getTok T i).type ≠ ET_ADD := by rw [hop]; decide
  rw [if_neg g2, if_neg g3, if_neg hns, if_pos hop,
    if_neg (by simp : ¬ (ExprToken.mk ET_VALUE q v).type ≠ ET_VALUE)]

theorem ufold_fold_inv (i : Nat) (T : List ExprToken) (q v : Nat)
    (hti : getTok T (i + 1) = ⟨ET_VALUE, q, v⟩)
    (hop : (getTok T i).type = ET_INVERT)
    (hprev : i = 0 ∨ ((getTok T (i - 1)).type ≠ ET_VALUE ∧
      (getTok T (i - 1)).type ≠ ET_SUBEXPR_CLOSE)) :
    ufold (i + 1) T = ufold i (T.take i ++ ⟨ET_VALUE, q, inv32 v⟩ :: T.drop (i + 2)) := by
  rw [ufold]
  simp only [hti]
  rw [if_neg (by simp [ET_VALUE, ET_SUBEXPR_OPEN] : ¬ (ExprToken.mk ET_VALUE q v).type = ET_SUBEXPR_OPEN)]
  have hidx : i + 1 - 2 = i - 1 := by omega
  have g2 : ¬ (i + 1 > 1 ∧ (getTok T (i + 1 - 2)).type = ET_VALUE) := by
    rcases hprev with h | h
    · omega
    · rw [hidx]; intro hc; exact h.1 hc.2
  have g3 : ¬ (i + 1 > 1 ∧ (getTok T (i + 1 - 2)).type = ET_SUBEXPR_CLOSE) := by
    rcases hprev with h | h
    · omega
    · rw [hidx]; intro hc; exact h.2 hc.2
  have hns : (getTok T i).type ≠ ET_ADD := by rw [hop]; decide
  have hns2 : (getTok T i).type ≠ ET_SUBTRACT := by rw [hop]; decide
  rw [if_neg g2, if_neg g3, if_neg hns, if_neg hns2, if_pos hop,
    if_neg (by simp : ¬ (ExprToken.mk ET_VALUE q v).type ≠ ET_VALUE)]

/-! ## Take/drop surgery on appended lists -/

theorem take_app (L rest : List ExprToken) : (L ++ rest).take L.length = L := by
  simp

theorem drop_app (L rest : List ExprToken) (n : Nat) :
    (L ++ rest).drop (L.length + n) = rest.drop n := by
  exact List.drop_append n

/-! ## Structural facts about derivable lists -/

theorem gram_len_pos (lvl : Nat) (l : List ExprToken) (v : Nat) (h : Gram lvl l v) :
    1 ≤ l.length := by
  induction h with
  | value p v => simp
  | paren p q l v h ih => simp
  | pos p q v => simp
  | neg p q v => simp
  | inv p q v => simp
  | up1 l v h ih => exact ih
  | mul p l1 l2 v1 v2 h1 h2 ih1 ih2 => simp; omega
  | div p l1 l2 v1 v2 h1 h2 ih1 ih2 => simp; omega
  | rem p l1 l2 v1 v2 h1 h2 ih1 ih2 => simp; omega
  | up2 l v h ih => exact ih
  | add p l1 l2 v1 v2 h1 h2 ih1 ih2 => simp; omega
  | sub p l1 l2 v1 v2 h1 h2 ih1 ih2 => simp; omega
  | up3 l v h ih => exact ih
  | band p l1 l2 v1 v2 h1 h2 ih1 ih2 => simp; omega
  | bor p l1 l2 v1 v2 h1 h2 ih1 ih2 => simp; omega
  | bxor p l1 l2 v1 v2 h1 h2 ih1 ih2 => simp; omega

theorem gram_last_type (lvl : Nat) (l : List ExprToken) (v : Nat) (h : Gram lvl l v) :
    (getTok l (l.length - 1)).type = ET_VALUE ∨
    (getTok l (l.length - 1)).type = ET_SUBEXPR_CLOSE := by
  induction h with
  | value p v => left; rfl
  | paren p q l v h ih =>
      right
      have hlen : (ExprToken.mk ET_SUBEXPR_OPEN p 0 :: l ++ [ExprToken.mk ET_SUBEXPR_CLOSE q 0]).length
          = l.length + 2 := by simp
      rw [hlen, show l.length + 2 - 1 = (l.length) + 1 from rfl, List.cons_append,
        getTok_cons_succ, getTok_append_right _ _ _ (by omega), Nat.sub_self,
        getTok_cons_zero]
  | pos p q v => left; rfl
  | neg p q v => left; rfl
  | inv p q v => left; rfl
  | up1 l v h ih => exact ih
  | mul p l1 l2 v1 v2 h1 h2 ih1 ih2 =>
      have h2len := gram_len_pos _ _ _ h2
      have hlen : (l1 ++ ⟨ET_MULTIPLY, p, 0⟩ :: l2).length = l1.length + 1 + l2.length := by
        simp; omega
      rw [hlen, getTok_append_right _ _ _ (by omega),
        show l1.length + 1 + l2.length - 1 - l1.length = (l2.length - 1) + 1 from by omega,
        getTok_cons_succ]
      exact ih2
  | div p l1 l2 v1 v2 h1 h2 ih1 ih2 =>
      have h2len := gram_len_pos _ _ _ h2
      have hlen : (l1 ++ ⟨ET_DIVIDE, p, 0⟩ :: l2).length = l1.length + 1 + l2.length := by
        simp; omega
      rw [hlen, getTok_append_right _ _ _ (by omega),
        show l1.length + 1 + l2.length - 1 - l1.length = (l2.length - 1) + 1 from by omega,
        getTok_cons_succ]
      exact ih2
  | rem p l1 l2 v1 v2 h1 h2 ih1 ih2 =>
      have h2len := gram_len_pos _ _ _ h2
      have hlen : (l1 ++ ⟨ET_REMAINDER, p, 0⟩ :: l2).length = l1.length + 1 + l2.length := by
        simp; omega
      rw [hlen, getTok_append_right _ _ _ (by omega),
        show l1.length + 1 + l2.length - 1 - l1.length = (l2.length - 1) + 1 from by omega,
        getTok_cons_succ]
      exact ih2
  | up2 l v h ih => exact ih
  | add p l1 l2 v1 v2 h1 h2 ih1 ih2 =>
      have h2len := gram_len_pos _ _ _ h2
      have hlen : (l1 ++ ⟨ET_ADD, p, 0⟩ :: l2).length = l1.length + 1 + l2.length := by
        simp; omega
      rw [hlen, getTok_append_right _ _ _ (by omega),
        show l1.length + 1 + l2.length - 1 - l1.length = (l2.length - 1) + 1 from by omega,
        getTok_cons_succ]
      exact ih2
  | sub p l1 l2 v1 v2 h1 h2 ih1 ih2 =>
      have h2len := gram_len_pos _ _ _ h2
      have hlen : (l1 ++ ⟨ET_SUBTRACT, p, 0⟩ :: l2).length = l1.length + 1 + l2.length := by
        simp; omega
      rw [hlen, getTok_append_right _ _ _ (by omega),
        show l1.length + 1 + l2.length - 1 - l1.length = (l2.length - 1) + 1 from by omega,
        getTok_cons_succ]
      exact ih2
  | up3 l v h ih => exact ih
  | band p l1 l2 v1 v2 h1 h2 ih1 ih2 =>
      have h2len := gram_len_pos _ _ _ h2
      have hlen : (l1 ++ ⟨ET_AND, p, 0⟩ :: l2).length = l1.length + 1 + l2.length := by
        simp; omega
      rw [hlen, getTok_append_right _ _ _ (by omega),
        show l1.length + 1 + l2.length - 1 - l1.length = (l2.length - 1) + 1 from by omega,
        getTok_cons_succ]
      exact ih2
  | bor p l1 l2 v1 v2 h1 h2 ih1 ih2 =>
      have h2len := gram_len_pos _ _ _ h2
      have hlen : (l1 ++ ⟨ET_OR, p, 0⟩ :: l2).length = l1.length + 1 + l2.length := by
        simp; omega
      rw [hlen, getTok_append_right _ _ _ (by omega),
        show l1.length + 1 + l2.length - 1 - l1.length = (l2.length - 1) + 1 from by omega,
        getTok_cons_succ]
      exact ih2
  | bxor p l1 l2 v1 v2 h1 h2 ih1 ih2 =>
      have h2len := gram_len_pos _ _ _ h2
      have hlen : (l1 ++ ⟨ET_XOR, p, 0⟩ :: l2).length = l1.length + 1 + l2.length := by
        simp; omega
      rw [hlen, getTok_append_right _ _ _ (by omega),
        show l1.length + 1 + l2.length - 1 - l1.length = (l2.length - 1) + 1 from by omega,
        getTok_cons_succ]
      exact ih2

/-! ## The unary pass on derivable segments -/

theorem ufold_congr (a b : Nat) (T U : List ExprToken) (h1 : a = b) (h2 : T = U) :
    ufold a T = ufold b U := by rw [h1, h2]

theorem uctx_prev (L : List ExprToken) (X : List ExprToken) (hX : ∀ j, j < L.length →
    getTok X j = getTok L j) (hctx : UCtx L) :
    L.length = 0 ∨ ((getTok X (L.length - 1)).type ≠ ET_VALUE ∧
      (getTok X (L.length - 1)).type ≠ ET_SUBEXPR_CLOSE) := by
  by_cases hL0 : L = []
  · left; simp [hL0]
  · right
    have hpos : 0 < L.length := List.length_pos.mpr hL0
    rw [hX (L.length - 1) (by omega)]
    rcases hctx with hL | hL | hL
    · exact absurd hL hL0
    · constructor
      · rw [hL]; decide
      · rw [hL]; decide
    · have hb := of_decide_eq_true hL
      constructor
      · intro hc; rw [hc] at hb; revert hb; decide
      · intro hc; rw [hc] at hb; revert hb; decide

/-- The shared argument for all six binary-operator productions. -/
theorem ufold_gram_binop (lv1 lv2 ty p : Nat) (l1 l2 : List ExprToken) (v1 v2 : Nat)
    (hty : isBinopB ty = true)
    (hlen1 : 1 ≤ l1.length)
    (hlast1 : (getTok l1 (l1.length - 1)).type = ET_VALUE ∨
      (getTok l1 (l1.length - 1)).type = ET_SUBEXPR_CLOSE)
    (ih1 : UGood lv1 l1 v1) (ih2 : UGood lv2 l2 v2) :
    ∀ L R : List ExprToken, UCtx L →
    (∀ t ∈ l1 ++ (ExprToken.mk ty p 0) :: l2, t.precedence = 0) →
    ∃ l1' l2', GramU lv1 l1' v1 ∧ GramU lv2 l2' v2 ∧
      1 ≤ l1'.length ∧ l1'.length ≤ l1.length ∧ l2'.length ≤ l2.length ∧
      (∀ t ∈ l1', t.precedence = 0) ∧ (∀ t ∈ l2', t.precedence = 0) ∧
      ufold (L.length + (l1 ++ (ExprToken.mk ty p 0) :: l2).length) (L ++ ((l1 ++ (ExprToken.mk ty p 0) :: l2) ++ R))
        = ufold L.length (L ++ ((l1' ++ (ExprToken.mk ty p 0) :: l2') ++ R)) := by
  intro L R hctx hp
  have hctx2 : UCtx (L ++ (l1 ++ [(ExprToken.mk ty p 0)])) := by
    right; right
    have hlen : (L ++ (l1 ++ [ExprToken.mk ty p 0])).length = L.length + l1.length + 1 := by
      simp only [List.length_append, List.length_cons, List.length_nil]
      omega
    rw [hlen, show L.length + l1.length + 1 - 1 = L.length + l1.length from by omega,
      getTok_append_right _ _ _ (by omega),
      show L.length + l1.length - L.length = l1.length from by omega,
      getTok_append_right _ _ _ (le_refl _), Nat.sub_self, getTok_cons_zero]
    exact hty
  have hp2 : ∀ t ∈ l2, t.precedence = 0 := fun t ht => hp t (by simp [ht])
  obtain ⟨l2', g2, hl2p, hl2le, hp2', heq2⟩ :=
    ih2 (L ++ (l1 ++ [(ExprToken.mk ty p 0)])) R hctx2 hp2
  have eA : ufold (L.length + (l1 ++ (ExprToken.mk ty p 0) :: l2).length)
        (L ++ ((l1 ++ (ExprToken.mk ty p 0) :: l2) ++ R))
      = ufold ((L ++ (l1 ++ [(ExprToken.mk ty p 0)])).length + l2.length)
        ((L ++ (l1 ++ [(ExprToken.mk ty p 0)])) ++ (l2 ++ R)) := by
    apply ufold_congr
    · simp only [List.length_append, List.length_cons, List.length_nil]
      omega
    · simp
  have eC : ufold ((L ++ (l1 ++ [(ExprToken.mk ty p 0)])).length)
        ((L ++ (l1 ++ [(ExprToken.mk ty p 0)])) ++ (l2' ++ R))
      = ufold (L.length + l1.length) ((L ++ (l1 ++ [(ExprToken.mk ty p 0)])) ++ (l2' ++ R)) := by
    have hlen : (L ++ (l1 ++ [ExprToken.mk ty p 0])).length = L.length + l1.length + 1 := by
      simp only [List.length_append, List.length_cons, List.length_nil]
      omega
    rw [hlen]
    apply ufold_skip_prev
    · omega
    · have hidx : L.length + l1.length - 1 = L.length + (l1.length - 1) := by omega
      rw [hidx, getTok_append_left _ _ _ (by simp; omega),
        getTok_append_right _ _ _ (by omega),
        show L.length + (l1.length - 1) - L.length = l1.length - 1 from by omega,
        getTok_append_left _ _ _ (by omega)]
      exact hlast1
  have eD : ufold (L.length + l1.length) ((L ++ (l1 ++ [(ExprToken.mk ty p 0)])) ++ (l2' ++ R))
      = ufold (L.length + l1.length) (L ++ (l1 ++ ((ExprToken.mk ty p 0) :: (l2' ++ R)))) := by
    apply ufold_congr _ _ _ _ rfl
    simp
  have hp1 : ∀ t ∈ l1, t.precedence = 0 := fun t ht => hp t (by simp [ht])
  obtain ⟨l1', g1, hl1p, hl1le, hp1', heq1⟩ :=
    ih1 L ((ExprToken.mk ty p 0) :: (l2' ++ R)) hctx hp1
  have eE : ufold L.length (L ++ (l1' ++ ((ExprToken.mk ty p 0) :: (l2' ++ R))))
      = ufold L.length (L ++ ((l1' ++ (ExprToken.mk ty p 0) :: l2') ++ R)) := by
    apply ufold_congr _ _ _ _ rfl
    simp
  exact ⟨l1', l2', g1, g2, hl1p, hl1le, hl2le, hp1', hp2',
    (((eA.trans heq2).trans eC).trans eD).trans (heq1.trans eE)⟩

theorem ufold_gram (lvl : Nat) (l : List ExprToken) (v : Nat) (h : Gram lvl l v) :
    UGood lvl l v := by
  induction h with
  | value p v =>
      intro L R hctx hp
      refine ⟨[(ExprToken.mk ET_VALUE p v)], GramU.value p v, by simp, by simp, hp, ?_⟩
      have e1 : ufold (L.length + 1) (L ++ ([(ExprToken.mk ET_VALUE p v)] ++ R))
          = ufold L.length (L ++ ([(ExprToken.mk ET_VALUE p v)] ++ R)) := by
        apply ufold_skip_op <;>
          rw [getTok_append_right _ _ _ (le_refl _), Nat.sub_self, List.singleton_append,
            getTok_cons_zero] <;> simp [ET_VALUE, ET_ADD, ET_SUBTRACT, ET_INVERT]
      exact (ufold_congr _ _ _ _ (by simp) rfl).trans e1
  | paren p q inner v h ih =>
      intro L R hctx hp
      have hpin : ∀ t ∈ inner, t.precedence = 0 := fun t ht => hp t (by simp [ht])
      have hctx2 : UCtx (L ++ [(ExprToken.mk ET_SUBEXPR_OPEN p 0)]) := by
        right; left
        have hlen : (L ++ [ExprToken.mk ET_SUBEXPR_OPEN p 0]).length = L.length + 1 := by
          simp
        rw [hlen, show L.length + 1 - 1 = L.length from by omega,
          getTok_append_right _ _ _ (le_refl _), Nat.sub_self, getTok_cons_zero]
      obtain ⟨inner', g, hip, hile, hipr, heqI⟩ :=
        ih (L ++ [(ExprToken.mk ET_SUBEXPR_OPEN p 0)]) ((ExprToken.mk ET_SUBEXPR_CLOSE q 0) :: R) hctx2 hpin
      have hlastI := gram_last_type _ _ _ h
      have hlenI := gram_len_pos _ _ _ h
      -- step 1: skip over the closing bracket
      have hclose : (getTok (L ++ (((ExprToken.mk ET_SUBEXPR_OPEN p 0) :: inner ++
            [(ExprToken.mk ET_SUBEXPR_CLOSE q 0)]) ++ R)) (L.length + inner.length + 1)).type
          = ET_SUBEXPR_CLOSE := by
        rw [getTok_append_right _ _ _ (by omega),
          show L.length + inner.length + 1 - L.length = inner.length + 1 from by omega,
          List.cons_append, List.cons_append, getTok_cons_succ,
          getTok_append_left _ _ _ (by simp),
          getTok_append_right _ _ _ (le_refl _), Nat.sub_self, getTok_cons_zero]
      have e1 : ufold (L.length + inner.length + 1 + 1)
            (L ++ (((ExprToken.mk ET_SUBEXPR_OPEN p 0) :: inner ++ [(ExprToken.mk ET_SUBEXPR_CLOSE q 0)]) ++ R))
          = ufold (L.length + inner.length + 1)
            (L ++ (((ExprToken.mk ET_SUBEXPR_OPEN p 0) :: inner ++ [(ExprToken.mk ET_SUBEXPR_CLOSE q 0)]) ++ R)) := by
        apply ufold_skip_op <;> rw [hclose] <;> decide
      have e2 : ufold (L.length + inner.length + 1)
            (L ++ (((ExprToken.mk ET_SUBEXPR_OPEN p 0) :: inner ++ [(ExprToken.mk ET_SUBEXPR_CLOSE q 0)]) ++ R))
          = ufold ((L ++ [(ExprToken.mk ET_SUBEXPR_OPEN p 0)]).length + inner.length)
            ((L ++ [(ExprToken.mk ET_SUBEXPR_OPEN p 0)]) ++ (inner ++ ((ExprToken.mk ET_SUBEXPR_CLOSE q 0) :: R))) := by
        apply ufold_congr
        · simp only [List.length_append, List.length_cons, List.length_nil]
          omega
        · simp
      have e3 : ufold ((L ++ [(ExprToken.mk ET_SUBEXPR_OPEN p 0)]).length)
            ((L ++ [(ExprToken.mk ET_SUBEXPR_OPEN p 0)]) ++ (inner' ++ ((ExprToken.mk ET_SUBEXPR_CLOSE q 0) :: R)))
          = ufold (L.length + 1)
            (L ++ (((ExprToken.mk ET_SUBEXPR_OPEN p 0) :: inner' ++ [(ExprToken.mk ET_SUBEXPR_CLOSE q 0)]) ++ R)) := by
        apply ufold_congr
        · simp
        · simp
      have hopen : (getTok (L ++ (((ExprToken.mk ET_SUBEXPR_OPEN p 0) :: inner' ++
            [(ExprToken.mk ET_SUBEXPR_CLOSE q 0)]) ++ R)) L.length).type = ET_SUBEXPR_OPEN := by
        rw [getTok_append_right _ _ _ (le_refl _), Nat.sub_self, List.cons_append,
          List.cons_append, getTok_cons_zero]
      have e4 : ufold (L.length + 1)
            (L ++ (((ExprToken.mk ET_SUBEXPR_OPEN p 0) :: inner' ++ [(ExprToken.mk ET_SUBEXPR_CLOSE q 0)]) ++ R))
          = ufold L.length
            (L ++ (((ExprToken.mk ET_SUBEXPR_OPEN p 0) :: inner' ++ [(ExprToken.mk ET_SUBEXPR_CLOSE q 0)]) ++ R)) := by
        apply ufold_skip_op <;> rw [hopen] <;> decide
      refine ⟨(ExprToken.mk ET_SUBEXPR_OPEN p 0) :: inner' ++ [(ExprToken.mk ET_SUBEXPR_CLOSE q 0)],
        GramU.paren p q inner' v g, by simp, ?_, ?_, ?_⟩
      · simp only [List.length_cons, List.length_append, List.length_nil]
        omega
      · intro t ht
        rcases List.mem_append.mp ht with h0 | h0
        · rcases List.mem_cons.mp h0 with h1 | h1
          · rw [h1]; exact hp _ (by simp)
          · exact hipr _ h1
        · have : t = (ExprToken.mk ET_SUBEXPR_CLOSE q 0) := by simpa using h0
          rw [this]; exact hp _ (by simp)
      · exact ((((ufold_congr _ _ _ _ (by simp only [List.length_append,
          List.length_cons, List.length_nil]; omega) rfl).trans e1).trans
          (e2.trans heqI)).trans e3).trans e4
  | pos p q v =>
      intro L R hctx hp
      have hpq : (ExprToken.mk ET_VALUE q v).precedence = 0 := hp _ (by simp)
      have hti : getTok (L ++ ([(ExprToken.mk ET_ADD p 0), (ExprToken.mk ET_VALUE q v)] ++ R)) (L.length + 1)
          = (ExprToken.mk ET_VALUE q v) := by
        rw [getTok_append_right _ _ _ (by omega),
          show L.length + 1 - L.length = 1 from by omega]
        rfl
      have hop : (getTok (L ++ ([(ExprToken.mk ET_ADD p 0), (ExprToken.mk ET_VALUE q v)] ++ R)) L.length).type
          = ET_ADD := by
        rw [getTok_append_right _ _ _ (le_refl _), Nat.sub_self]
        rfl
      have hprev := uctx_prev L (L ++ ([(ExprToken.mk ET_ADD p 0), (ExprToken.mk ET_VALUE q v)] ++ R))
        (fun j hj => getTok_append_left _ _ _ hj) hctx
      have e2 := ufold_fold_add L.length (L ++ ([(ExprToken.mk ET_ADD p 0), (ExprToken.mk ET_VALUE q v)] ++ R))
        q v hti hop hprev
      have e1 : ufold (L.length + 1 + 1) (L ++ ([(ExprToken.mk ET_ADD p 0), (ExprToken.mk ET_VALUE q v)] ++ R))
          = ufold (L.length + 1) (L ++ ([(ExprToken.mk ET_ADD p 0), (ExprToken.mk ET_VALUE q v)] ++ R)) := by
        apply ufold_skip_op <;> rw [hti] <;> simp [ET_VALUE, ET_ADD, ET_SUBTRACT, ET_INVERT]
      have e3 : (L ++ ([(ExprToken.mk ET_ADD p 0), (ExprToken.mk ET_VALUE q v)] ++ R)).take L.length ++
            (ExprToken.mk ET_VALUE q v) :: (L ++ ([(ExprToken.mk ET_ADD p 0), (ExprToken.mk ET_VALUE q v)] ++ R)).drop
              (L.length + 2)
          = L ++ ([(ExprToken.mk ET_VALUE q v)] ++ R) := by
        rw [take_app, drop_app]
        rfl
      refine ⟨[(ExprToken.mk ET_VALUE q v)], GramU.value q v, by simp, by simp,
        ?_, ?_⟩
      · intro t ht
        have : t = (ExprToken.mk ET_VALUE q v) := by simpa using ht
        rw [this]; exact hpq
      · exact ((ufold_congr _ _ _ _ (by simp) rfl).trans (e1.trans e2)).trans
          (ufold_congr _ _ _ _ rfl e3)
  | neg p q v =>
      intro L R hctx hp
      have hpq : (ExprToken.mk ET_VALUE q v).precedence = 0 := hp _ (by simp)
      have hti : getTok (L ++ ([(ExprToken.mk ET_SUBTRACT p 0), (ExprToken.mk ET_VALUE q v)] ++ R)) (L.length + 1)
          = (ExprToken.mk ET_VALUE q v) := by
        rw [getTok_append_right _ _ _ (by omega),
          show L.length + 1 - L.length = 1 from by omega]
        rfl
      have hop : (getTok (L ++ ([(ExprToken.mk ET_SUBTRACT p 0), (ExprToken.mk ET_VALUE q v)] ++ R)) L.length).type
          = ET_SUBTRACT := by
        rw [getTok_append_right _ _ _ (le_refl _), Nat.sub_self]
        rfl
      have hprev := uctx_prev L (L ++ ([(ExprToken.mk ET_SUBTRACT p 0), (ExprToken.mk ET_VALUE q v)] ++ R))
        (fun j hj => getTok_append_left _ _ _ hj) hctx
      have e2 := ufold_fold_sub L.length (L ++ ([(ExprToken.mk ET_SUBTRACT p 0), (ExprToken.mk ET_VALUE q v)] ++ R))
        q v hti hop hprev
      have e1 : ufold (L.length + 1 + 1) (L ++ ([(ExprToken.mk ET_SUBTRACT p 0), (ExprToken.mk ET_VALUE q v)] ++ R))
          = ufold (L.length + 1) (L ++ ([(ExprToken.mk ET_SUBTRACT p 0), (ExprToken.mk ET_VALUE q v)] ++ R)) := by
        apply ufold_skip_op <;> rw [hti] <;> simp [ET_VALUE, ET_ADD, ET_SUBTRACT, ET_INVERT]
      have e3 : (L ++ ([(ExprToken.mk ET_SUBTRACT p 0), (ExprToken.mk ET_VALUE q v)] ++ R)).take L.length ++
            (ExprToken.mk ET_VALUE q (neg32 v)) :: (L ++ ([(ExprToken.mk ET_SUBTRACT p 0), (ExprToken.mk ET_VALUE q v)] ++ R)).drop
              (L.length + 2)
          = L ++ ([(ExprToken.mk ET_VALUE q (neg32 v))] ++ R) := by
        rw [take_app, drop_app]
        rfl
      refine ⟨[(ExprToken.mk ET_VALUE q (neg32 v))], GramU.value q (neg32 v), by simp, by simp,
        ?_, ?_⟩
      · intro t ht
        have : t = (ExprToken.mk ET_VALUE q (neg32 v)) := by simpa using ht
        rw [this]; exact hpq
      · exact ((ufold_congr _ _ _ _ (by simp) rfl).trans (e1.trans e2)).trans
          (ufold_congr _ _ _ _ rfl e3)
  | inv p q v =>
      intro L R hctx hp
      have hpq : (ExprToken.mk ET_VALUE q v).precedence = 0 := hp _ (by simp)
      have hti : getTok (L ++ ([(ExprToken.mk ET_INVERT p 0), (ExprToken.mk ET_VALUE q v)] ++ R)) (L.length + 1)
          = (ExprToken.mk ET_VALUE q v) := by
        rw [getTok_append_right _ _ _ (by omega),
          show L.length + 1 - L.length = 1 from by omega]
        rfl
      have hop : (getTok (L ++ ([(ExprToken.mk ET_INVERT p 0), (ExprToken.mk ET_VALUE q v)] ++ R)) L.length).type
          = ET_INVERT := by
        rw [getTok_append_right _ _ _ (le_refl _), Nat.sub_self]
        rfl
      have hprev := uctx_prev L (L ++ ([(ExprToken.mk ET_INVERT p 0), (ExprToken.mk ET_VALUE q v)] ++ R))
        (fun j hj => getTok_append_left _ _ _ hj) hctx
      have e2 := ufold_fold_inv L.length (L ++ ([(ExprToken.mk ET_INVERT p 0), (ExprToken.mk ET_VALUE q v)] ++ R))
        q v hti hop hprev
      have e1 : ufold (L.length + 1 + 1) (L ++ ([(ExprToken.mk ET_INVERT p 0), (ExprToken.mk ET_VALUE q v)] ++ R))
          = ufold (L.length + 1) (L ++ ([(ExprToken.mk ET_INVERT p 0), (ExprToken.mk ET_VALUE q v)] ++ R)) := by
        apply ufold_skip_op <;> rw [hti] <;> simp [ET_VALUE, ET_ADD, ET_SUBTRACT, ET_INVERT]
      have e3 : (L ++ ([(ExprToken.mk ET_INVERT p 0), (ExprToken.mk ET_VALUE q v)] ++ R)).take L.length ++
            (ExprToken.mk ET_VALUE q (inv32 v)) :: (L ++ ([(ExprToken.mk ET_INVERT p 0), (ExprToken.mk ET_VALUE q v)] ++ R)).drop
              (L.length + 2)
          = L ++ ([(ExprToken.mk ET_VALUE q (inv32 v))] ++ R) := by
        rw [take_app, drop_app]
        rfl
      refine ⟨[(ExprToken.mk ET_VALUE q (inv32 v))], GramU.value q (inv32 v), by simp, by simp,
        ?_, ?_⟩
      · intro t ht
        have : t = (ExprToken.mk ET_VALUE q (inv32 v)) := by simpa using ht
        rw [this]; exact hpq
      · exact ((ufold_congr _ _ _ _ (by simp) rfl).trans (e1.trans e2)).trans
          (ufold_congr _ _ _ _ rfl e3)
  | up1 l v h ih =>
      intro L R hctx hp
      obtain ⟨l', g, a, b, c, e⟩ := ih L R hctx hp
      exact ⟨l', GramU.up1 l' v g, a, b, c, e⟩
  | mul p l1 l2 v1 v2 h1 h2 ih1 ih2 =>
      intro L R hctx hp
      obtain ⟨l1', l2', g1, g2, ha, hb, hc, hd, he, heq⟩ :=
        ufold_gram_binop 1 0 ET_MULTIPLY p l1 l2 v1 v2 (by decide)
          (gram_len_pos _ _ _ h1) (gram_last_type _ _ _ h1) ih1 ih2 L R hctx hp
      refine ⟨l1' ++ (ExprToken.mk ET_MULTIPLY p 0) :: l2', GramU.mul p l1' l2' v1 v2 g1 g2,
        (by simp only [List.length_append, List.length_cons]; omega), ?_, ?_, heq⟩
      · simp only [List.length_append, List.length_cons]
        omega
      · intro t ht
        rcases List.mem_append.mp ht with h0 | h0
        · exact hd _ h0
        · rcases List.mem_cons.mp h0 with h1 | h1
          · rw [h1]; exact hp _ (by simp)
          · exact he _ h1
  | div p l1 l2 v1 v2 h1 h2 ih1 ih2 =>
      intro L R hctx hp
      obtain ⟨l1', l2', g1, g2, ha, hb, hc, hd, he, heq⟩ :=
        ufold_gram_binop 1 0 ET_DIVIDE p l1 l2 v1 v2 (by decide)
          (gram_len_pos _ _ _ h1) (gram_last_type _ _ _ h1) ih1 ih2 L R hctx hp
      refine ⟨l1' ++ (ExprToken.mk ET_DIVIDE p 0) :: l2', GramU.div p l1' l2' v1 v2 g1 g2,
        (by simp only [List.length_append, List.length_cons]; omega), ?_, ?_, heq⟩
      · simp only [List.length_append, List.length_cons]
        omega
      · intro t ht
        rcases List.mem_append.mp ht with h0 | h0
        · exact hd _ h0
        · rcases List.mem_cons.mp h0 with h1 | h1
          · rw [h1]; exact hp _ (by simp)
          · exact he _ h1
  | rem p l1 l2 v1 v2 h1 h2 ih1 ih2 =>
      intro L R hctx hp
      obtain ⟨l1', l2', g1, g2, ha, hb, hc, hd, he, heq⟩ :=
        ufold_gram_binop 1 0 ET_REMAINDER p l1 l2 v1 v2 (by decide)
          (gram_len_pos _ _ _ h1) (gram_last_type _ _ _ h1) ih1 ih2 L R hctx hp
      refine ⟨l1' ++ (ExprToken.mk ET_REMAINDER p 0) :: l2', GramU.rem p l1' l2' v1 v2 g1 g2,
        (by simp only [List.length_append, List.length_cons]; omega), ?_, ?_, heq⟩
      · simp only [List.length_append, List.length_cons]
        omega
      · intro t ht
        rcases List.mem_append.mp ht with h0 | h0
        · exact hd _ h0
        · rcases List.mem_cons.mp h0 with h1 | h1
          · rw [h1]; exact hp _ (by simp)
          · exact he _ h1
  | up2 l v h ih =>
      intro L R hctx hp
      obtain ⟨l', g, a, b, c, e⟩ := ih L R hctx hp
      exact ⟨l', GramU.up2 l' v g, a, b, c, e⟩
  | add p l1 l2 v1 v2 h1 h2 ih1 ih2 =>
      intro L R hctx hp
      obtain ⟨l1', l2', g1, g2, ha, hb, hc, hd, he, heq⟩ :=
        ufold_gram_binop 2 1 ET_ADD p l1 l2 v1 v2 (by decide)
          (gram_len_pos _ _ _ h1) (gram_last_type _ _ _ h1) ih1 ih2 L R hctx hp
      refine ⟨l1' ++ (ExprToken.mk ET_ADD p 0) :: l2', GramU.add p l1' l2' v1 v2 g1 g2,
        (by simp only [List.length_append, List.length_cons]; omega), ?_, ?_, heq⟩
      · simp only [List.length_append, List.length_cons]
        omega
      · intro t ht
        rcases List.mem_append.mp ht with h0 | h0
        · exact hd _ h0
        · rcases List.mem_cons.mp h0 with h1 | h1
          · rw [h1]; exact hp _ (by simp)
          · exact he _ h1
  | sub p l1 l2 v1 v2 h1 h2 ih1 ih2 =>
      intro L R hctx hp
      obtain ⟨l1', l2', g1, g2, ha, hb, hc, hd, he, heq⟩ :=
        ufold_gram_binop 2 1 ET_SUBTRACT p l1 l2 v1 v2 (by decide)
          (gram_len_pos _ _ _ h1) (gram_last_type _ _ _ h1) ih1 ih2 L R hctx hp
      refine ⟨l1' ++ (ExprToken.mk ET_SUBTRACT p 0) :: l2', GramU.sub p l1' l2' v1 v2 g1 g2,
        (by simp only [List.length_append, List.length_cons]; omega), ?_, ?_, heq⟩
      · simp only [List.length_append, List.length_cons]
        omega
      · intro t ht
        rcases List.mem_append.mp ht with h0 | h0
        · exact hd _ h0
        · rcases List.mem_cons.mp h0 with h1 | h1
          · rw [h1]; exact hp _ (by simp)
          · exact he _ h1
  | up3 l v h ih =>
      intro L R hctx hp
      obtain ⟨l', g, a, b, c, e⟩ := ih L R hctx hp
      exact ⟨l', GramU.up3 l' v g, a, b, c, e⟩
  | band p l1 l2 v1 v2 h1 h2 ih1 ih2 =>
      intro L R hctx hp
      obtain ⟨l1', l2', g1, g2, ha, hb, hc, hd, he, heq⟩ :=
        ufold_gram_binop 3 2 ET_AND p l1 l2 v1 v2 (by decide)
          (gram_len_pos _ _ _ h1) (gram_last_type _ _ _ h1) ih1 ih2 L R hctx hp
      refine ⟨l1' ++ (ExprToken.mk ET_AND p 0) :: l2', GramU.band p l1' l2' v1 v2 g1 g2,
        (by simp only [List.length_append, List.length_cons]; omega), ?_, ?_, heq⟩
      · simp only [List.length_append, List.length_cons]
        omega
      · intro t ht
        rcases List.mem_append.mp ht with h0 | h0
        · exact hd _ h0
        · rcases List.mem_cons.mp h0 with h1 | h1
          · rw [h1]; exact hp _ (by simp)
          · exact he _ h1
  | bor p l1 l2 v1 v2 h1 h2 ih1 ih2 =>
      intro L R hctx hp
      obtain ⟨l1', l2', g1, g2, ha, hb, hc, hd, he, heq⟩ :=
        ufold_gram_binop 3 2 ET_OR p l1 l2 v1 v2 (by decide)
          (gram_len_pos _ _ _ h1) (gram_last_type _ _ _ h1) ih1 ih2 L R hctx hp
      refine ⟨l1' ++ (ExprToken.mk ET_OR p 0) :: l2', GramU.bor p l1' l2' v1 v2 g1 g2,
        (by simp only [List.length_append, List.length_cons]; omega), ?_, ?_, heq⟩
      · simp only [List.length_append, List.length_cons]
        omega
      · intro t ht
        rcases List.mem_append.mp ht with h0 | h0
        · exact hd _ h0
        · rcases List.mem_cons.mp h0 with h1 | h1
          · rw [h1]; exact hp _ (by simp)
          · exact he _ h1
  | bxor p l1 l2 v1 v2 h1 h2 ih1 ih2 =>
      intro L R hctx hp
      obtain ⟨l1', l2', g1, g2, ha, hb, hc, hd, he, heq⟩ :=
        ufold_gram_binop 3 2 ET_XOR p l1 l2 v1 v2 (by decide)
          (gram_len_pos _ _ _ h1) (gram_last_type _ _ _ h1) ih1 ih2 L R hctx hp
      refine ⟨l1' ++ (ExprToken.mk ET_XOR p 0) :: l2', GramU.bxor p l1' l2' v1 v2 g1 g2,
        (by simp only [List.length_append, List.length_cons]; omega), ?_, ?_, heq⟩
      · simp only [List.length_append, List.length_cons]
        omega
      · intro t ht
        rcases List.mem_append.mp ht with h0 | h0
        · exact hd _ h0
        · rcases List.mem_cons.mp h0 with h1 | h1
          · rw [h1]; exact hp _ (by simp)
          · exact he _ h1

/-- The unary pass on a whole derivable token list. -/
theorem ufold_gram_entry (l : List ExprToken) (v : Nat) (h : Gram 3 l v)
    (hp : ∀ t ∈ l, t.precedence = 0) :
    ∃ l', GramU 3 l' v ∧ 1 ≤ l'.length ∧ l'.length ≤ l.length ∧
      (∀ t ∈ l', t.precedence = 0) ∧ ufold l.length l = (l', false) := by
  obtain ⟨l', g, a, b, c, e⟩ := ufold_gram 3 l v h [] [] (Or.inl rfl) hp
  simp only [List.nil_append, List.append_nil, List.length_nil, Nat.zero_add] at e
  refine ⟨l', g, a, b, c, ?_⟩
  rw [e]
  rfl

theorem passign_length : ∀ (b : Int) (l : List ExprToken), (passign b l).length = l.length := by
  intro b l
  induction l generalizing b with
  | nil => rfl
  | cons t rest ih => simp [passign, ih]

theorem set_getTok_self (ws : List ExprToken) (i : Nat) (hi : i < ws.length) :
    ws.set i (getTok ws i) = ws := by
  rw [getTok_eq_getElem ws i hi]
  apply List.ext_getElem?
  intro m
  by_cases hm : m = i
  · subst hm
    rw [List.getElem?_set_self (by omega), List.getElem?_eq_getElem hi]
  · rw [List.getElem?_set_ne (fun he => hm he.symm)]

/-- The per-token pair computed by the machine equals `(set (tokStep), baseStep)`. -/
theorem calc_step_char (ws : List ExprToken) (i : Nat) (b : Int) (t : ExprToken)
    (ht : getTok ws i = t) (hi : i < ws.length) :
    (if t.type = ET_AND ∨ t.type = ET_OR ∨ t.type = ET_XOR then
        (ws.set i ⟨t.type, prec8 b 1, t.value⟩, b)
      else if t.type = ET_ADD ∨ t.type = ET_SUBTRACT then
        (ws.set i ⟨t.type, prec8 b 2, t.value⟩, b)
      else if t.type = ET_MULTIPLY ∨ t.type = ET_DIVIDE ∨ t.type = ET_REMAINDER then
        (ws.set i ⟨t.type, prec8 b 3, t.value⟩, b)
      else if t.type = ET_SUBEXPR_OPEN then (ws, wrap8 (b + (ET_SUBEXPR : Int)))
      else if t.type = ET_SUBEXPR_CLOSE then (ws, wrap8 (b - (ET_SUBEXPR : Int)))
      else (ws, b))
    = (ws.set i (tokStep b t), baseStep b t) := by
  by_cases c1 : t.type = ET_AND ∨ t.type = ET_OR ∨ t.type = ET_XOR
  · have hb : baseStep b t = b := by
      rw [baseStep, if_neg (by rcases c1 with h | h | h <;> rw [h] <;> decide),
        if_neg (by rcases c1 with h | h | h <;> rw [h] <;> decide)]
    have htk : tokStep b t = ⟨t.type, prec8 b 1, t.value⟩ := by
      rw [tokStep, if_pos c1]
    rw [if_pos c1, hb, htk]
  rw [if_neg c1]
  by_cases c2 : t.type = ET_ADD ∨ t.type = ET_SUBTRACT
  · have hb : baseStep b t = b := by
      rw [baseStep, if_neg (by rcases c2 with h | h <;> rw [h] <;> decide),
        if_neg (by rcases c2 with h | h <;> rw [h] <;> decide)]
    have htk : tokStep b t = ⟨t.type, prec8 b 2, t.value⟩ := by
      rw [tokStep, if_neg c1, if_pos c2]
    rw [if_pos c2, hb, htk]
  rw [if_neg c2]
  by_cases c3 : t.type = ET_MULTIPLY ∨ t.type = ET_DIVIDE ∨ t.type = ET_REMAINDER
  · have hb : baseStep b t = b := by
      rw [baseStep, if_neg (by rcases c3 with h | h | h <;> rw [h] <;> decide),
        if_neg (by rcases c3 with h | h | h <;> rw [h] <;> decide)]
    have htk : tokStep b t = ⟨t.type, prec8 b 3, t.value⟩ := by
      rw [tokStep, if_neg c1, if_neg c2, if_pos c3]
    rw [if_pos c3, hb, htk]
  rw [if_neg c3]
  by_cases c4 : t.type = ET_SUBEXPR_OPEN
  · have hb : baseStep b t = wrap8 (b + (ET_SUBEXPR : Int)) := by
      rw [baseStep, if_pos c4]
    have htk : tokStep b t = t := by
      rw [tokStep, if_neg c1, if_neg c2, if_neg c3]
    rw [if_pos c4, hb, htk, ← ht, set_getTok_self ws i hi]
  rw [if_neg c4]
  by_cases c5 : t.type = ET_SUBEXPR_CLOSE
  · have hb : baseStep b t = wrap8 (b - (ET_SUBEXPR : Int)) := by
      rw [baseStep, if_neg c4, if_pos c5]
    have htk : tokStep b t = t := by
      rw [tokStep, if_neg c1, if_neg c2, if_neg c3]
    rw [if_pos c5, hb, htk, ← ht, set_getTok_self ws i hi]
  rw [if_neg c5]
  have hb : baseStep b t = b := by
    rw [baseStep, if_neg c4, if_neg c5]
  have htk : tokStep b t = t := by
    rw [tokStep, if_neg c1, if_neg c2, if_neg c3]
  rw [hb, htk, ← ht, set_getTok_self ws i hi]

/-- The machine precedence pass over a window segment. -/
theorem calc_seg : ∀ (l ws : List ExprToken) (i count fuel : Nat) (b : Int),
    ws.length = 64 →
    (∀ j, j < l.length → getTok ws (i + j) = getTok l j) →
    i + l.length ≤ count → count ≤ 64 → l.length ≤ fuel →
    pok b l →
    ∃ ws2, expr_calc_precedence_aux count fuel i ws b
        = expr_calc_precedence_aux count (fuel - l.length) (i + l.length) ws2 (pbase b l) ∧
      ws2.length = 64 ∧
      (∀ j, j < l.length → getTok ws2 (i + j) = getTok (passign b l) j) ∧
      (∀ j, (j < i ∨ i + l.length ≤ j) → getTok ws2 j = getTok ws j) := by
  intro l
  induction l with
  | nil =>
      intro ws i count fuel b hws hwin hcnt hcnt2 hfuel hok
      refine ⟨ws, ?_, hws, ?_, ?_⟩
      · simp [pbase]
      · intro j hj; simp at hj
      · intro j hj; rfl
  | cons t rest ih =>
      intro ws i count fuel b hws hwin hcnt hcnt2 hfuel hok
      obtain ⟨f, rfl⟩ : ∃ f, fuel = f + 1 := ⟨fuel - 1, by simp at hfuel; omega⟩
      have hlen : (t :: rest).length = rest.length + 1 := by simp
      have hic : i < count := by rw [hlen] at hcnt; omega
      have ht0 : getTok ws i = t := by
        have := hwin 0 (by simp)
        simpa using this
      obtain ⟨hok0, hokrest⟩ := hok
      rw [expr_calc_precedence_aux, if_pos hic]
      simp only [ht0]
      rw [calc_step_char ws i b t ht0 (by omega)]
      simp only []
      rw [if_neg (by omega : ¬ baseStep b t < 0)]
      have hws2 : (ws.set i (tokStep b t)).length = 64 := by simp [hws]
      have hwin2 : ∀ j, j < rest.length →
          getTok (ws.set i (tokStep b t)) (i + 1 + j) = getTok rest j := by
        intro j hj
        rw [getTok_set_ne _ _ _ _ (by omega)]
        have := hwin (j + 1) (by simp; omega)
        rw [show i + (j + 1) = i + 1 + j from by omega] at this
        rw [this]
        rfl
      obtain ⟨ws3, he, hl3, hw3, ho3⟩ := ih (ws.set i (tokStep b t)) (i + 1) count f
        (baseStep b t) hws2 hwin2 (by rw [hlen] at hcnt; omega) hcnt2
        (by rw [hlen] at hfuel; omega) hokrest
      refine ⟨ws3, ?_, hl3, ?_, ?_⟩
      · rw [he,
          show f + 1 - (t :: rest).length = f - rest.length from by rw [hlen]; omega,
          show i + (t :: rest).length = i + 1 + rest.length from by rw [hlen]; omega,
          show pbase b (t :: rest) = pbase (baseStep b t) rest from rfl]
      · intro j hj
        rcases Nat.eq_zero_or_pos j with hj0 | hj0
        · subst hj0
          rw [show i + 0 = i from by omega]
          rw [ho3 i (by omega), getTok_set_self _ _ _ (by omega)]
          rfl
        · obtain ⟨j', rfl⟩ : ∃ j', j = j' + 1 := ⟨j - 1, by omega⟩
          rw [show i + (j' + 1) = i + 1 + j' from by omega,
            hw3 j' (by rw [hlen] at hj; omega)]
          rfl
      · intro j hj
        rcases hj with hj | hj
        · rw [ho3 j (by omega), getTok_set_ne _ _ _ _ (by omega)]
        · rw [ho3 j (by rw [hlen] at hj; omega), getTok_set_ne _ _ _ _
            (by rw [hlen] at hj; omega)]

/-- The machine precedence pass on the whole window. -/
theorem calc_entry (T ws : List ExprToken)
    (hws : ws.length = 64) (hT : T.length ≤ 64)
    (hwin : ∀ j, j < T.length → getTok ws j = getTok T j)
    (hok : pok 0 T) (hend : pbase 0 T = 0) :
    ∃ ws2, expr_calc_precedence ws T.length = (ws2, false) ∧ ws2.length = 64 ∧
      (∀ j, j < T.length → getTok ws2 j = getTok (passign 0 T) j) := by
  obtain ⟨ws2, he, hl, hw, _⟩ := calc_seg T ws 0 T.length T.length 0 hws
    (by intro j hj; simpa using hwin j hj) (by omega) hT (le_refl _) hok
  refine ⟨ws2, ?_, hl, ?_⟩
  · rw [expr_calc_precedence, he, hend, Nat.sub_self, Nat.zero_add]
    rfl
  · intro j hj
    have := hw j hj
    simpa using this

theorem bfilter_nil : bfilter [] = [] := rfl

theorem bfilter_cons_keep (t : ExprToken) (rest : List ExprToken)
    (h : t.type ≠ ET_SUBEXPR_OPEN ∧ t.type ≠ ET_SUBEXPR_CLOSE) :
    bfilter (t :: rest) = t :: bfilter rest := by
  rw [bfilter, List.filter_cons_of_pos (by simpa using h)]
  rfl

theorem bfilter_cons_drop (t : ExprToken) (rest : List ExprToken)
    (h : ¬ (t.type ≠ ET_SUBEXPR_OPEN ∧ t.type ≠ ET_SUBEXPR_CLOSE)) :
    bfilter (t :: rest) = bfilter rest := by
  rw [bfilter, List.filter_cons_of_neg (by simpa using h)]
  rfl

/-- The machine filter pass over the unprocessed segment. -/
theorem filter_seg : ∀ (l acc ws : List ExprToken) (count fuel i0 : Nat),
    ws.length = 64 → i0 + l.length = count → count ≤ 64 → l.length ≤ fuel →
    acc.length ≤ i0 →
    (∀ j, j < l.length → getTok ws (i0 + j) = getTok l j) →
    (∀ j, j < acc.length → getTok ws j = getTok acc j) →
    ∃ ws2, expr_filter_aux count fuel i0 acc.length ws = (ws2, (acc ++ bfilter l).length) ∧
      ws2.length = 64 ∧
      (∀ j, j < (acc ++ bfilter l).length → getTok ws2 j = getTok (acc ++ bfilter l) j) := by
  intro l
  induction l with
  | nil =>
      intro acc ws count fuel i0 hws hcnt hcnt2 hfuel hni hwin hacc
      have hi0 : i0 = count := by simpa using hcnt
      refine ⟨ws, ?_, hws, ?_⟩
      · cases fuel with
        | zero => simp [expr_filter_aux, bfilter]
        | succ f =>
            rw [expr_filter_aux, if_neg (by omega)]
            simp [bfilter]
      · intro j hj
        simp only [bfilter_nil, List.append_nil] at hj ⊢
        exact hacc j hj
  | cons t rest ih =>
      intro acc ws count fuel i0 hws hcnt hcnt2 hfuel hni hwin hacc
      obtain ⟨f, rfl⟩ : ∃ f, fuel = f + 1 := ⟨fuel - 1, by simp at hfuel; omega⟩
      have hlen : (t :: rest).length = rest.length + 1 := by simp
      have hic : i0 < count := by rw [hlen] at hcnt; omega
      have ht0 : getTok ws i0 = t := by
        have := hwin 0 (by simp)
        simpa using this
      rw [expr_filter_aux, if_pos hic]
      simp only [ht0]
      by_cases hk : t.type ≠ ET_SUBEXPR_OPEN ∧ t.type ≠ ET_SUBEXPR_CLOSE
      · rw [if_pos hk]
        have hws2 : (ws.set acc.length t).length = 64 := by simp [hws]
        have hwin2 : ∀ j, j < rest.length →
            getTok (ws.set acc.length t) (i0 + 1 + j) = getTok rest j := by
          intro j hj
          rw [getTok_set_ne _ _ _ _ (by omega)]
          have := hwin (j + 1) (by simp; omega)
          rw [show i0 + (j + 1) = i0 + 1 + j from by omega] at this
          rw [this]
          rfl
        have hacc2 : ∀ j, j < (acc ++ [t]).length →
            getTok (ws.set acc.length t) j = getTok (acc ++ [t]) j := by
          intro j hj
          simp only [List.length_append, List.length_cons, List.length_nil] at hj
          by_cases hje : j = acc.length
          · subst hje
            rw [getTok_set_self _ _ _ (by omega),
              getTok_append_right _ _ _ (le_refl _), Nat.sub_self, getTok_cons_zero]
          · rw [getTok_set_ne _ _ _ _ (fun he => hje he.symm),
              getTok_append_left _ _ _ (by omega)]
            exact hacc j (by omega)
        have hrec := ih (acc ++ [t]) (ws.set acc.length t) count f (i0 + 1)
          hws2 (by rw [hlen] at hcnt; omega) hcnt2 (by rw [hlen] at hfuel; omega)
          (by simp only [List.length_append, List.length_cons, List.length_nil]; omega)
          hwin2 hacc2
        obtain ⟨ws2, he, hl2, hw2⟩ := hrec
        rw [show (acc ++ [t]).length = acc.length + 1 from by simp] at he
        refine ⟨ws2, ?_, hl2, ?_⟩
        · rw [he]
          congr 1
          rw [bfilter_cons_keep t rest hk]
          simp
        · intro j hj
          have hj' : j < ((acc ++ [t]) ++ bfilter rest).length := by
            simp only [List.length_append, List.length_cons, List.length_nil] at hj ⊢
            rw [bfilter_cons_keep t rest hk] at hj
            simp only [List.length_cons] at hj
            omega
          rw [hw2 j hj']
          rw [show (acc ++ [t]) ++ bfilter rest = acc ++ bfilter (t :: rest) from by
            rw [bfilter_cons_keep t rest hk]; simp]
      · rw [if_neg hk]
        have hwin2 : ∀ j, j < rest.length → getTok ws (i0 + 1 + j) = getTok rest j := by
          intro j hj
          have := hwin (j + 1) (by simp; omega)
          rw [show i0 + (j + 1) = i0 + 1 + j from by omega] at this
          rw [this]
          rfl
        have hrec := ih acc ws count f (i0 + 1)
          hws (by rw [hlen] at hcnt; omega) hcnt2 (by rw [hlen] at hfuel; omega)
          (by omega) hwin2 hacc
        obtain ⟨ws2, he, hl2, hw2⟩ := hrec
        refine ⟨ws2, ?_, hl2, ?_⟩
        · rw [he]
          congr 2
          rw [bfilter_cons_drop t rest hk]
        · intro j hj
          rw [bfilter_cons_drop t rest hk] at hj ⊢
          exact hw2 j hj

/-- The machine filter pass on the whole window. -/
theorem filter_entry (T ws : List ExprToken)
    (hws : ws.length = 64) (hT : T.length ≤ 64)
    (hwin : ∀ j, j < T.length → getTok ws j = getTok T j) :
    ∃ ws2, expr_filter_brackets ws T.length = (ws2, (bfilter T).length) ∧
      ws2.length = 64 ∧
      (∀ j, j < (bfilter T).length → getTok ws2 j = getTok (bfilter T) j) := by
  obtain ⟨ws2, he, hl, hw⟩ := filter_seg T [] ws T.length T.length 0 hws
    (by simp) hT (le_refl _) (by simp)
    (by intro j hj; simpa using hwin j hj)
    (by intro j hj; simp at hj)
  refine ⟨ws2, ?_, hl, ?_⟩
  · have he2 := he
    simp only [List.length_nil, List.nil_append] at he2
    rw [expr_filter_brackets, he2]
  · intro j hj
    have := hw j (by simpa using hj)
    simpa using this

theorem flat_len_pos (F : List ExprToken) (h : Flat F) : 1 ≤ F.length := by
  cases h with
  | single v => simp
  | cons v o rest hb hp hr => simp

theorem flat_first (F : List ExprToken) (h : Flat F) :
    ∃ v, getTok F 0 = ⟨ET_VALUE, 0, v⟩ := by
  cases h with
  | single v => exact ⟨v, rfl⟩
  | cons v o rest hb hp hr => exact ⟨v, rfl⟩

/-- A value-shaped token is `⟨ET_VALUE, 0, its value⟩`. -/
theorem tok_shape (t : ExprToken) (v : Nat) (h : t = ⟨ET_VALUE, 0, v⟩) :
    t = ⟨ET_VALUE, 0, t.value⟩ := by rw [h]

/-- Characterization of operator positions in a flat list. -/
theorem flat_op (F : List ExprToken) (h : Flat F) : ∀ j, j < F.length →
    (isBinopB (getTok F j).type = true ∨ 1 ≤ (getTok F j).precedence) →
    isBinopB (getTok F j).type = true ∧ 1 ≤ (getTok F j).precedence ∧
    1 ≤ j ∧ j + 1 < F.length ∧
    getTok F (j - 1) = ⟨ET_VALUE, 0, (getTok F (j - 1)).value⟩ ∧
    getTok F (j + 1) = ⟨ET_VALUE, 0, (getTok F (j + 1)).value⟩ := by
  induction h with
  | single v =>
      intro j hj hop
      simp only [List.length_cons, List.length_nil] at hj
      match j, hj with
      | 0, _ =>
          rcases hop with hop | hop
          · have hop2 : isBinopB ET_VALUE = true := hop
            exact absurd hop2 (by decide)
          · have hop2 : (1 : Nat) ≤ 0 := hop
            exact absurd hop2 (by decide)
  | cons v o rest hb hp hr ih =>
      intro j hj hop
      match j with
      | 0 =>
          rcases hop with hop | hop
          · have hop2 : isBinopB ET_VALUE = true := hop
            exact absurd hop2 (by decide)
          · have hop2 : (1 : Nat) ≤ 0 := hop
            exact absurd hop2 (by decide)
      | 1 =>
          have hrl := flat_len_pos rest hr
          obtain ⟨v2, hv2⟩ := flat_first rest hr
          refine ⟨hb, hp, by omega, ?_, rfl, ?_⟩
          · simp only [List.length_cons]
            omega
          · exact tok_shape _ v2 hv2
      | j' + 2 =>
          have hj' : j' < rest.length := by
            simp only [List.length_cons] at hj
            omega
          have hgj : getTok ((⟨ET_VALUE, 0, v⟩ : ExprToken) :: o :: rest) (j' + 2)
              = getTok rest j' := rfl
          rw [hgj] at hop
          obtain ⟨h1, h2, h3, h4, h5, h6⟩ := ih j' hj' hop
          refine ⟨by rw [hgj]; exact h1, by rw [hgj]; exact h2, by omega, ?_, ?_, ?_⟩
          · simp only [List.length_cons]
            omega
          · have hj1 : j' + 2 - 1 = (j' - 1) + 2 := by omega
            rw [hj1]
            exact tok_shape _ _ h5
          · exact tok_shape _ _ h6

theorem flat_take (F : List ExprToken) (h : Flat F) : ∀ k, k < F.length →
    1 ≤ (getTok F k).precedence → Flat (F.take k) := by
  induction h with
  | single v =>
      intro k hk hp
      simp only [List.length_cons, List.length_nil] at hk
      match k, hk with
      | 0, _ =>
          have hp2 : (1 : Nat) ≤ 0 := hp
          exact absurd hp2 (by decide)
  | cons v o rest hb hp hr ih =>
      intro k hk hpk
      match k with
      | 0 =>
          have hp2 : (1 : Nat) ≤ 0 := hpk
          exact absurd hp2 (by decide)
      | 1 => exact Flat.single v
      | k' + 2 =>
          have hk' : k' < rest.length := by
            simp only [List.length_cons] at hk
            omega
          exact Flat.cons v o (rest.take k') hb hp (ih k' hk' hpk)

theorem flat_drop (F : List ExprToken) (h : Flat F) : ∀ k, k < F.length →
    1 ≤ (getTok F k).precedence → Flat (F.drop (k + 1)) := by
  induction h with
  | single v =>
      intro k hk hp
      simp only [List.length_cons, List.length_nil] at hk
      match k, hk with
      | 0, _ =>
          have hp2 : (1 : Nat) ≤ 0 := hp
          exact absurd hp2 (by decide)
  | cons v o rest hb hp hr ih =>
      intro k hk hpk
      match k with
      | 0 =>
          have hp2 : (1 : Nat) ≤ 0 := hpk
          exact absurd hp2 (by decide)
      | 1 => exact hr
      | k' + 2 =>
          have hk' : k' < rest.length := by
            simp only [List.length_cons] at hk
            omega
          exact ih k' hk' hpk

theorem flat_reduceAt (F : List ExprToken) (h : Flat F) : ∀ j (w : Nat), 1 ≤ j →
    j + 1 < F.length → 1 ≤ (getTok F j).precedence →
    Flat (F.take (j - 1) ++ ⟨ET_VALUE, 0, w⟩ :: F.drop (j + 2)) := by
  induction h with
  | single v =>
      intro j w hj hlt hp
      simp only [List.length_cons, List.length_nil] at hlt
      omega
  | cons v o rest hb hp hr ih =>
      intro j w hj hlt hpj
      match j, hj with
      | 1, _ =>
          show Flat ([] ++ (⟨ET_VALUE, 0, w⟩ : ExprToken) :: rest.drop 1)
          rw [List.nil_append]
          cases hr with
          | single v2 => exact Flat.single w
          | cons v2 o2 rest2 hb2 hp2 hr2 => exact Flat.cons w o2 rest2 hb2 hp2 hr2
      | j' + 2, _ =>
          have hne2 : j' ≠ 0 := by
            intro he
            subst he
            simp only [Nat.zero_add] at hpj
            obtain ⟨v2, hv2⟩ := flat_first rest hr
            have h20 : (getTok ((⟨ET_VALUE, 0, v⟩ : ExprToken) :: o :: rest) 2).precedence
                = 0 := by
              show (getTok rest 0).precedence = 0
              rw [hv2]
            omega
          obtain ⟨j'', rfl⟩ : ∃ j'', j' = j'' + 1 := ⟨j' - 1, by omega⟩
          have hlt' : j'' + 1 + 1 < rest.length := by
            simp only [List.length_cons] at hlt
            omega
          have hrec := ih (j'' + 1) w (by omega) (by omega) hpj
          have hshape : ((⟨ET_VALUE, 0, v⟩ : ExprToken) :: o :: rest).take (j'' + 1 + 2 - 1)
                ++ (⟨ET_VALUE, 0, w⟩ : ExprToken) ::
                  ((⟨ET_VALUE, 0, v⟩ : ExprToken) :: o :: rest).drop (j'' + 1 + 2 + 2)
              = (⟨ET_VALUE, 0, v⟩ : ExprToken) :: o ::
                (rest.take (j'' + 1 - 1) ++ (⟨ET_VALUE, 0, w⟩ : ExprToken) ::
                  rest.drop (j'' + 1 + 2)) := by
            show ((⟨ET_VALUE, 0, v⟩ : ExprToken) :: o :: rest).take (j'' + 2)
                ++ _ :: ((⟨ET_VALUE, 0, v⟩ : ExprToken) :: o :: rest).drop (j'' + 5) = _
            rw [show ((⟨ET_VALUE, 0, v⟩ : ExprToken) :: o :: rest).take (j'' + 2)
                = (⟨ET_VALUE, 0, v⟩ : ExprToken) :: o :: rest.take j'' from rfl,
              show ((⟨ET_VALUE, 0, v⟩ : ExprToken) :: o :: rest).drop (j'' + 5)
                = rest.drop (j'' + 3) from rfl]
            simp only [List.cons_append]
            rfl
          rw [hshape]
          exact Flat.cons v o _ hb hp hrec

theorem rminAux_append : ∀ (A B : List ExprToken) (i bp bi : Nat),
    rminAux (A ++ B) i bp bi
      = rminAux B (i + A.length) (rminAux A i bp bi).1 (rminAux A i bp bi).2 := by
  intro A
  induction A with
  | nil => intro B i bp bi; simp [rminAux]
  | cons t rest ih =>
      intro B i bp bi
      rw [List.cons_append, rminAux, rminAux]
      by_cases hc : isBinopB t.type = true ∧ t.precedence ≤ bp
      · rw [if_pos hc, if_pos hc, ih]
        congr 1
        simp only [List.length_cons]
        omega
      · rw [if_neg hc, if_neg hc, ih]
        congr 1
        simp only [List.length_cons]
        omega

theorem rminAux_ge : ∀ (F : List ExprToken) (i bp bi p : Nat), p ≤ bp →
    (∀ t ∈ F, isBinopB t.type = true → p ≤ t.precedence) →
    p ≤ (rminAux F i bp bi).1 := by
  intro F
  induction F with
  | nil => intro i bp bi p h1 h2; exact h1
  | cons t rest ih =>
      intro i bp bi p h1 h2
      rw [rminAux]
      by_cases hc : isBinopB t.type = true ∧ t.precedence ≤ bp
      · rw [if_pos hc]
        exact ih _ _ _ _ (h2 t (by simp) hc.1) (fun u hu hb => h2 u (by simp [hu]) hb)
      · rw [if_neg hc]
        exact ih _ _ _ _ h1 (fun u hu hb => h2 u (by simp [hu]) hb)

theorem rminAux_skip : ∀ (F : List ExprToken) (i bp bi : Nat),
    (∀ t ∈ F, isBinopB t.type = true → bp < t.precedence) →
    rminAux F i bp bi = (bp, bi) := by
  intro F
  induction F with
  | nil => intro i bp bi h; rfl
  | cons t rest ih =>
      intro i bp bi h
      rw [rminAux, if_neg]
      · exact ih _ _ _ (fun u hu hb => h u (by simp [hu]) hb)
      · intro hc
        have := h t (by simp) hc.1
        omega

theorem rmin_append (F1 F2 : List ExprToken) (o : ExprToken)
    (hb : isBinopB o.type = true) (h256 : o.precedence ≤ 256)
    (h1 : ∀ t ∈ F1, isBinopB t.type = true → o.precedence ≤ t.precedence)
    (h2 : ∀ t ∈ F2, isBinopB t.type = true → o.precedence < t.precedence) :
    rmin (F1 ++ o :: F2) = (o.precedence, F1.length) := by
  rw [rmin, rminAux_append]
  have hge : o.precedence ≤ (rminAux F1 0 256 0).1 := rminAux_ge F1 0 256 0 _ h256 h1
  rw [rminAux, if_pos ⟨hb, hge⟩, rminAux_skip F2 _ _ _ h2]
  congr 1
  omega

/-- Full characterization of the scan. -/
theorem rminAux_spec : ∀ (F : List ExprToken) (i bp bi : Nat),
    ((rminAux F i bp bi).1 = bp ∧ (rminAux F i bp bi).2 = bi ∧
      (∀ t ∈ F, isBinopB t.type = true → bp < t.precedence)) ∨
    (∃ m, m < F.length ∧ (rminAux F i bp bi).2 = i + m ∧
      isBinopB (getTok F m).type = true ∧
      (rminAux F i bp bi).1 = (getTok F m).precedence ∧
      (getTok F m).precedence ≤ bp ∧
      (∀ t ∈ F, isBinopB t.type = true → (getTok F m).precedence ≤ t.precedence) ∧
      (∀ t ∈ F.drop (m + 1), isBinopB t.type = true →
        (getTok F m).precedence < t.precedence)) := by
  intro F
  induction F with
  | nil => intro i bp bi; left; exact ⟨rfl, rfl, by simp⟩
  | cons t rest ih =>
      intro i bp bi
      rw [rminAux]
      by_cases hc : isBinopB t.type = true ∧ t.precedence ≤ bp
      · rw [if_pos hc]
        rcases ih (i + 1) t.precedence i with ⟨ha, hb2, hrest⟩ | ⟨m, hm, hidx, hbin, hp, hle, hmin, hstr⟩
        · right
          refine ⟨0, by simp, by omega, hc.1, ?_, hc.2, ?_, ?_⟩
          · rw [ha]; rfl
          · intro u hu hub
            rcases List.mem_cons.mp hu with h0 | h0
            · subst h0; exact le_refl _
            · exact le_of_lt (hrest u h0 hub)
          · intro u hu hub
            exact hrest u (by simpa using hu) hub
        · right
          refine ⟨m + 1, by simpa using hm, by omega, hbin, hp, ?_, ?_, ?_⟩
          · calc (getTok rest m).precedence ≤ t.precedence := hle
              _ ≤ bp := hc.2
          · intro u hu hub
            rcases List.mem_cons.mp hu with h0 | h0
            · subst h0; exact hle
            · exact hmin u h0 hub
          · intro u hu hub
            exact hstr u (by simpa using hu) hub
      · rw [if_neg hc]
        rcases ih (i + 1) bp bi with ⟨ha, hb2, hrest⟩ | ⟨m, hm, hidx, hbin, hp, hle, hmin, hstr⟩
        · left
          refine ⟨ha, hb2, ?_⟩
          intro u hu hub
          rcases List.mem_cons.mp hu with h0 | h0
          · subst h0
            by_cases hbin2 : isBinopB u.type = true
            · by_contra hlt
              exact hc ⟨hbin2, by omega⟩
            · exact absurd hub hbin2
          · exact hrest u h0 hub
        · right
          refine ⟨m + 1, by simpa using hm, by omega, hbin, hp, hle, ?_, ?_⟩
          · intro u hu hub
            rcases List.mem_cons.mp hu with h0 | h0
            · subst h0
              have hnb : ¬ u.precedence ≤ bp := fun hle2 => hc ⟨hub, hle2⟩
              exact le_trans hle (by omega)
            · exact hmin u h0 hub
          · intro u hu hub
            exact hstr u (by simpa using hu) hub

theorem getTok_mem (F : List ExprToken) (k : Nat) (h : k < F.length) : getTok F k ∈ F := by
  rw [getTok_eq_getElem F k h]
  exact List.getElem_mem h

/-- The rightmost minimum of a flat list with at least one operator. -/
theorem rmin_flat (F : List ExprToken) (h : Flat F) (h2 : 2 ≤ F.length)
    (hbound : ∀ t ∈ F, t.precedence ≤ 255) :
    ∃ p k, rmin F = (p, k) ∧ 1 ≤ k ∧ k + 1 < F.length ∧
      isBinopB (getTok F k).type = true ∧ (getTok F k).precedence = p ∧ 1 ≤ p ∧
      (∀ t ∈ F, isBinopB t.type = true → p ≤ t.precedence) ∧
      (∀ t ∈ F.drop (k + 1), isBinopB t.type = true → p < t.precedence) := by
  rcases rminAux_spec F 0 256 0 with ⟨ha, hb, hrest⟩ | ⟨m, hm, hidx, hbin, hp, hle, hmin, hstr⟩
  · -- impossible: the operator at position 1 has precedence ≤ 255 < 256
    exfalso
    cases h with
    | single v => simp at h2
    | cons v o rest hob hop hr =>
        have hmem : o ∈ (⟨ET_VALUE, 0, v⟩ : ExprToken) :: o :: rest := by simp
        have := hrest o hmem hob
        have := hbound o hmem
        omega
  · obtain ⟨hb1, hp1, hk1, hk2, hval1, hval2⟩ := flat_op F h m hm (Or.inl hbin)
    refine ⟨(getTok F m).precedence, m, ?_, hk1, hk2, hbin, rfl, hp1, hmin, hstr⟩
    rw [rmin]
    have e1 : (rminAux F 0 256 0).1 = (getTok F m).precedence := hp
    have e2 : (rminAux F 0 256 0).2 = m := by rw [hidx]; omega
    rw [show rminAux F 0 256 0 = ((rminAux F 0 256 0).1, (rminAux F 0 256 0).2) from rfl,
      e1, e2]

theorem rminAux_idx : ∀ (F : List ExprToken) (i bp bi : Nat),
    (rminAux F i bp bi).2 = bi ∨
    (i ≤ (rminAux F i bp bi).2 ∧ (rminAux F i bp bi).2 < i + F.length) := by
  intro F
  induction F with
  | nil => intro i bp bi; left; rfl
  | cons t rest ih =>
      intro i bp bi
      rw [rminAux]
      by_cases hc : isBinopB t.type = true ∧ t.precedence ≤ bp
      · rw [if_pos hc]
        rcases ih (i + 1) t.precedence i with h | h
        · right
          rw [h]
          simp only [List.length_cons]
          omega
        · right
          simp only [List.length_cons]
          omega
      · rw [if_neg hc]
        rcases ih (i + 1) bp bi with h | h
        · left; exact h
        · right
          simp only [List.length_cons]
          omega

theorem rmin_idx_lt (F : List ExprToken) (h : 1 ≤ F.length) : (rmin F).2 < F.length := by
  rcases rminAux_idx F 0 256 0 with h2 | h2
  · rw [rmin, h2]; omega
  · rw [rmin]; omega

theorem evalF_congr : ∀ (g1 g2 : Nat) (F : List ExprToken),
    F.length ≤ g1 + 1 → F.length ≤ g2 + 1 → evalF g1 F = evalF g2 F := by
  intro g1
  induction g1 with
  | zero =>
      intro g2 F h1 h2
      cases g2 with
      | zero => rfl
      | succ h =>
          rw [evalF, evalF, if_pos (by omega)]
  | succ k ih =>
      intro g2 F h1 h2
      by_cases hF : F.length ≤ 1
      · cases g2 with
        | zero => rw [evalF, evalF, if_pos hF]
        | succ h => rw [evalF, evalF, if_pos hF, if_pos hF]
      · have hg2 : ∃ h, g2 = h + 1 := ⟨g2 - 1, by omega⟩
        obtain ⟨h, rfl⟩ := hg2
        rw [evalF, evalF, if_neg hF, if_neg hF]
        have hidx : (rmin F).2 < F.length := rmin_idx_lt F (by omega)
        have e1 : evalF k (F.take (rmin F).2) = evalF h (F.take (rmin F).2) := by
          apply ih
          · rw [List.length_take]; omega
          · rw [List.length_take]; omega
        have e2 : evalF k (F.drop ((rmin F).2 + 1)) = evalF h (F.drop ((rmin F).2 + 1)) := by
          apply ih
          · rw [List.length_drop]; omega
          · rw [List.length_drop]; omega
        rw [e1, e2]

theorem evalF_congr2 (a b : Nat) (X Y : List ExprToken) (h1 : a = b) (h2 : X = Y) :
    evalF a X = evalF b Y := by rw [h1, h2]

theorem getTok_split (F : List ExprToken) (k : Nat) (h : k < F.length) :
    F = F.take k ++ getTok F k :: F.drop (k + 1) := by
  conv_lhs => rw [← List.take_append_drop k F]
  congr 1
  rw [List.drop_eq_getElem_cons h, getTok_eq_getElem F k h]

theorem evalF_split (g : Nat) (F1 F2 : List ExprToken) (o : ExprToken)
    (hb : isBinopB o.type = true) (h256 : o.precedence ≤ 256)
    (h1 : ∀ t ∈ F1, isBinopB t.type = true → o.precedence ≤ t.precedence)
    (h2 : ∀ t ∈ F2, isBinopB t.type = true → o.precedence < t.precedence)
    (hF1 : 1 ≤ F1.length) :
    evalF (g + 1) (F1 ++ o :: F2) = applyBin o.type (evalF g F1) (evalF g F2) := by
  rw [evalF]
  rw [if_neg (by simp only [List.length_append, List.length_cons]; omega)]
  have hr := rmin_append F1 F2 o hb h256 h1 h2
  have hr2 : (rmin (F1 ++ o :: F2)).2 = F1.length := by rw [hr]
  rw [hr2, take_app,
    show F1.length + 1 = F1.length + 1 from rfl]
  have hd : (F1 ++ o :: F2).drop (F1.length + 1) = F2 := by
    rw [drop_app F1 (o :: F2) 1]
    rfl
  have hg : getTok (F1 ++ o :: F2) F1.length = o := by
    rw [getTok_append_right _ _ _ (le_refl _), Nat.sub_self, getTok_cons_zero]
  rw [hd, hg]

/-- In a flat list the successor of a value position is an operator. -/
theorem flat_val_succ (F : List ExprToken) (h : Flat F) : ∀ m, m + 1 < F.length →
    (getTok F m).type = ET_VALUE →
    isBinopB (getTok F (m + 1)).type = true ∧ 1 ≤ (getTok F (m + 1)).precedence := by
  induction h with
  | single v =>
      intro m hm _
      simp only [List.length_cons, List.length_nil] at hm
      omega
  | cons v o rest hb hp hr ih =>
      intro m hm hv
      match m with
      | 0 => exact ⟨hb, hp⟩
      | 1 =>
          have hv2 : o.type = ET_VALUE := hv
          rw [hv2] at hb
          exact absurd (hb : isBinopB ET_VALUE = true) (by decide)
      | m' + 2 =>
          have hm' : m' + 1 < rest.length := by
            simp only [List.length_cons] at hm
            omega
          exact ih m' hm' hv

/-- A flat list of length three is `value op value`. -/
theorem flat_three (F : List ExprToken) (h : Flat F) (hl : F.length = 3) :
    ∃ a o b, F = [⟨ET_VALUE, 0, a⟩, o, ⟨ET_VALUE, 0, b⟩] ∧
      isBinopB o.type = true ∧ 1 ≤ o.precedence := by
  cases h with
  | single v => simp at hl
  | cons v o rest hb hp hr =>
      cases hr with
      | single v2 => exact ⟨v, o, v2, rfl, hb, hp⟩
      | cons v2 o2 rest2 hb2 hp2 hr2 =>
          exfalso
          have := flat_len_pos _ hr2
          simp only [List.length_cons] at hl
          omega

set_option maxHeartbeats 1000000 in
/-- The machine reduction at the leftmost maximum preserves the
rightmost-minimum-split evaluation of a flat list. -/
theorem eval_reduceAt : ∀ (n : Nat) (F : List ExprToken), F.length = n → Flat F →
    ∀ j, 1 ≤ j → j + 1 < F.length → 1 ≤ (getTok F j).precedence →
    (∀ k, k < F.length → (getTok F k).precedence ≤ (getTok F j).precedence) →
    (∀ k, k < j → (getTok F k).precedence < (getTok F j).precedence) →
    (∀ t ∈ F, t.precedence ≤ 255) →
    evalF (F.length - 2)
      (F.take (j - 1) ++ ⟨ET_VALUE, 0,
        applyBin (getTok F j).type (getTok F (j - 1)).value (getTok F (j + 1)).value⟩
        :: F.drop (j + 2))
      = evalF F.length F := by
  intro n
  induction n using Nat.strong_induction_on with
  | _ n ihn =>
  intro F hn hF j hj1 hj2 hjp hmax hstrict hbound
  have hflen : 3 ≤ F.length := by omega
  obtain ⟨p, k, hrmin, hk1, hk2, hkbin, hkp, hp1, hkmin, hkstr⟩ :=
    rmin_flat F hF (by omega) hbound
  obtain ⟨hjbin, hjp', hj1', hj2', hjprev, hjnext⟩ := flat_op F hF j (by omega) (Or.inr hjp)
  by_cases hjk : j = k
  · -- the operator is both leftmost maximum and rightmost minimum:
    -- the list is a single `value op value`
    subst hjk
    have hj1e : j = 1 := by
      by_contra hne
      have h1op : isBinopB (getTok F 1).type = true ∧ 1 ≤ (getTok F 1).precedence := by
        obtain ⟨v0, hv0⟩ := flat_first F hF
        exact flat_val_succ F hF 0 (by omega) (by rw [hv0])
      have ha := hstrict 1 (by omega)
      have hb2 := hkmin (getTok F 1) (getTok_mem F 1 (by omega)) h1op.1
      omega
    subst hj1e
    have hlen3 : F.length = 3 := by
      by_contra hne
      have h4 : 4 ≤ F.length := by omega
      have h2v : (getTok F 2).type = ET_VALUE := by rw [hjnext]
      have h3op := flat_val_succ F hF 2 (by omega) h2v
      have h3mem : getTok F 3 ∈ F.drop 2 := by
        have hg : getTok (F.drop 2) 1 = getTok F 3 := getTok_drop F 2 1
        rw [← hg]
        exact getTok_mem (F.drop 2) 1 (by rw [List.length_drop]; omega)
      have hs := hkstr (getTok F 3) h3mem h3op.1
      have hm := hmax 3 (by omega)
      omega
    obtain ⟨a, o, b, hFeq, hob, hop⟩ := flat_three F hF hlen3
    subst hFeq
    have hr2 : (rmin [(⟨ET_VALUE, 0, a⟩ : ExprToken), o, ⟨ET_VALUE, 0, b⟩]).2 = 1 := by
      rw [hrmin]
    have hLv : evalF 1 [(⟨ET_VALUE, 0, applyBin o.type a b⟩ : ExprToken)]
        = applyBin o.type a b := by
      rw [show (1 : Nat) = 0 + 1 from rfl, evalF,
        if_pos (show ([(⟨ET_VALUE, 0, applyBin o.type a b⟩ : ExprToken)]).length ≤ 1 by simp)]
      rfl
    have hRa : evalF 2 [(⟨ET_VALUE, 0, a⟩ : ExprToken)] = a := by
      rw [show (2 : Nat) = 1 + 1 from rfl, evalF,
        if_pos (show ([(⟨ET_VALUE, 0, a⟩ : ExprToken)]).length ≤ 1 by simp)]
      rfl
    have hRb : evalF 2 [(⟨ET_VALUE, 0, b⟩ : ExprToken)] = b := by
      rw [show (2 : Nat) = 1 + 1 from rfl, evalF,
        if_pos (show ([(⟨ET_VALUE, 0, b⟩ : ExprToken)]).length ≤ 1 by simp)]
      rfl
    have hRv : evalF 3 [(⟨ET_VALUE, 0, a⟩ : ExprToken), o, ⟨ET_VALUE, 0, b⟩]
        = applyBin o.type a b := by
      rw [show (3 : Nat) = 2 + 1 from rfl, evalF,
        if_neg (show ¬ ([(⟨ET_VALUE, 0, a⟩ : ExprToken), o,
          (⟨ET_VALUE, 0, b⟩ : ExprToken)].length ≤ 1) by simp),
        hr2]
      show applyBin o.type (evalF 2 [(⟨ET_VALUE, 0, a⟩ : ExprToken)])
          (evalF 2 [(⟨ET_VALUE, 0, b⟩ : ExprToken)]) = _
      rw [hRa, hRb]
    show evalF 1 [(⟨ET_VALUE, 0, applyBin o.type a b⟩ : ExprToken)]
        = evalF 3 [(⟨ET_VALUE, 0, a⟩ : ExprToken), o, ⟨ET_VALUE, 0, b⟩]
    rw [hLv, hRv]
  · -- the two positions differ
    have hkne255 : (getTok F k).precedence ≤ 255 :=
      hbound (getTok F k) (getTok_mem F k (by omega))
    have hsplit := getTok_split F k (by omega)
    have hlenF1 : (F.take k).length = k := by rw [List.length_take]; omega
    have hlenF2 : (F.drop (k + 1)).length = F.length - k - 1 := by
      rw [List.length_drop]
      omega
    have hminF1 : ∀ t ∈ F.take k, isBinopB t.type = true → p ≤ t.precedence :=
      fun t ht hb2 => hkmin t (List.take_subset k F ht) hb2
    have hRHS : evalF F.length F
        = applyBin (getTok F k).type (evalF (F.length - 3) (F.take k))
            (evalF (F.length - 3) (F.drop (k + 1))) := by
      have e1 : evalF F.length F
          = evalF ((F.length - 2) + 1) (F.take k ++ getTok F k :: F.drop (k + 1)) := by
        rw [← hsplit]
        exact evalF_congr _ _ _ (by omega) (by omega)
      rw [e1, evalF_split (F.length - 2) (F.take k) (F.drop (k + 1)) (getTok F k)
        hkbin (by omega)
        (by
          intro t ht hb2
          rw [hkp]
          exact hminF1 t ht hb2)
        (by
          intro t ht hb2
          rw [hkp]
          exact hkstr t ht hb2)
        (by rw [hlenF1]; omega),
        evalF_congr (F.length - 2) (F.length - 3) (F.take k)
          (by rw [hlenF1]; omega) (by rw [hlenF1]; omega),
        evalF_congr (F.length - 2) (F.length - 3) (F.drop (k + 1))
          (by rw [hlenF2]; omega) (by rw [hlenF2]; omega)]
    rcases Nat.lt_or_ge j k with hjlt | hjge
    · -- the maximum lies left of the split
      have hjk2 : j + 1 < k := by
        by_contra hc
        have hke : k = j + 1 := by omega
        rw [hke, hjnext] at hkbin
        have hkbin2 : isBinopB ET_VALUE = true := hkbin
        exact absurd hkbin2 (by decide)
      have e_j : getTok (F.take k) j = getTok F j := getTok_take F k j (by omega)
      have e_jm : getTok (F.take k) (j - 1) = getTok F (j - 1) := getTok_take F k _ (by omega)
      have e_jp : getTok (F.take k) (j + 1) = getTok F (j + 1) := getTok_take F k _ (by omega)
      have ht1 : (F.take k).take (j - 1) = F.take (j - 1) := by
        rw [List.take_take]
        congr 1
        omega
      have ht2 : F.drop (j + 2) = (F.take k).drop (j + 2) ++ getTok F k :: F.drop (k + 1) := by
        conv_lhs => rw [hsplit]
        rw [List.drop_append_of_le_length (by rw [hlenF1]; omega)]
      -- the reduced list splits at the (shifted) old split point
      have hshape : F.take (j - 1) ++ (⟨ET_VALUE, 0,
            applyBin (getTok F j).type (getTok F (j - 1)).value (getTok F (j + 1)).value⟩
              : ExprToken) :: F.drop (j + 2)
          = ((F.take k).take (j - 1) ++ (⟨ET_VALUE, 0,
              applyBin (getTok (F.take k) j).type (getTok (F.take k) (j - 1)).value
                (getTok (F.take k) (j + 1)).value⟩ : ExprToken)
                :: (F.take k).drop (j + 2))
            ++ getTok F k :: F.drop (k + 1) := by
        rw [e_j, e_jm, e_jp, ht1, ht2]
        simp
      have hlenF1' : ((F.take k).take (j - 1) ++ (⟨ET_VALUE, 0,
            applyBin (getTok (F.take k) j).type (getTok (F.take k) (j - 1)).value
              (getTok (F.take k) (j + 1)).value⟩ : ExprToken)
              :: (F.take k).drop (j + 2)).length = k - 2 := by
        simp only [List.length_append, List.length_take, List.length_cons,
          List.length_drop, hlenF1]
        omega
      have hF1' : Flat (F.take k) := flat_take F hF k (by omega) (by omega)
      have hIH := ihn k (by omega) (F.take k) hlenF1 hF1' j hj1
        (by rw [hlenF1]; omega) (by rw [e_j]; omega)
        (by
          intro m hm
          rw [hlenF1] at hm
          rw [getTok_take F k m (by omega), e_j]
          exact hmax m (by omega))
        (by
          intro m hm
          rw [getTok_take F k m (by omega), e_j]
          exact hstrict m hm)
        (fun t ht => hbound t (List.take_subset k F ht))
      have hLHS : evalF (F.length - 2)
          (F.take (j - 1) ++ (⟨ET_VALUE, 0,
            applyBin (getTok F j).type (getTok F (j - 1)).value (getTok F (j + 1)).value⟩
              : ExprToken) :: F.drop (j + 2))
          = applyBin (getTok F k).type
              (evalF (F.length - 3) ((F.take k).take (j - 1) ++ (⟨ET_VALUE, 0,
                applyBin (getTok (F.take k) j).type (getTok (F.take k) (j - 1)).value
                  (getTok (F.take k) (j + 1)).value⟩ : ExprToken)
                    :: (F.take k).drop (j + 2)))
              (evalF (F.length - 3) (F.drop (k + 1))) := by
        have e1 := evalF_congr2 (F.length - 2) ((F.length - 3) + 1) _ _ (by omega) hshape
        rw [e1, evalF_split (F.length - 3)
          ((F.take k).take (j - 1) ++ (⟨ET_VALUE, 0,
            applyBin (getTok (F.take k) j).type (getTok (F.take k) (j - 1)).value
              (getTok (F.take k) (j + 1)).value⟩ : ExprToken)
                :: (F.take k).drop (j + 2))
          (F.drop (k + 1)) (getTok F k) hkbin (by omega)
          (by
            intro t ht hb2
            rw [hkp]
            rcases List.mem_append.mp ht with h0 | h0
            · exact hminF1 t (List.take_subset (j - 1) (F.take k) h0) hb2
            · rcases List.mem_cons.mp h0 with h1 | h1
              · exfalso
                rw [h1] at hb2
                have hb3 : isBinopB ET_VALUE = true := hb2
                exact absurd hb3 (by decide)
              · exact hminF1 t (List.drop_subset (j + 2) (F.take k) h1) hb2)
          (by
            intro t ht hb2
            rw [hkp]
            exact hkstr t ht hb2)
          (by rw [hlenF1']; omega)]
      rw [hLHS, hRHS]
      congr 1
      have c1 : evalF (F.length - 3) ((F.take k).take (j - 1) ++ (⟨ET_VALUE, 0,
            applyBin (getTok (F.take k) j).type (getTok (F.take k) (j - 1)).value
              (getTok (F.take k) (j + 1)).value⟩ : ExprToken)
                :: (F.take k).drop (j + 2))
          = evalF ((F.take k).length - 2) ((F.take k).take (j - 1) ++ (⟨ET_VALUE, 0,
            applyBin (getTok (F.take k) j).type (getTok (F.take k) (j - 1)).value
              (getTok (F.take k) (j + 1)).value⟩ : ExprToken)
                :: (F.take k).drop (j + 2)) := by
        apply evalF_congr
        · rw [hlenF1']; omega
        · rw [hlenF1', hlenF1]; omega
      have c2 : evalF ((F.take k).length) (F.take k) = evalF (F.length - 3) (F.take k) := by
        apply evalF_congr
        · rw [hlenF1]; omega
        · rw [hlenF1]; omega
      rw [c1, hIH, c2]
    · -- the maximum lies right of the split
      have hjgt : k < j := by omega
      have hjk2 : k + 1 < j := by
        by_contra hc
        have hke : j = k + 1 := by omega
        obtain ⟨hkb2, hkp2, hk12, hk22, hkprev, hknext⟩ :=
          flat_op F hF k (by omega) (Or.inl hkbin)
        rw [hke, hknext] at hjbin
        have hjbin2 : isBinopB ET_VALUE = true := hjbin
        exact absurd hjbin2 (by decide)
      have hj'1 : 1 ≤ j - k - 1 := by omega
      have e_j : getTok (F.drop (k + 1)) (j - k - 1) = getTok F j := by
        rw [getTok_drop]
        congr 1
        omega
      have e_jm : getTok (F.drop (k + 1)) (j - k - 1 - 1) = getTok F (j - 1) := by
        rw [getTok_drop]
        congr 1
        omega
      have e_jp : getTok (F.drop (k + 1)) (j - k - 1 + 1) = getTok F (j + 1) := by
        rw [getTok_drop]
        congr 1
        omega
      have ht1 : F.take (j - 1)
          = F.take k ++ getTok F k :: (F.drop (k + 1)).take (j - k - 1 - 1) := by
        conv_lhs => rw [hsplit]
        rw [List.take_append_eq_append_take,
          List.take_of_length_le (by rw [hlenF1]; omega), hlenF1]
        congr 1
        rw [show j - 1 - k = (j - k - 1 - 1) + 1 from by omega]
        rfl
      have ht2 : F.drop (j + 2) = (F.drop (k + 1)).drop (j - k - 1 + 2) := by
        conv_lhs => rw [hsplit]
        rw [show j + 2 = (F.take k).length + (j - k - 1 + 3) from by rw [hlenF1]; omega,
          drop_app]
        rfl
      have hshape : F.take (j - 1) ++ (⟨ET_VALUE, 0,
            applyBin (getTok F j).type (getTok F (j - 1)).value (getTok F (j + 1)).value⟩
              : ExprToken) :: F.drop (j + 2)
          = F.take k ++ getTok F k ::
              ((F.drop (k + 1)).take (j - k - 1 - 1) ++ (⟨ET_VALUE, 0,
                applyBin (getTok (F.drop (k + 1)) (j - k - 1)).type
                  (getTok (F.drop (k + 1)) (j - k - 1 - 1)).value
                  (getTok (F.drop (k + 1)) (j - k - 1 + 1)).value⟩ : ExprToken)
                    :: (F.drop (k + 1)).drop (j - k - 1 + 2)) := by
        rw [e_j, e_jm, e_jp, ht1, ht2]
        simp
      have hlenF2' : ((F.drop (k + 1)).take (j - k - 1 - 1) ++ (⟨ET_VALUE, 0,
            applyBin (getTok (F.drop (k + 1)) (j - k - 1)).type
              (getTok (F.drop (k + 1)) (j - k - 1 - 1)).value
              (getTok (F.drop (k + 1)) (j - k - 1 + 1)).value⟩ : ExprToken)
                :: (F.drop (k + 1)).drop (j - k - 1 + 2)).length
          = F.length - k - 3 := by
        simp only [List.length_append, List.length_take, List.length_cons,
          List.length_drop, hlenF2]
        omega
      have hF2' : Flat (F.drop (k + 1)) := flat_drop F hF k (by omega) (by omega)
      have hIH := ihn (F.length - k - 1) (by omega) (F.drop (k + 1)) hlenF2 hF2'
        (j - k - 1) hj'1
        (by rw [hlenF2]; omega) (by rw [e_j]; omega)
        (by
          intro m hm
          rw [hlenF2] at hm
          rw [getTok_drop, e_j]
          exact hmax (k + 1 + m) (by omega))
        (by
          intro m hm
          rw [getTok_drop, e_j]
          exact hstrict (k + 1 + m) (by omega))
        (fun t ht => hbound t (List.drop_subset (k + 1) F ht))
      have hLHS : evalF (F.length - 2)
          (F.take (j - 1) ++ (⟨ET_VALUE, 0,
            applyBin (getTok F j).type (getTok F (j - 1)).value (getTok F (j + 1)).value⟩
              : ExprToken) :: F.drop (j + 2))
          = applyBin (getTok F k).type
              (evalF (F.length - 3) (F.take k))
              (evalF (F.length - 3) ((F.drop (k + 1)).take (j - k - 1 - 1) ++ (⟨ET_VALUE, 0,
                applyBin (getTok (F.drop (k + 1)) (j - k - 1)).type
                  (getTok (F.drop (k + 1)) (j - k - 1 - 1)).value
                  (getTok (F.drop (k + 1)) (j - k - 1 + 1)).value⟩ : ExprToken)
                    :: (F.drop (k + 1)).drop (j - k - 1 + 2))) := by
        have e1 := evalF_congr2 (F.length - 2) ((F.length - 3) + 1) _ _ (by omega) hshape
        rw [e1, evalF_split (F.length - 3) (F.take k)
          ((F.drop (k + 1)).take (j - k - 1 - 1) ++ (⟨ET_VALUE, 0,
            applyBin (getTok (F.drop (k + 1)) (j - k - 1)).type
              (getTok (F.drop (k + 1)) (j - k - 1 - 1)).value
              (getTok (F.drop (k + 1)) (j - k - 1 + 1)).value⟩ : ExprToken)
                :: (F.drop (k + 1)).drop (j - k - 1 + 2))
          (getTok F k) hkbin (by omega)
          (by
            intro t ht hb2
            rw [hkp]
            exact hminF1 t ht hb2)
          (by
            intro t ht hb2
            rw [hkp]
            rcases List.mem_append.mp ht with h0 | h0
            · exact hkstr t (List.take_subset (j - k - 1 - 1) (F.drop (k + 1)) h0) hb2
            · rcases List.mem_cons.mp h0 with h1 | h1
              · exfalso
                rw [h1] at hb2
                have hb3 : isBinopB ET_VALUE = true := hb2
                exact absurd hb3 (by decide)
              · exact hkstr t (List.drop_subset (j - k - 1 + 2) (F.drop (k + 1)) h1) hb2)
          (by rw [hlenF1]; omega)]
      rw [hLHS, hRHS]
      congr 1
      have c1 : evalF (F.length - 3) ((F.drop (k + 1)).take (j - k - 1 - 1) ++ (⟨ET_VALUE, 0,
            applyBin (getTok (F.drop (k + 1)) (j - k - 1)).type
              (getTok (F.drop (k + 1)) (j - k - 1 - 1)).value
              (getTok (F.drop (k + 1)) (j - k - 1 + 1)).value⟩ : ExprToken)
                :: (F.drop (k + 1)).drop (j - k - 1 + 2))
          = evalF ((F.drop (k + 1)).length - 2)
              ((F.drop (k + 1)).take (j - k - 1 - 1) ++ (⟨ET_VALUE, 0,
                applyBin (getTok (F.drop (k + 1)) (j - k - 1)).type
                  (getTok (F.drop (k + 1)) (j - k - 1 - 1)).value
                  (getTok (F.drop (k + 1)) (j - k - 1 + 1)).value⟩ : ExprToken)
                    :: (F.drop (k + 1)).drop (j - k - 1 + 2)) := by
        apply evalF_congr
        · rw [hlenF2']; omega
        · rw [hlenF2', hlenF2]; omega
      have c2 : evalF ((F.drop (k + 1)).length) (F.drop (k + 1))
          = evalF (F.length - 3) (F.drop (k + 1)) := by
        apply evalF_congr
        · rw [hlenF2]; omega
        · rw [hlenF2]; omega
      rw [c1, hIH, c2]

/-- Characterization of the machine highest-precedence scan
(strict `>` keeps the leftmost maximum). -/
theorem find_max_aux_spec (ws : List ExprToken) (count : Nat) : ∀ (fuel i prec index : Nat),
    count ≤ i + fuel →
    ((expr_find_max_aux ws count fuel i prec index = (prec, index) ∧
      (∀ m, i ≤ m → m < count → (getTok ws m).precedence ≤ prec)) ∨
    (∃ m, i ≤ m ∧ m < count ∧
      expr_find_max_aux ws count fuel i prec index = ((getTok ws m).precedence, m) ∧
      prec < (getTok ws m).precedence ∧
      (∀ m2, i ≤ m2 → m2 < count → (getTok ws m2).precedence ≤ (getTok ws m).precedence) ∧
      (∀ m2, i ≤ m2 → m2 < m → (getTok ws m2).precedence < (getTok ws m).precedence))) := by
  intro fuel
  induction fuel with
  | zero =>
      intro i prec index hle
      left
      exact ⟨rfl, fun m h1 h2 => absurd h2 (by omega)⟩
  | succ fuel ih =>
      intro i prec index hle
      rw [expr_find_max_aux]
      by_cases hic : i < count
      · rw [if_pos hic]
        by_cases hgt : (getTok ws i).precedence > prec
        · rw [if_pos hgt]
          rcases ih (i + 1) (getTok ws i).precedence i (by omega) with
            ⟨heq, hall⟩ | ⟨m, hm1, hm2, heq, hlt, hmax, hstr⟩
          · right
            refine ⟨i, le_refl i, hic, heq, hgt, ?_, ?_⟩
            · intro m2 h1 h2
              rcases Nat.eq_or_lt_of_le h1 with he | hlt2
              · rw [← he]
              · exact hall m2 (by omega) h2
            · intro m2 h1 h2
              omega
          · right
            refine ⟨m, by omega, hm2, heq, by omega, ?_, ?_⟩
            · intro m2 h1 h2
              rcases Nat.eq_or_lt_of_le h1 with he | hlt2
              · rw [← he]; omega
              · exact hmax m2 (by omega) h2
            · intro m2 h1 h2
              rcases Nat.eq_or_lt_of_le h1 with he | hlt2
              · rw [← he]; omega
              · exact hstr m2 (by omega) h2
        · rw [if_neg hgt]
          rcases ih (i + 1) prec index (by omega) with
            ⟨heq, hall⟩ | ⟨m, hm1, hm2, heq, hlt, hmax, hstr⟩
          · left
            refine ⟨heq, ?_⟩
            intro m h1 h2
            rcases Nat.eq_or_lt_of_le h1 with he | hlt2
            · rw [← he]; omega
            · exact hall m (by omega) h2
          · right
            refine ⟨m, by omega, hm2, heq, hlt, ?_, ?_⟩
            · intro m2 h1 h2
              rcases Nat.eq_or_lt_of_le h1 with he | hlt2
              · rw [← he]; omega
              · exact hmax m2 (by omega) h2
            · intro m2 h1 h2
              rcases Nat.eq_or_lt_of_le h1 with he | hlt2
              · rw [← he]; omega
              · exact hstr m2 (by omega) h2
      · rw [if_neg hic]
        left
        exact ⟨rfl, fun m h1 h2 => absurd (by omega : i < count) hic⟩

/-- On a flat window of length at least 2 the scan lands on an operator that
is the leftmost maximum. -/
theorem find_max_flat (ws F : List ExprToken) (hF : Flat F) (h2 : 2 ≤ F.length)
    (hwin : ∀ m, m < F.length → getTok ws m = getTok F m) :
    ∃ j, expr_find_max ws F.length = ((getTok F j).precedence, j) ∧
      1 ≤ j ∧ j + 1 < F.length ∧ isBinopB (getTok F j).type = true ∧
      1 ≤ (getTok F j).precedence ∧
      (∀ m, m < F.length → (getTok F m).precedence ≤ (getTok F j).precedence) ∧
      (∀ m, m < j → (getTok F m).precedence < (getTok F j).precedence) := by
  rw [expr_find_max]
  rcases find_max_aux_spec ws F.length F.length 0 0 0 (by omega) with
    ⟨heq, hall⟩ | ⟨m, _, hm2, heq, hlt, hmax, hstr⟩
  · exfalso
    cases hF with
    | single v => simp at h2
    | cons v o rest hob hop hr =>
        have h1 : getTok ((ExprToken.mk ET_VALUE 0 v) :: o :: rest) 1 = o := rfl
        have h1lt : 1 < ((ExprToken.mk ET_VALUE 0 v) :: o :: rest).length := by
          simp only [List.length_cons]
          omega
        have := hall 1 (by omega) h1lt
        rw [hwin 1 h1lt, h1] at this
        omega
  · have hwm := hwin m hm2
    obtain ⟨hbin, hp1, hj1, hj2, _, _⟩ :=
      flat_op F hF m hm2 (Or.inr (by rw [← hwm]; omega))
    refine ⟨m, by rw [heq, hwm], hj1, hj2, hbin, hp1, ?_, ?_⟩
    · intro m2 hm2lt
      have := hmax m2 (by omega) hm2lt
      rw [hwin m2 hm2lt, hwm] at this
      exact this
    · intro m2 hm2lt
      have := hstr m2 (by omega) hm2lt
      rw [hwin m2 (by omega), hwm] at this
      exact this

/-- A binary-operator token type is one of the eight machine cases. -/
theorem isBinopB_elim (ty : Nat) (h : isBinopB ty = true) :
    ty = ET_MULTIPLY ∨ ty = ET_DIVIDE ∨ ty = ET_REMAINDER ∨ ty = ET_ADD ∨
    ty = ET_SUBTRACT ∨ ty = ET_AND ∨ ty = ET_OR ∨ ty = ET_XOR := by
  have h2 : 2 ≤ ty ∧ ty ≤ 9 := of_decide_eq_true h
  simp only [ET_MULTIPLY, ET_DIVIDE, ET_REMAINDER, ET_ADD, ET_SUBTRACT, ET_AND, ET_OR,
    ET_XOR]
  omega

/-- One machine reduction on a flat window: it succeeds, erases two tokens,
and the new window is the flat reduction at the leftmost maximum, with the
same evaluation. -/
theorem reduce_flat (ws F : List ExprToken) (hF : Flat F) (h2 : 2 ≤ F.length)
    (hws : ws.length = 64) (hcnt : F.length ≤ 64)
    (hwin : ∀ m, m < F.length → getTok ws m = getTok F m)
    (hbound : ∀ t ∈ F, t.precedence ≤ 255) :
    ∃ ws2 F2, expr_reduce ws F.length = some ws2 ∧ ws2.length = 64 ∧
      F2.length = F.length - 2 ∧ Flat F2 ∧ (∀ t ∈ F2, t.precedence ≤ 255) ∧
      (∀ m, m < F2.length → getTok ws2 m = getTok F2 m) ∧
      evalF F2.length F2 = evalF F.length F := by
  obtain ⟨j, hfm, hj1, hj2, hbin, hp1, hmax, hstr⟩ := find_max_flat ws F hF h2 hwin
  obtain ⟨_, _, _, _, hprev, hnext⟩ := flat_op F hF j (by omega) (Or.inl hbin)
  have hwj : getTok ws j = getTok F j := hwin j (by omega)
  have hwjm : getTok ws (j - 1) = getTok F (j - 1) := hwin (j - 1) (by omega)
  have hwjp : getTok ws (j + 1) = getTok F (j + 1) := hwin (j + 1) (by omega)
  have hdisj : (getTok ws j).type = ET_MULTIPLY ∨ (getTok ws j).type = ET_DIVIDE ∨
      (getTok ws j).type = ET_REMAINDER ∨ (getTok ws j).type = ET_ADD ∨
      (getTok ws j).type = ET_SUBTRACT ∨ (getTok ws j).type = ET_AND ∨
      (getTok ws j).type = ET_OR ∨ (getTok ws j).type = ET_XOR := by
    rw [hwj]
    exact isBinopB_elim _ hbin
  have hcheck : expr_reduce_check ws F.length j = false := by
    rw [expr_reduce_check, if_neg (by omega : ¬ (j = 0 ∨ j = F.length)),
      if_neg (show ¬ (getTok ws (j - 1)).type ≠ ET_VALUE from fun hne =>
        hne (by rw [hwjm, hprev])),
      if_neg (show ¬ (getTok ws (j + 1)).type ≠ ET_VALUE from fun hne =>
        hne (by rw [hwjp, hnext]))]
  have hne0 : ¬ (getTok F j).precedence = 0 := by omega
  have hstep : expr_reduce ws F.length
      = some (expr_erase (ws.set (j - 1)
          ⟨(getTok ws (j - 1)).type, (getTok ws (j - 1)).precedence,
            applyBin (getTok ws j).type (getTok ws (j - 1)).value
              (getTok ws (j + 1)).value⟩) F.length j 2) := by
    simp only [expr_reduce, hfm]
    rw [if_neg hne0, if_pos hdisj, hcheck]
    rw [if_neg Bool.false_ne_true]
  set merged : ExprToken := ⟨ET_VALUE, 0,
    applyBin (getTok F j).type (getTok F (j - 1)).value (getTok F (j + 1)).value⟩ with hmg
  set F2 : List ExprToken := F.take (j - 1) ++ merged :: F.drop (j + 2) with hF2
  have hmerged : (⟨(getTok ws (j - 1)).type, (getTok ws (j - 1)).precedence,
      applyBin (getTok ws j).type (getTok ws (j - 1)).value
        (getTok ws (j + 1)).value⟩ : ExprToken) = merged := by
    rw [hwj, hwjm, hwjp, hmg]
    conv_lhs => rw [hprev]
  rw [hmerged] at hstep
  have hlenF2 : F2.length = F.length - 2 := by
    rw [hF2]
    simp only [List.length_append, List.length_take, List.length_cons, List.length_drop]
    omega
  have hlenset : (ws.set (j - 1) merged).length = 64 := by
    rw [List.length_set, hws]
  have herase := erase_aux_getTok 2 (F.length - 2 - j) j (ws.set (j - 1) merged)
    (by rw [hlenset]; omega)
  have heq2 : expr_erase (ws.set (j - 1) merged) F.length j 2
      = expr_erase_aux 2 j (F.length - 2 - j) (ws.set (j - 1) merged) := rfl
  refine ⟨_, F2, hstep, by rw [heq2, herase.1, hlenset], hlenF2,
    flat_reduceAt F hF j _ hj1 hj2 hp1, ?_, ?_, ?_⟩
  · intro t ht
    rw [hF2] at ht
    rcases List.mem_append.mp ht with h0 | h0
    · exact hbound t (List.take_subset (j - 1) F h0)
    · rcases List.mem_cons.mp h0 with h1 | h1
      · rw [h1, hmg]
        exact Nat.zero_le 255
      · exact hbound t (List.drop_subset (j + 2) F h1)
  · intro m hm
    rw [hlenF2] at hm
    rw [heq2, herase.2 m]
    by_cases hmj : m < j
    · rw [if_neg (by omega)]
      by_cases hmm : m = j - 1
      · rw [hmm, getTok_set_self _ _ _ (by rw [hws]; omega), hF2,
          getTok_append_right _ _ _ (by rw [List.length_take]; omega)]
        rw [show j - 1 - (F.take (j - 1)).length = 0 by rw [List.length_take]; omega]
        rfl
      · rw [getTok_set_ne _ _ _ _ (by omega), hwin m (by omega), hF2,
          getTok_append_left _ _ _ (by rw [List.length_take]; omega),
          getTok_take F (j - 1) m (by omega)]
    · rw [if_pos (by omega), getTok_set_ne _ _ _ _ (by omega),
        hwin (m + 2) (by omega), hF2,
        getTok_append_right _ _ _ (by rw [List.length_take]; omega)]
      rw [show m - (F.take (j - 1)).length = (m - j) + 1 by rw [List.length_take]; omega]
      rw [getTok_cons_succ, getTok_drop]
      congr 1
      omega
  · rw [hlenF2, hF2, hmg]
    exact eval_reduceAt F.length F rfl hF j hj1 hj2 hp1 hmax hstr hbound

/-- The machine solving loop on a flat window finishes error-free with one
token holding the rightmost-minimum-split evaluation. -/
theorem loop_flat : ∀ (n : Nat) (F ws : List ExprToken) (fuel : Nat),
    F.length = n → Flat F → ws.length = 64 → F.length ≤ 64 →
    (∀ m, m < F.length → getTok ws m = getTok F m) →
    (∀ t ∈ F, t.precedence ≤ 255) →
    F.length ≤ fuel →
    ∃ ws2, expr_solve_loop_aux fuel ws F.length = (ws2, 1, false) ∧
      ws2.length = 64 ∧ (getTok ws2 0).value = evalF F.length F := by
  intro n
  induction n using Nat.strong_induction_on with
  | _ n ihn =>
  intro F ws fuel hn hF hws hcnt hwin hbound hfuel
  by_cases hl1 : F.length ≤ 1
  · have hval : evalF F.length F = (getTok F 0).value := by
      have h1 : F.length = 1 := by
        have := flat_len_pos F hF
        omega
      rw [h1, show (1 : Nat) = 0 + 1 from rfl, evalF, if_pos (by omega)]
    have hloop : expr_solve_loop_aux fuel ws F.length = (ws, F.length, false) := by
      cases fuel with
      | zero => rw [expr_solve_loop_aux]
      | succ f => rw [expr_solve_loop_aux, if_neg (by omega)]
    have h1 : F.length = 1 := by
      have := flat_len_pos F hF
      omega
    refine ⟨ws, by rw [hloop, h1], hws, ?_⟩
    rw [hwin 0 (by omega), hval]
  · obtain ⟨ws2, F2, hred, hws2, hlen2, hF2, hbound2, hwin2, heval2⟩ :=
      reduce_flat ws F hF (by omega) hws hcnt hwin hbound
    cases fuel with
    | zero => omega
    | succ f =>
        rw [expr_solve_loop_aux, if_pos (by omega), hred]
        obtain ⟨ws3, hloop3, hws3, hval3⟩ := ihn (F.length - 2) (by omega) F2 ws2 f
          hlen2 hF2 hws2 (by omega) hwin2 hbound2 (by omega)
        rw [hlen2] at hloop3
        refine ⟨ws3, hloop3, hws3, ?_⟩
        rw [hval3, hlen2] at *
        rw [hval3]
        rw [← heval2, hlen2]

/-- Entry form of `loop_flat` for `expr_solve_loop`. -/
theorem expr_solve_loop_flat (ws F : List ExprToken) (hF : Flat F)
    (hws : ws.length = 64) (hcnt : F.length ≤ 64)
    (hwin : ∀ m, m < F.length → getTok ws m = getTok F m)
    (hbound : ∀ t ∈ F, t.precedence ≤ 255) :
    ∃ ws2, expr_solve_loop ws F.length = (ws2, 1, false) ∧
      ws2.length = 64 ∧ (getTok ws2 0).value = evalF F.length F := by
  rw [expr_solve_loop]
  exact loop_flat F.length F ws F.length rfl hF hws hcnt hwin hbound (le_refl _)

/-! ## Composition lemmas for the precedence assignment -/

theorem passign_append : ∀ (b : Int) (l1 l2 : List ExprToken),
    passign b (l1 ++ l2) = passign b l1 ++ passign (pbase b l1) l2 := by
  intro b l1
  induction l1 generalizing b with
  | nil => intro l2; rfl
  | cons t rest ih =>
      intro l2
      rw [List.cons_append]
      rw [show passign b (t :: (rest ++ l2))
          = tokStep b t :: passign (baseStep b t) (rest ++ l2) from rfl]
      rw [ih, show pbase b (t :: rest) = pbase (baseStep b t) rest from rfl]
      rfl

theorem pbase_append : ∀ (b : Int) (l1 l2 : List ExprToken),
    pbase b (l1 ++ l2) = pbase (pbase b l1) l2 := by
  intro b l1
  induction l1 generalizing b with
  | nil => intro l2; rfl
  | cons t rest ih =>
      intro l2
      rw [List.cons_append]
      rw [show pbase b (t :: (rest ++ l2)) = pbase (baseStep b t) (rest ++ l2) from rfl]
      rw [ih]
      rfl

theorem pok_append : ∀ (b : Int) (l1 l2 : List ExprToken),
    pok b l1 → pok (pbase b l1) l2 → pok b (l1 ++ l2) := by
  intro b l1
  induction l1 generalizing b with
  | nil => intro l2 _ h2; exact h2
  | cons t rest ih =>
      intro l2 h1 h2
      rw [List.cons_append]
      exact ⟨h1.1, ih (baseStep b t) l2 h1.2 h2⟩

theorem bfilter_append (l1 l2 : List ExprToken) :
    bfilter (l1 ++ l2) = bfilter l1 ++ bfilter l2 := by
  rw [bfilter, bfilter, bfilter, List.filter_append]

/-! ## Evaluation of the step functions on concrete token types -/

theorem wrap8_id (x : Int) (h0 : 0 ≤ x) (h1 : x ≤ 127) : wrap8 x = x := by
  rw [wrap8]
  omega

theorem prec8_eval (b : Int) (c : Nat) (h0 : 0 ≤ b) (h1 : b + (c : Int) ≤ 255) :
    ((prec8 b c : Nat) : Int) = b + (c : Int) := by
  rw [prec8]
  omega

theorem baseStep_mk (b : Int) (ty p v : Nat)
    (h1 : ¬ ty = ET_SUBEXPR_OPEN) (h2 : ¬ ty = ET_SUBEXPR_CLOSE) :
    baseStep b (ExprToken.mk ty p v) = b := by
  rw [baseStep, if_neg h1, if_neg h2]

theorem baseStep_open (b : Int) (p v : Nat) (h0 : 0 ≤ b) (h1 : b + 4 ≤ 127) :
    baseStep b (ExprToken.mk ET_SUBEXPR_OPEN p v) = b + 4 := by
  rw [baseStep, if_pos rfl,
    show ((ET_SUBEXPR : Nat) : Int) = 4 from by simp [ET_SUBEXPR]]
  exact wrap8_id _ (by omega) (by omega)

theorem baseStep_close (b : Int) (p v : Nat) (h0 : 4 ≤ b) (h1 : b ≤ 127) :
    baseStep b (ExprToken.mk ET_SUBEXPR_CLOSE p v) = b - 4 := by
  rw [baseStep, if_neg (by simp [ET_SUBEXPR_OPEN, ET_SUBEXPR_CLOSE]), if_pos rfl,
    show ((ET_SUBEXPR : Nat) : Int) = 4 from by simp [ET_SUBEXPR]]
  exact wrap8_id _ (by omega) (by omega)

theorem tokStep_value (b : Int) (p v : Nat) :
    tokStep b (ExprToken.mk ET_VALUE p v) = ExprToken.mk ET_VALUE p v := by
  simp [tokStep, ET_VALUE, ET_AND, ET_OR, ET_XOR, ET_ADD, ET_SUBTRACT, ET_MULTIPLY,
    ET_DIVIDE, ET_REMAINDER]

theorem tokStep_open (b : Int) (p v : Nat) :
    tokStep b (ExprToken.mk ET_SUBEXPR_OPEN p v) = ExprToken.mk ET_SUBEXPR_OPEN p v := by
  simp [tokStep, ET_SUBEXPR_OPEN, ET_AND, ET_OR, ET_XOR, ET_ADD, ET_SUBTRACT, ET_MULTIPLY,
    ET_DIVIDE, ET_REMAINDER]

theorem tokStep_close (b : Int) (p v : Nat) :
    tokStep b (ExprToken.mk ET_SUBEXPR_CLOSE p v) = ExprToken.mk ET_SUBEXPR_CLOSE p v := by
  simp [tokStep, ET_SUBEXPR_CLOSE, ET_AND, ET_OR, ET_XOR, ET_ADD, ET_SUBTRACT, ET_MULTIPLY,
    ET_DIVIDE, ET_REMAINDER]

theorem tokStep_and (b : Int) (p v : Nat) :
    tokStep b (ExprToken.mk ET_AND p v) = ExprToken.mk ET_AND (prec8 b 1) v := by
  simp [tokStep, ET_AND, ET_OR, ET_XOR]

theorem tokStep_or (b : Int) (p v : Nat) :
    tokStep b (ExprToken.mk ET_OR p v) = ExprToken.mk ET_OR (prec8 b 1) v := by
  simp [tokStep, ET_AND, ET_OR, ET_XOR]

theorem tokStep_xor (b : Int) (p v : Nat) :
    tokStep b (ExprToken.mk ET_XOR p v) = ExprToken.mk ET_XOR (prec8 b 1) v := by
  simp [tokStep, ET_AND, ET_OR, ET_XOR]

theorem tokStep_add (b : Int) (p v : Nat) :
    tokStep b (ExprToken.mk ET_ADD p v) = ExprToken.mk ET_ADD (prec8 b 2) v := by
  simp [tokStep, ET_AND, ET_OR, ET_XOR, ET_ADD, ET_SUBTRACT]

theorem tokStep_sub (b : Int) (p v : Nat) :
    tokStep b (ExprToken.mk ET_SUBTRACT p v) = ExprToken.mk ET_SUBTRACT (prec8 b 2) v := by
  simp [tokStep, ET_AND, ET_OR, ET_XOR, ET_ADD, ET_SUBTRACT]

theorem tokStep_mul (b : Int) (p v : Nat) :
    tokStep b (ExprToken.mk ET_MULTIPLY p v) = ExprToken.mk ET_MULTIPLY (prec8 b 3) v := by
  simp [tokStep, ET_AND, ET_OR, ET_XOR, ET_ADD, ET_SUBTRACT, ET_MULTIPLY, ET_DIVIDE,
    ET_REMAINDER]

theorem tokStep_div (b : Int) (p v : Nat) :
    tokStep b (ExprToken.mk ET_DIVIDE p v) = ExprToken.mk ET_DIVIDE (prec8 b 3) v := by
  simp [tokStep, ET_AND, ET_OR, ET_XOR, ET_ADD, ET_SUBTRACT, ET_MULTIPLY, ET_DIVIDE,
    ET_REMAINDER]

theorem tokStep_rem (b : Int) (p v : Nat) :
    tokStep b (ExprToken.mk ET_REMAINDER p v) = ExprToken.mk ET_REMAINDER (prec8 b 3) v := by
  simp [tokStep, ET_AND, ET_OR, ET_XOR, ET_ADD, ET_SUBTRACT, ET_MULTIPLY, ET_DIVIDE,
    ET_REMAINDER]

/-! ## Joining two flat lists with an operator -/

theorem flat_append (F1 F2 : List ExprToken) (o : ExprToken)
    (h1 : Flat F1) (h2 : Flat F2) (hb : isBinopB o.type = true) (hp : 1 ≤ o.precedence) :
    Flat (F1 ++ o :: F2) := by
  induction h1 with
  | single v =>
      rw [List.cons_append, List.nil_append]
      exact Flat.cons v o F2 hb hp h2
  | cons v o2 rest hb2 hp2 hr ih =>
      rw [List.cons_append, List.cons_append]
      exact Flat.cons v o2 _ hb2 hp2 ih

theorem evalF_append_op (F1 F2 : List ExprToken) (o : ExprToken) (v1 v2 : Nat)
    (hbin : isBinopB o.type = true) (h256 : o.precedence ≤ 256)
    (h1 : ∀ t ∈ F1, isBinopB t.type = true → o.precedence ≤ t.precedence)
    (h2 : ∀ t ∈ F2, isBinopB t.type = true → o.precedence < t.precedence)
    (hl1 : 1 ≤ F1.length) (hl2 : 1 ≤ F2.length)
    (he1 : evalF F1.length F1 = v1) (he2 : evalF F2.length F2 = v2) :
    evalF (F1 ++ o :: F2).length (F1 ++ o :: F2) = applyBin o.type v1 v2 := by
  have hL : (F1 ++ o :: F2).length = (F1.length + F2.length) + 1 := by
    simp only [List.length_append, List.length_cons]
    omega
  rw [hL, evalF_split (F1.length + F2.length) F1 F2 o hbin h256 h1 h2 hl1,
    evalF_congr (F1.length + F2.length) F1.length F1 (by omega) (by omega), he1,
    evalF_congr (F1.length + F2.length) F2.length F2 (by omega) (by omega), he2]

/-- Shared step for the six binary-operator constructors. -/
theorem flatify_binop (b : Int) (l1 l2 : List ExprToken) (ty p v1 v2 c : Nat)
    (cm1 cm2 : Int)
    (hbin : isBinopB ty = true)
    (hnb1 : ¬ ty = ET_SUBEXPR_OPEN) (hnb2 : ¬ ty = ET_SUBEXPR_CLOSE)
    (htok : tokStep b (ExprToken.mk ty p 0) = ExprToken.mk ty (prec8 b c) 0)
    (hc1 : 1 ≤ c) (hc3 : c ≤ 3)
    (hb0 : 0 ≤ b)
    (hblen : b + 2 * (((l1 ++ ExprToken.mk ty p 0 :: l2).length : Nat) : Int) ≤ 127)
    (hcm1 : cm1 ≤ (c : Int)) (hcm2 : (c : Int) < cm2)
    (P1 : pok b l1) (P2 : pbase b l1 = b) (P3 : Flat (bfilter (passign b l1)))
    (P4 : ∀ t ∈ bfilter (passign b l1),
      (t.precedence : Int) ≤ b + 2 * ((l1.length : Nat) : Int) + 3)
    (P5 : ∀ t ∈ bfilter (passign b l1), isBinopB t.type = true →
      b + (c : Int) ≤ (t.precedence : Int))
    (P6 : evalF (bfilter (passign b l1)).length (bfilter (passign b l1)) = v1)
    (Q1 : pok b l2) (Q2 : pbase b l2 = b) (Q3 : Flat (bfilter (passign b l2)))
    (Q4 : ∀ t ∈ bfilter (passign b l2),
      (t.precedence : Int) ≤ b + 2 * ((l2.length : Nat) : Int) + 3)
    (Q5 : ∀ t ∈ bfilter (passign b l2), isBinopB t.type = true →
      b + cm2 ≤ (t.precedence : Int))
    (Q6 : evalF (bfilter (passign b l2)).length (bfilter (passign b l2)) = v2) :
    pok b (l1 ++ ExprToken.mk ty p 0 :: l2) ∧
    pbase b (l1 ++ ExprToken.mk ty p 0 :: l2) = b ∧
    Flat (bfilter (passign b (l1 ++ ExprToken.mk ty p 0 :: l2))) ∧
    (∀ t ∈ bfilter (passign b (l1 ++ ExprToken.mk ty p 0 :: l2)),
      (t.precedence : Int) ≤ b + 2 * (((l1 ++ ExprToken.mk ty p 0 :: l2).length : Nat) : Int) + 3) ∧
    (∀ t ∈ bfilter (passign b (l1 ++ ExprToken.mk ty p 0 :: l2)), isBinopB t.type = true →
      b + cm1 ≤ (t.precedence : Int)) ∧
    evalF (bfilter (passign b (l1 ++ ExprToken.mk ty p 0 :: l2))).length
      (bfilter (passign b (l1 ++ ExprToken.mk ty p 0 :: l2)))
      = applyBin ty v1 v2 := by
  have hlen : (l1 ++ ExprToken.mk ty p 0 :: l2).length = l1.length + l2.length + 1 := by
    simp only [List.length_append, List.length_cons]
    omega
  have hbase : baseStep b (ExprToken.mk ty p 0) = b := baseStep_mk b ty p 0 hnb1 hnb2
  have hpe : ((prec8 b c : Nat) : Int) = b + (c : Int) := by
    apply prec8_eval b c hb0
    rw [hlen] at hblen
    push_cast at hblen ⊢
    omega
  have hkey : passign b (l1 ++ ExprToken.mk ty p 0 :: l2)
      = passign b l1 ++ ExprToken.mk ty (prec8 b c) 0 :: passign b l2 := by
    rw [passign_append, P2,
      show passign b (ExprToken.mk ty p 0 :: l2)
        = tokStep b (ExprToken.mk ty p 0) :: passign (baseStep b (ExprToken.mk ty p 0)) l2
        from rfl,
      htok, hbase]
  have hfil : bfilter (passign b (l1 ++ ExprToken.mk ty p 0 :: l2))
      = bfilter (passign b l1) ++ ExprToken.mk ty (prec8 b c) 0 :: bfilter (passign b l2) := by
    rw [hkey, bfilter_append, bfilter_cons_keep _ _ ⟨hnb1, hnb2⟩]
  have hop1 : 1 ≤ prec8 b c := by omega
  refine ⟨?_, ?_, ?_, ?_, ?_, ?_⟩
  · refine pok_append b l1 _ P1 ?_
    rw [P2]
    exact ⟨by rw [hbase]; exact hb0, by rw [hbase]; exact Q1⟩
  · rw [pbase_append, P2,
      show pbase b (ExprToken.mk ty p 0 :: l2) = pbase (baseStep b (ExprToken.mk ty p 0)) l2
        from rfl, hbase, Q2]
  · rw [hfil]
    exact flat_append _ _ _ P3 Q3 hbin hop1
  · intro t ht
    rw [hfil] at ht
    rw [hlen]
    rcases List.mem_append.mp ht with h0 | h0
    · have := P4 t h0
      push_cast at this ⊢
      omega
    · rcases List.mem_cons.mp h0 with h1 | h1
      · rw [h1]
        show ((prec8 b c : Nat) : Int) ≤ _
        push_cast
        omega
      · have := Q4 t h1
        push_cast at this ⊢
        omega
  · intro t ht hbt
    rw [hfil] at ht
    rcases List.mem_append.mp ht with h0 | h0
    · have := P5 t h0 hbt
      omega
    · rcases List.mem_cons.mp h0 with h1 | h1
      · rw [h1]
        show b + cm1 ≤ ((prec8 b c : Nat) : Int)
        omega
      · have := Q5 t h1 hbt
        omega
  · rw [hfil]
    refine evalF_append_op _ _ _ v1 v2 hbin (show prec8 b c ≤ 256 by omega) ?_ ?_
      (flat_len_pos _ P3) (flat_len_pos _ Q3) P6 Q6
    · intro t ht hbt
      have := P5 t ht hbt
      show prec8 b c ≤ t.precedence
      omega
    · intro t ht hbt
      have := Q5 t ht hbt
      show prec8 b c < t.precedence
      omega

/-- The precedence pass followed by the bracket filter turns a derivable,
unary-free segment into a flat list evaluating to the derived value. -/
theorem flatify : ∀ (lvl : Nat) (l : List ExprToken) (v : Nat), GramU lvl l v →
    ∀ (b : Int), 0 ≤ b → b + 2 * ((l.length : Nat) : Int) ≤ 127 →
    (∀ t ∈ l, t.precedence = 0) →
    pok b l ∧ pbase b l = b ∧
    Flat (bfilter (passign b l)) ∧
    (∀ t ∈ bfilter (passign b l),
      (t.precedence : Int) ≤ b + 2 * ((l.length : Nat) : Int) + 3) ∧
    (∀ t ∈ bfilter (passign b l), isBinopB t.type = true →
      b + minclass lvl ≤ (t.precedence : Int)) ∧
    evalF (bfilter (passign b l)).length (bfilter (passign b l)) = v := by
  intro lvl l v h
  induction h with
  | value p v =>
      intro b hb0 hblen hp0
      have hp : p = 0 := hp0 (ExprToken.mk ET_VALUE p v) (by simp)
      subst hp
      have hbv : baseStep b (ExprToken.mk ET_VALUE 0 v) = b :=
        baseStep_mk b ET_VALUE 0 v (by decide) (by decide)
      have hkey : passign b [ExprToken.mk ET_VALUE 0 v] = [ExprToken.mk ET_VALUE 0 v] := by
        rw [show passign b [ExprToken.mk ET_VALUE 0 v]
            = tokStep b (ExprToken.mk ET_VALUE 0 v)
              :: passign (baseStep b (ExprToken.mk ET_VALUE 0 v)) [] from rfl,
          tokStep_value]
        rfl
      have hfil : bfilter (passign b [ExprToken.mk ET_VALUE 0 v])
          = [ExprToken.mk ET_VALUE 0 v] := by
        rw [hkey, bfilter_cons_keep _ _ (by simp [ET_VALUE, ET_SUBEXPR_OPEN,
          ET_SUBEXPR_CLOSE]), bfilter_nil]
      refine ⟨⟨by rw [hbv]; exact hb0, trivial⟩, ?_, ?_, ?_, ?_, ?_⟩
      · show baseStep b (ExprToken.mk ET_VALUE 0 v) = b
        exact hbv
      · rw [hfil]
        exact Flat.single v
      · intro t ht
        rw [hfil] at ht
        rcases List.mem_cons.mp ht with h1 | h1
        · rw [h1]
          show ((0 : Nat) : Int) ≤ _
          omega
        · exact absurd h1 (List.not_mem_nil t)
      · intro t ht hbt
        rw [hfil] at ht
        rcases List.mem_cons.mp ht with h1 | h1
        · exfalso
          rw [h1] at hbt
          have hbt2 : isBinopB ET_VALUE = true := hbt
          exact absurd hbt2 (by decide)
        · exact absurd h1 (List.not_mem_nil t)
      · rw [hfil]
        rw [show ([ExprToken.mk ET_VALUE 0 v] : List ExprToken).length = 0 + 1 from rfl,
          evalF, if_pos (by simp)]
        rfl
  | paren p q l1 v h1 ih =>
      intro b hb0 hblen hp0
      have hlen : ((ExprToken.mk ET_SUBEXPR_OPEN p 0 :: l1)
          ++ [ExprToken.mk ET_SUBEXPR_CLOSE q 0]).length = l1.length + 2 := by
        simp only [List.length_append, List.length_cons, List.length_nil]
      have hb4 : b + 4 ≤ 127 := by
        rw [hlen] at hblen
        push_cast at hblen
        omega
      have I := ih (b + 4) (by omega)
        (by rw [hlen] at hblen; push_cast at hblen ⊢; omega)
        (fun t ht => hp0 t (List.mem_append.mpr (Or.inl (List.mem_cons.mpr (Or.inr ht)))))
      have hbO : baseStep b (ExprToken.mk ET_SUBEXPR_OPEN p 0) = b + 4 :=
        baseStep_open b p 0 hb0 hb4
      have hbC : baseStep (b + 4) (ExprToken.mk ET_SUBEXPR_CLOSE q 0) = b := by
        rw [baseStep_close (b + 4) q 0 (by omega) (by omega)]
        omega
      have hkey : passign b ((ExprToken.mk ET_SUBEXPR_OPEN p 0 :: l1)
            ++ [ExprToken.mk ET_SUBEXPR_CLOSE q 0])
          = ExprToken.mk ET_SUBEXPR_OPEN p 0
            :: (passign (b + 4) l1 ++ [ExprToken.mk ET_SUBEXPR_CLOSE q 0]) := by
        rw [List.cons_append,
          show passign b (ExprToken.mk ET_SUBEXPR_OPEN p 0
              :: (l1 ++ [ExprToken.mk ET_SUBEXPR_CLOSE q 0]))
            = tokStep b (ExprToken.mk ET_SUBEXPR_OPEN p 0)
              :: passign (baseStep b (ExprToken.mk ET_SUBEXPR_OPEN p 0))
                (l1 ++ [ExprToken.mk ET_SUBEXPR_CLOSE q 0]) from rfl,
          tokStep_open, hbO, passign_append, I.2.1,
          show passign (b + 4) [ExprToken.mk ET_SUBEXPR_CLOSE q 0]
            = [tokStep (b + 4) (ExprToken.mk ET_SUBEXPR_CLOSE q 0)] from rfl,
          tokStep_close]
      have hfil : bfilter (passign b ((ExprToken.mk ET_SUBEXPR_OPEN p 0 :: l1)
            ++ [ExprToken.mk ET_SUBEXPR_CLOSE q 0]))
          = bfilter (passign (b + 4) l1) := by
        rw [hkey, bfilter_cons_drop _ _ (by simp), bfilter_append,
          show bfilter [ExprToken.mk ET_SUBEXPR_CLOSE q 0] = [] from by
            rw [bfilter_cons_drop _ _ (by simp), bfilter_nil],
          List.append_nil]
      refine ⟨?_, ?_, ?_, ?_, ?_, ?_⟩
      · rw [List.cons_append]
        refine ⟨by rw [hbO]; omega, ?_⟩
        rw [hbO]
        refine pok_append _ _ _ I.1 ?_
        rw [I.2.1]
        exact ⟨by rw [hbC]; exact hb0, trivial⟩
      · rw [List.cons_append,
          show pbase b (ExprToken.mk ET_SUBEXPR_OPEN p 0
              :: (l1 ++ [ExprToken.mk ET_SUBEXPR_CLOSE q 0]))
            = pbase (baseStep b (ExprToken.mk ET_SUBEXPR_OPEN p 0))
              (l1 ++ [ExprToken.mk ET_SUBEXPR_CLOSE q 0]) from rfl,
          hbO, pbase_append, I.2.1,
          show pbase (b + 4) [ExprToken.mk ET_SUBEXPR_CLOSE q 0]
            = baseStep (b + 4) (ExprToken.mk ET_SUBEXPR_CLOSE q 0) from rfl,
          hbC]
      · rw [hfil]
        exact I.2.2.1
      · intro t ht
        rw [hfil] at ht
        have := I.2.2.2.1 t ht
        rw [hlen]
        push_cast at this ⊢
        omega
      · intro t ht hbt
        rw [hfil] at ht
        have := I.2.2.2.2.1 t ht hbt
        rw [show minclass 3 = (1 : Int) from rfl] at this
        rw [show minclass 0 = (5 : Int) from rfl]
        omega
      · rw [hfil]
        exact I.2.2.2.2.2
  | up1 l v h ih =>
      intro b hb0 hblen hp0
      obtain ⟨R1, R2, R3, R4, R5, R6⟩ := ih b hb0 hblen hp0
      refine ⟨R1, R2, R3, R4, ?_, R6⟩
      intro t ht hbt
      have := R5 t ht hbt
      rw [show minclass 0 = (5 : Int) from rfl] at this
      rw [show minclass 1 = (3 : Int) from rfl]
      omega
  | up2 l v h ih =>
      intro b hb0 hblen hp0
      obtain ⟨R1, R2, R3, R4, R5, R6⟩ := ih b hb0 hblen hp0
      refine ⟨R1, R2, R3, R4, ?_, R6⟩
      intro t ht hbt
      have := R5 t ht hbt
      rw [show minclass 1 = (3 : Int) from rfl] at this
      rw [show minclass 2 = (2 : Int) from rfl]
      omega
  | up3 l v h ih =>
      intro b hb0 hblen hp0
      obtain ⟨R1, R2, R3, R4, R5, R6⟩ := ih b hb0 hblen hp0
      refine ⟨R1, R2, R3, R4, ?_, R6⟩
      intro t ht hbt
      have := R5 t ht hbt
      rw [show minclass 2 = (2 : Int) from rfl] at this
      rw [show minclass 3 = (1 : Int) from rfl]
      omega
  | mul p l1 l2 v1 v2 h1 h2 ih1 ih2 =>
      intro b hb0 hblen hp0
      have hlen : (l1 ++ ExprToken.mk ET_MULTIPLY p 0 :: l2).length
          = l1.length + l2.length + 1 := by
        simp only [List.length_append, List.length_cons]
        omega
      have I1 := ih1 b hb0 (by rw [hlen] at hblen; push_cast at hblen ⊢; omega)
        (fun t ht => hp0 t (List.mem_append.mpr (Or.inl ht)))
      have I2 := ih2 b hb0 (by rw [hlen] at hblen; push_cast at hblen ⊢; omega)
        (fun t ht => hp0 t (List.mem_append.mpr (Or.inr (List.mem_cons.mpr (Or.inr ht)))))
      have R := flatify_binop b l1 l2 ET_MULTIPLY p v1 v2 3 (minclass 1) (minclass 0)
        (by decide) (by decide) (by decide) (tokStep_mul b p 0) (by decide) (by decide)
        hb0 hblen (by show minclass 1 ≤ ((3 : Nat) : Int); decide)
        (by show ((3 : Nat) : Int) < minclass 0; decide)
        I1.1 I1.2.1 I1.2.2.1 I1.2.2.2.1 I1.2.2.2.2.1 I1.2.2.2.2.2
        I2.1 I2.2.1 I2.2.2.1 I2.2.2.2.1 I2.2.2.2.2.1 I2.2.2.2.2.2
      exact ⟨R.1, R.2.1, R.2.2.1, R.2.2.2.1, R.2.2.2.2.1, R.2.2.2.2.2⟩
  | div p l1 l2 v1 v2 h1 h2 ih1 ih2 =>
      intro b hb0 hblen hp0
      have hlen : (l1 ++ ExprToken.mk ET_DIVIDE p 0 :: l2).length
          = l1.length + l2.length + 1 := by
        simp only [List.length_append, List.length_cons]
        omega
      have I1 := ih1 b hb0 (by rw [hlen] at hblen; push_cast at hblen ⊢; omega)
        (fun t ht => hp0 t (List.mem_append.mpr (Or.inl ht)))
      have I2 := ih2 b hb0 (by rw [hlen] at hblen; push_cast at hblen ⊢; omega)
        (fun t ht => hp0 t (List.mem_append.mpr (Or.inr (List.mem_cons.mpr (Or.inr ht)))))
      have R := flatify_binop b l1 l2 ET_DIVIDE p v1 v2 3 (minclass 1) (minclass 0)
        (by decide) (by decide) (by decide) (tokStep_div b p 0) (by decide) (by decide)
        hb0 hblen (by show minclass 1 ≤ ((3 : Nat) : Int); decide)
        (by show ((3 : Nat) : Int) < minclass 0; decide)
        I1.1 I1.2.1 I1.2.2.1 I1.2.2.2.1 I1.2.2.2.2.1 I1.2.2.2.2.2
        I2.1 I2.2.1 I2.2.2.1 I2.2.2.2.1 I2.2.2.2.2.1 I2.2.2.2.2.2
      exact ⟨R.1, R.2.1, R.2.2.1, R.2.2.2.1, R.2.2.2.2.1, R.2.2.2.2.2⟩
  | rem p l1 l2 v1 v2 h1 h2 ih1 ih2 =>
      intro b hb0 hblen hp0
      have hlen : (l1 ++ ExprToken.mk ET_REMAINDER p 0 :: l2).length
          = l1.length + l2.length + 1 := by
        simp only [List.length_append, List.length_cons]
        omega
      have I1 := ih1 b hb0 (by rw [hlen] at hblen; push_cast at hblen ⊢; omega)
        (fun t ht => hp0 t (List.mem_append.mpr (Or.inl ht)))
      have I2 := ih2 b hb0 (by rw [hlen] at hblen; push_cast at hblen ⊢; omega)
        (fun t ht => hp0 t (List.mem_append.mpr (Or.inr (List.mem_cons.mpr (Or.inr ht)))))
      have R := flatify_binop b l1 l2 ET_REMAINDER p v1 v2 3 (minclass 1) (minclass 0)
        (by decide) (by decide) (by decide) (tokStep_rem b p 0) (by decide) (by decide)
        hb0 hblen (by show minclass 1 ≤ ((3 : Nat) : Int); decide)
        (by show ((3 : Nat) : Int) < minclass 0; decide)
        I1.1 I1.2.1 I1.2.2.1 I1.2.2.2.1 I1.2.2.2.2.1 I1.2.2.2.2.2
        I2.1 I2.2.1 I2.2.2.1 I2.2.2.2.1 I2.2.2.2.2.1 I2.2.2.2.2.2
      exact ⟨R.1, R.2.1, R.2.2.1, R.2.2.2.1, R.2.2.2.2.1, R.2.2.2.2.2⟩
  | add p l1 l2 v1 v2 h1 h2 ih1 ih2 =>
      intro b hb0 hblen hp0
      have hlen : (l1 ++ ExprToken.mk ET_ADD p 0 :: l2).length
          = l1.length + l2.length + 1 := by
        simp only [List.length_append, List.length_cons]
        omega
      have I1 := ih1 b hb0 (by rw [hlen] at hblen; push_cast at hblen ⊢; omega)
        (fun t ht => hp0 t (List.mem_append.mpr (Or.inl ht)))
      have I2 := ih2 b hb0 (by rw [hlen] at hblen; push_cast at hblen ⊢; omega)
        (fun t ht => hp0 t (List.mem_append.mpr (Or.inr (List.mem_cons.mpr (Or.inr ht)))))
      have R := flatify_binop b l1 l2 ET_ADD p v1 v2 2 (minclass 2) (minclass 1)
        (by decide) (by decide) (by decide) (tokStep_add b p 0) (by decide) (by decide)
        hb0 hblen (by show minclass 2 ≤ ((2 : Nat) : Int); decide)
        (by show ((2 : Nat) : Int) < minclass 1; decide)
        I1.1 I1.2.1 I1.2.2.1 I1.2.2.2.1 I1.2.2.2.2.1 I1.2.2.2.2.2
        I2.1 I2.2.1 I2.2.2.1 I2.2.2.2.1 I2.2.2.2.2.1 I2.2.2.2.2.2
      exact ⟨R.1, R.2.1, R.2.2.1, R.2.2.2.1, R.2.2.2.2.1, R.2.2.2.2.2⟩
  | sub p l1 l2 v1 v2 h1 h2 ih1 ih2 =>
      intro b hb0 hblen hp0
      have hlen : (l1 ++ ExprToken.mk ET_SUBTRACT p 0 :: l2).length
          = l1.length + l2.length + 1 := by
        simp only [List.length_append, List.length_cons]
        omega
      have I1 := ih1 b hb0 (by rw [hlen] at hblen; push_cast at hblen ⊢; omega)
        (fun t ht => hp0 t (List.mem_append.mpr (Or.inl ht)))
      have I2 := ih2 b hb0 (by rw [hlen] at hblen; push_cast at hblen ⊢; omega)
        (fun t ht => hp0 t (List.mem_append.mpr (Or.inr (List.mem_cons.mpr (Or.inr ht)))))
      have R := flatify_binop b l1 l2 ET_SUBTRACT p v1 v2 2 (minclass 2) (minclass 1)
        (by decide) (by decide) (by decide) (tokStep_sub b p 0) (by decide) (by decide)
        hb0 hblen (by show minclass 2 ≤ ((2 : Nat) : Int); decide)
        (by show ((2 : Nat) : Int) < minclass 1; decide)
        I1.1 I1.2.1 I1.2.2.1 I1.2.2.2.1 I1.2.2.2.2.1 I1.2.2.2.2.2
        I2.1 I2.2.1 I2.2.2.1 I2.2.2.2.1 I2.2.2.2.2.1 I2.2.2.2.2.2
      exact ⟨R.1, R.2.1, R.2.2.1, R.2.2.2.1, R.2.2.2.2.1, R.2.2.2.2.2⟩
  | band p l1 l2 v1 v2 h1 h2 ih1 ih2 =>
      intro b hb0 hblen hp0
      have hlen : (l1 ++ ExprToken.mk ET_AND p 0 :: l2).length
          = l1.length + l2.length + 1 := by
        simp only [List.length_append, List.length_cons]
        omega
      have I1 := ih1 b hb0 (by rw [hlen] at hblen; push_cast at hblen ⊢; omega)
        (fun t ht => hp0 t (List.mem_append.mpr (Or.inl ht)))
      have I2 := ih2 b hb0 (by rw [hlen] at hblen; push_cast at hblen ⊢; omega)
        (fun t ht => hp0 t (List.mem_append.mpr (Or.inr (List.mem_cons.mpr (Or.inr ht)))))
      have R := flatify_binop b l1 l2 ET_AND p v1 v2 1 (minclass 3) (minclass 2)
        (by decide) (by decide) (by decide) (tokStep_and b p 0) (by decide) (by decide)
        hb0 hblen (by show minclass 3 ≤ ((1 : Nat) : Int); decide)
        (by show ((1 : Nat) : Int) < minclass 2; decide)
        I1.1 I1.2.1 I1.2.2.1 I1.2.2.2.1 I1.2.2.2.2.1 I1.2.2.2.2.2
        I2.1 I2.2.1 I2.2.2.1 I2.2.2.2.1 I2.2.2.2.2.1 I2.2.2.2.2.2
      exact ⟨R.1, R.2.1, R.2.2.1, R.2.2.2.1, R.2.2.2.2.1, R.2.2.2.2.2⟩
  | bor p l1 l2 v1 v2 h1 h2 ih1 ih2 =>
      intro b hb0 hblen hp0
      have hlen : (l1 ++ ExprToken.mk ET_OR p 0 :: l2).length
          = l1.length + l2.length + 1 := by
        simp only [List.length_append, List.length_cons]
        omega
      have I1 := ih1 b hb0 (by rw [hlen] at hblen; push_cast at hblen ⊢; omega)
        (fun t ht => hp0 t (List.mem_append.mpr (Or.inl ht)))
      have I2 := ih2 b hb0 (by rw [hlen] at hblen; push_cast at hblen ⊢; omega)
        (fun t ht => hp0 t (List.mem_append.mpr (Or.inr (List.mem_cons.mpr (Or.inr ht)))))
      have R := flatify_binop b l1 l2 ET_OR p v1 v2 1 (minclass 3) (minclass 2)
        (by decide) (by decide) (by decide) (tokStep_or b p 0) (by decide) (by decide)
        hb0 hblen (by show minclass 3 ≤ ((1 : Nat) : Int); decide)
        (by show ((1 : Nat) : Int) < minclass 2; decide)
        I1.1 I1.2.1 I1.2.2.1 I1.2.2.2.1 I1.2.2.2.2.1 I1.2.2.2.2.2
        I2.1 I2.2.1 I2.2.2.1 I2.2.2.2.1 I2.2.2.2.2.1 I2.2.2.2.2.2
      exact ⟨R.1, R.2.1, R.2.2.1, R.2.2.2.1, R.2.2.2.2.1, R.2.2.2.2.2⟩
  | bxor p l1 l2 v1 v2 h1 h2 ih1 ih2 =>
      intro b hb0 hblen hp0
      have hlen : (l1 ++ ExprToken.mk ET_XOR p 0 :: l2).length
          = l1.length + l2.length + 1 := by
        simp only [List.length_append, List.length_cons]
        omega
      have I1 := ih1 b hb0 (by rw [hlen] at hblen; push_cast at hblen ⊢; omega)
        (fun t ht => hp0 t (List.mem_append.mpr (Or.inl ht)))
      have I2 := ih2 b hb0 (by rw [hlen] at hblen; push_cast at hblen ⊢; omega)
        (fun t ht => hp0 t (List.mem_append.mpr (Or.inr (List.mem_cons.mpr (Or.inr ht)))))
      have R := flatify_binop b l1 l2 ET_XOR p v1 v2 1 (minclass 3) (minclass 2)
        (by decide) (by decide) (by decide) (tokStep_xor b p 0) (by decide) (by decide)
        hb0 hblen (by show minclass 3 ≤ ((1 : Nat) : Int); decide)
        (by show ((1 : Nat) : Int) < minclass 2; decide)
        I1.1 I1.2.1 I1.2.2.1 I1.2.2.2.1 I1.2.2.2.2.1 I1.2.2.2.2.2
        I2.1 I2.2.1 I2.2.2.1 I2.2.2.2.1 I2.2.2.2.2.1 I2.2.2.2.2.2
      exact ⟨R.1, R.2.1, R.2.2.1, R.2.2.2.1, R.2.2.2.2.1, R.2.2.2.2.2⟩

/-! ## Tokenizer invariants: length, count monotonicity, untouched slots,
zero precedence of everything written -/

theorem tokenize_step_compose (ws : List ExprToken) (count : Nat) (tok : ExprToken)
    (res : List ExprToken × Nat)
    (hws : ws.length = 64) (hcnt : count < 64) (hprec : tok.precedence = 0)
    (H1 : res.1.length = 64) (H2 : count + 1 ≤ res.2)
    (H3 : ∀ j, j < count + 1 ∨ res.2 ≤ j → getTok res.1 j = getTok (ws.set count tok) j)
    (H4 : ∀ j, getTok res.1 j = getTok (ws.set count tok) j ∨
      (getTok res.1 j).precedence = 0) :
    res.1.length = 64 ∧ count ≤ res.2 ∧
    (∀ j, j < count ∨ res.2 ≤ j → getTok res.1 j = getTok ws j) ∧
    (∀ j, getTok res.1 j = getTok ws j ∨ (getTok res.1 j).precedence = 0) := by
  refine ⟨H1, by omega, ?_, ?_⟩
  · intro j hj
    rw [H3 j (by omega), getTok_set_ne _ _ _ _ (by omega)]
  · intro j
    rcases H4 j with h | h
    · by_cases hjc : j = count
      · right
        rw [h, hjc, getTok_set_self _ _ _ (by omega), hprec]
      · left
        rw [h, getTok_set_ne _ _ _ _ (fun he => hjc he.symm)]
    · right
      exact h

theorem tokenize_aux_inv (mem : Mem) (vars : Nat → Nat) (nlend endIdx : Nat) :
    ∀ (fuel index count : Nat) (ws ws1 : List ExprToken) (c1 : Nat),
    ws.length = 64 → count ≤ 64 →
    expr_tokenize_aux mem vars nlend endIdx fuel index ws count = (ws1, c1) →
    ws1.length = 64 ∧ count ≤ c1 ∧
    (∀ j, j < count ∨ c1 ≤ j → getTok ws1 j = getTok ws j) ∧
    (∀ j, getTok ws1 j = getTok ws j ∨ (getTok ws1 j).precedence = 0) := by
  intro fuel
  induction fuel with
  | zero =>
      intro index count ws ws1 c1 hws hcnt h
      rw [expr_tokenize_aux] at h
      injection h with ha hb
      subst ha
      subst hb
      exact ⟨hws, le_refl _, fun j _ => rfl, fun j => Or.inl rfl⟩
  | succ fuel ih =>
      intro index count ws ws1 c1 hws hcnt h
      rw [expr_tokenize_aux] at h
      have he64 : EXPR_MAX_TOKENS = 64 := rfl
      by_cases h1 : count = EXPR_MAX_TOKENS
      · rw [if_pos h1] at h
        injection h with ha hb
        subst ha
        subst hb
        exact ⟨hws, le_refl _, fun j _ => rfl, fun j => Or.inl rfl⟩
      · rw [if_neg h1] at h
        have hcnt64 : count < 64 := by omega
        by_cases h2 : index ≥ endIdx
        · rw [if_pos h2] at h
          injection h with ha hb
          subst ha
          subst hb
          exact ⟨hws, le_refl _, fun j _ => rfl, fun j => Or.inl rfl⟩
        · rw [if_neg h2] at h
          by_cases h3 : isdigitB (mem index) = true
          · rw [if_pos h3] at h
            cases hglit : get_literal_number mem nlend index with
            | none =>
                rw [hglit] at h
                injection h with ha hb
                subst ha
                subst hb
                refine ⟨hws, by omega, fun j _ => rfl, fun j => Or.inl rfl⟩
            | some v =>
                rw [hglit] at h
                have key := ih (index + alnumRun mem index) (count + 1)
                  (ws.set count (ExprToken.mk ET_VALUE 0 v)) ws1 c1
                  (by rw [List.length_set, hws]) (by omega) h
                exact tokenize_step_compose ws count _ (ws1, c1) hws hcnt64 rfl
                  key.1 key.2.1 key.2.2.1 key.2.2.2
          · rw [if_neg h3] at h
            by_cases h4 : isalphaB (mem index) = true
            · rw [if_pos h4] at h
              have key := ih (index + 1) (count + 1)
                (ws.set count (ExprToken.mk ET_VALUE 0 (vars (toupperB (mem index) - 65))))
                ws1 c1 (by rw [List.length_set, hws]) (by omega) h
              exact tokenize_step_compose ws count _ (ws1, c1) hws hcnt64 rfl
                key.1 key.2.1 key.2.2.1 key.2.2.2
            · rw [if_neg h4] at h
              by_cases h5 : mem index = 32 ∨ mem index = 9
              · rw [if_pos h5] at h
                exact ih (index + 1) count ws ws1 c1 hws hcnt h
              · rw [if_neg h5] at h
                by_cases h6 : opTokenType (mem index) = ET_NONE
                · rw [if_pos h6] at h
                  injection h with ha hb
                  subst ha
                  subst hb
                  refine ⟨hws, by omega, fun j _ => rfl, fun j => Or.inl rfl⟩
                · rw [if_neg h6] at h
                  have key := ih (index + 1) (count + 1)
                    (ws.set count (ExprToken.mk (opTokenType (mem index)) 0 0))
                    ws1 c1 (by rw [List.length_set, hws]) (by omega) h
                  exact tokenize_step_compose ws count _ (ws1, c1) hws hcnt64 rfl
                    key.1 key.2.1 key.2.2.1 key.2.2.2

theorem tokenize_entry (mem : Mem) (vars : Nat → Nat) (nlend index length : Nat)
    (ws1 : List ExprToken) (c1 : Nat)
    (ht : expr_tokenize mem vars nlend index length freshWs 0 = (ws1, c1)) :
    ws1.length = 64 ∧ (∀ j, (getTok ws1 j).precedence = 0) ∧
    (∀ j, c1 ≤ j → getTok ws1 j = ExprToken.mk 0 0 0) := by
  rw [expr_tokenize] at ht
  have key := tokenize_aux_inv mem vars nlend (index + length) (length + 1) index 0
    freshWs ws1 c1 (by simp [freshWs]) (by omega) ht
  refine ⟨key.1, ?_, ?_⟩
  · intro j
    rcases key.2.2.2 j with h | h
    · rw [h, getTok_freshWs]
    · exact h
  · intro j hj
    rw [key.2.2.1 j (Or.inr hj), getTok_freshWs]
    rfl

/-! ## Tokens of the live window have zero precedence -/

theorem take_prec0 (ws1 : List ExprToken) (c1 : Nat)
    (hprec : ∀ j, (getTok ws1 j).precedence = 0) :
    ∀ t ∈ ws1.take c1, t.precedence = 0 := by
  intro t ht
  obtain ⟨j, hj, he⟩ := List.mem_iff_getElem.mp ht
  have h2 : getTok (ws1.take c1) j = t := by
    rw [getTok_eq_getElem _ _ hj, he]
  have h3 : j < c1 := by
    rw [List.length_take] at hj
    omega
  rw [← h2, getTok_take ws1 c1 j h3]
  exact hprec j

/-! ## The full solver on a grammar-derivable token span -/

/-- If the tokenizer produces (within capacity) a token span whose image
derives a value `v` in the expression grammar, `expr_solve` returns exactly
`v` with no error. -/
theorem expr_solve_core_gram (mem : Mem) (vars : Nat → Nat) (nlend index length : Nat)
    (ws1 : List ExprToken) (c1 v : Nat)
    (ht : expr_tokenize mem vars nlend index length freshWs 0 = (ws1, c1))
    (hc : c1 < EXPR_MAX_TOKENS)
    (hg : Gram 3 (ws1.take c1) v) :
    (expr_solve_core mem vars nlend index length freshWs).1 = v ∧
    (expr_solve_core mem vars nlend index length freshWs).2.1 = false := by
  obtain ⟨hws1, hprec1, hstale⟩ := tokenize_entry mem vars nlend index length ws1 c1 ht
  have hc64 : c1 < 64 := hc
  set T := ws1.take c1 with hT
  have hTlen : T.length = c1 := by
    rw [hT, List.length_take]
    omega
  have hT63 : T.length ≤ 63 := by omega
  have hwinT : ∀ j, j < T.length → getTok ws1 j = getTok T j := by
    intro j hj
    rw [hT, getTok_take ws1 c1 j (by omega)]
  have htop : getTok ws1 T.length = ExprToken.mk 0 0 0 := by
    rw [hTlen]
    exact hstale c1 (le_refl _)
  have hpT : ∀ t ∈ T, t.precedence = 0 := take_prec0 ws1 c1 hprec1
  obtain ⟨l', hGU, hl1, hl2, hpl', huf⟩ := ufold_gram_entry T v hg hpT
  have U := ufold_sim_entry T ws1 hws1 hT63 htop hwinT
  have hE : (expr_reduce_unary ws1 c1).2.2 = false := by
    have h0 := U.1
    rw [huf] at h0
    rw [hTlen] at h0
    exact h0
  have hcntu : (expr_reduce_unary ws1 c1).2.1 = l'.length := by
    have h0 := U.2.1
    rw [huf] at h0
    rw [hTlen] at h0
    exact h0
  have hwsu : (expr_reduce_unary ws1 c1).1.length = 64 := by
    have h0 := U.2.2.1
    rw [hTlen] at h0
    exact h0
  have hwinu : ∀ j, j < l'.length → getTok (expr_reduce_unary ws1 c1).1 j = getTok l' j := by
    intro j hj
    have h0 := U.2.2.2 j (show j < (ufold T.length T).1.length by rw [huf]; exact hj)
    rw [huf] at h0
    rw [hTlen] at h0
    exact h0
  have hl63 : l'.length ≤ 63 := by omega
  obtain ⟨Fok, Fbase, Fflat, Fup, Flow, Feval⟩ := flatify 3 l' v hGU 0 (le_refl 0)
    (by omega) hpl'
  set FL := bfilter (passign 0 l') with hFL
  have hFLlen : FL.length ≤ l'.length := by
    rw [hFL, bfilter]
    exact le_trans (List.length_filter_le _ _) (le_of_eq (passign_length 0 l'))
  have hbound255 : ∀ t ∈ FL, t.precedence ≤ 255 := by
    intro t ht2
    have h0 := Fup t ht2
    push_cast at h0
    omega
  obtain ⟨ws2, hP, hws2, hwin2⟩ := calc_entry l' (expr_reduce_unary ws1 c1).1 hwsu
    (by omega) hwinu Fok Fbase
  obtain ⟨ws3, hFeq, hws3, hwin3⟩ := filter_entry (passign 0 l') ws2 hws2
    (by rw [passign_length]; omega)
    (by intro j hj; rw [passign_length] at hj; exact hwin2 j hj)
  rw [passign_length] at hFeq
  obtain ⟨ws4, hL, hws4, hval⟩ := expr_solve_loop_flat ws3 FL Fflat hws3 (by omega)
    hwin3 hbound255
  have hne64 : ¬ c1 = EXPR_MAX_TOKENS := by
    have h64 : EXPR_MAX_TOKENS = 64 := rfl
    omega
  have hcore : expr_solve_core mem vars nlend index length freshWs
      = ((getTok ws4 0).value, false, ws4, 1) := by
    simp only [expr_solve_core, ht]
    rw [if_neg hne64, hE]
    rw [if_neg Bool.false_ne_true, hcntu, hP]
    rw [if_neg Bool.false_ne_true, hFeq]
    rw [hL]
    rw [if_neg Bool.false_ne_true]
  rw [hcore]
  exact ⟨hval.trans Feval, rfl⟩

/-! ## Claim theorems -/

/-- C7 counterexample: the claim says every chained-unary span such as
`--5` is rejected with a syntax error (error flag set, result 0), but
`expr_solve` on the span `--5` (bytes 45, 45, 53) from a fresh workspace
returns the value 5 with the error flag clear. -/
theorem claim_C7_counterexample :
    (expr_solve_core (memOfBytes [45, 45, 53]) (fun _ => 0) 3 0 3 freshWs).1 = 5 ∧
    (expr_solve_core (memOfBytes [45, 45, 53]) (fun _ => 0) 3 0 3 freshWs).2.1 = false := by
  exact ⟨rfl, rfl⟩

/-- C7 amended: chained unary operators before a numeric VALUE are
accepted, not rejected: the right-to-left unary pass reduces each unary
operator against the already-reduced VALUE, so the chain evaluates to the
iterated application — `--5` yields 5, `-!5` yields 6 (negation of the
bitwise complement of 5), `!!7` yields 7, all with the error flag clear;
a unary operator followed by a non-VALUE token such as `(` (e.g. the span
`-(3)`) is still an error. -/
theorem claim_C7_chained_unary_applied :
    (expr_solve_core (memOfBytes [45, 45, 53]) (fun _ => 0) 3 0 3 freshWs).1 = 5 ∧
    (expr_solve_core (memOfBytes [45, 45, 53]) (fun _ => 0) 3 0 3 freshWs).2.1 = false ∧
    (expr_solve_core (memOfBytes [45, 33, 53]) (fun _ => 0) 3 0 3 freshWs).1 = 6 ∧
    (expr_solve_core (memOfBytes [45, 33, 53]) (fun _ => 0) 3 0 3 freshWs).2.1 = false ∧
    (expr_solve_core (memOfBytes [33, 33, 55]) (fun _ => 0) 3 0 3 freshWs).1 = 7 ∧
    (expr_solve_core (memOfBytes [33, 33, 55]) (fun _ => 0) 3 0 3 freshWs).2.1 = false ∧
    (expr_solve_core (memOfBytes [45, 40, 51, 41]) (fun _ => 0) 4 0 4 freshWs).2.1 = true := by
  refine ⟨rfl, rfl, rfl, rfl, rfl, rfl, rfl⟩

/-- C1 code bug: the claim (and the spec) say the current-line indicator
equals the executing record's line number throughout a RUN, so that
mode-restricted statements on any stored line are rejected and the run
then terminates.  In the code, the run loop stores each statement's
*directive* into `current_line` (`current_line = nextline`), so a record
reached by fall-through executes with `current_line = 0` (direct mode):
in the session that stores `10 REM` and `20 LIST` and types `RUN`, the
LIST on line 20 *executes* (the program listing appears in the output) and
no run-mode error is printed.  And when a mode-restricted statement *is*
reached with a nonzero `current_line` (via GOTO), the dispatcher discards
`print_error`'s value and returns directive 0, so the run *continues*: in
the session `10 GOTO 20` / `20 LIST` / `30 PRINT "z"` / `RUN`, the
run-mode error for line 20 is printed and line 30 still prints `z`. -/
theorem claim_C1_run_mode_divergence :
    ((session (strBytes ("10 REM\n20 LIST\nRUN\n")) 100 100).map (fun st =>
      (containsSeq (strBytes ("10 REM\n20 LIST\n")) st.output,
       containsSeq str_err_run_mode st.output))) = some (true, false) ∧
    ((session (strBytes ("10 GOTO 20\n20 LIST\n30 PRINT \"z\"\nRUN\n")) 100 100).map (fun st =>
      (containsSeq (str_err_at_line1 ++ strBytes ("20") ++ str_err_at_line2 ++ str_err_run_mode)
          st.output,
       containsSeq (strBytes ("z\n")) st.output))) = some (true, true) := by
  refine ⟨by decide, by decide⟩

/-- C5 code bug: the claim (and the spec, and the dead error branch in
`handle_run` itself) say a GOTO to a missing line prints "Line n not
found" and exits the run.  `get_line_index` returns `codemem_end + 2` for
a missing line, but `handle_run` compares the result against
`codemem_end`, so the not-found branch never fires; the loop instead
dispatches the bytes at `codemem_end + 2` — leftover shell input ("RUN"),
whose trailing `N` is an unknown command.  On the claim's own program
(`10 IF 1 = 1 THEN GOTO 99` / `20 PRINT "ok"` / `RUN`) the output
contains no "Line 99 not found" — it contains
"Error at line 99: Unknown command" instead — and (as the claim also
says) never `ok`. -/
theorem claim_C5_line_not_found_divergence :
    ((session (strBytes ("10 IF 1 = 1 THEN GOTO 99\n20 PRINT \"ok\"\nRUN\n")) 100 100).map
      (fun st =>
        (containsSeq (str_err_line_not_found1 ++ strBytes ("99") ++ str_err_line_not_found2)
            st.output,
         containsSeq (strBytes ("ok")) st.output,
         containsSeq (str_err_at_line1 ++ strBytes ("99") ++ str_err_at_line2 ++ str_err_unknown)
            st.output))) = some (false, false, true) := by
  decide

/-- C8 code bug: the claim (and the spec's propagation policy) say a
failing INPUT delivers TERMINATE to the run loop, stopping the run.  The
dispatcher's INPUT branch (`handle_input(index);` with no `return`, unlike
every other handler branch) discards the handler's `MAX_LINENUM` and falls
through to `return 0` (CONTINUE): in the session that runs
`10 INPUT A` / `20 PRINT "x"` and answers the INPUT prompt with `@`, the
expression error for line 10 is printed and line 20 still prints `x`. -/
theorem claim_C8_input_error_continues :
    ((session (strBytes ("10 INPUT A\n20 PRINT \"x\"\nRUN\n@\n")) 100 100).map (fun st =>
      (containsSeq (str_err_at_line1 ++ strBytes ("10") ++ str_err_at_line2 ++ str_err_expression)
          st.output,
       containsSeq (strBytes ("x\n")) st.output))) = some (true, true) := by
  decide

/-- C10: `expr_tokenize` (entered with the count reset to 0) never ends
with more than `EXPR_MAX_TOKENS = 64` live tokens — every store happens at
a count below 64 and bumps it by one, and both the invalid-byte and the
bad-literal paths jump the count straight to 64 — and whenever the final
count is 64, `expr_solve` bails out before any further phase, returning
value 0 with the error flag set.  Hence only spans tokenizing to at most
63 tokens can ever evaluate successfully. -/
theorem claim_C10_token_capacity (mem : Mem) (vars : Nat → Nat) (nlend index length : Nat)
    (ws0 : List ExprToken) :
    (expr_tokenize mem vars nlend index length ws0 0).2 ≤ EXPR_MAX_TOKENS ∧
    ((expr_tokenize mem vars nlend index length ws0 0).2 = EXPR_MAX_TOKENS →
      (expr_solve_core mem vars nlend index length ws0).1 = 0 ∧
      (expr_solve_core mem vars nlend index length ws0).2.1 = true) := by
  constructor
  · exact expr_tokenize_aux_count_le mem vars nlend (index + length) (length + 1) index ws0 0
      (by simp [EXPR_MAX_TOKENS])
  · intro hfull
    rw [expr_solve_core_of_full mem vars nlend index length ws0 hfull]
    exact ⟨rfl, rfl⟩

/-- C10 witness: the span consisting of the single invalid byte 64 (`@`)
marks the workspace full, and `expr_solve` on it errors with value 0. -/
theorem claim_C10_witness :
    (expr_tokenize (memOfBytes [64]) (fun _ => 0) 1 0 1 freshWs 0).2 ≤ EXPR_MAX_TOKENS ∧
    ((expr_solve_core (memOfBytes [64]) (fun _ => 0) 1 0 1 freshWs).1 = 0 ∧
      (expr_solve_core (memOfBytes [64]) (fun _ => 0) 1 0 1 freshWs).2.1 = true) := by
  have h := claim_C10_token_capacity (memOfBytes [64]) (fun _ => 0) 1 0 1 freshWs
  exact ⟨h.1, h.2 (by decide)⟩

/-- C9: for every representable `int32_t` value `n`, evaluating the canonical
signed decimal serialization of `n` with `expr_solve` yields exactly `n`
(including `n = -2147483648`), with the error flag clear. -/
theorem claim_C9_roundtrip (n : Int) (vars : Nat → Nat) (nlend : Nat)
    (h1 : -2147483648 ≤ n) (h2 : n < 2147483648) :
    (expr_solve_core (memOfBytes (serializeInt n)) vars nlend 0
        (serializeInt n).length freshWs).2.1 = false ∧
    toSigned (expr_solve_core (memOfBytes (serializeInt n)) vars nlend 0
        (serializeInt n).length freshWs).1 = n := by
  rcases lt_trichotomy n 0 with hneg | hzero | hpos
  · have hser : serializeInt n = 45 :: natDigits (-n).toNat := by
      rw [serializeInt, if_pos hneg]
    have hm1 : 1 ≤ (-n).toNat := by omega
    have hm2 : (-n).toNat < 4294967296 := by omega
    rw [hser]
    have hlen : (45 :: natDigits (-n).toNat).length = (natDigits (-n).toNat).length + 1 := by
      simp
    rw [hlen]
    have ht := expr_tokenize_negdigits (-n).toNat hm1 hm2 vars nlend
    have hmod : (-n).toNat % W = (-n).toNat := Nat.mod_eq_of_lt (by simp only [W]; omega)
    rw [hmod] at ht
    have hc := expr_solve_core_neg_value (memOfBytes (45 :: natDigits (-n).toNat)) vars nlend 0
      ((natDigits (-n).toNat).length + 1) (-n).toNat ht
    refine ⟨hc.2, ?_⟩
    rw [hc.1, toSigned_neg32 (-n).toNat hm1 (by omega)]
    omega
  · subst hzero
    have hser : serializeInt 0 = [48] := by
      rw [serializeInt, if_neg (by omega), Int.toNat_zero, natDigits, dif_pos (by omega)]
    rw [hser]
    have hlen : ([48] : List Nat).length = 1 := rfl
    rw [hlen]
    have hc := expr_solve_core_single_value (memOfBytes [48]) vars nlend 0 1 0
      (expr_tokenize_zero vars nlend)
    exact ⟨hc.2, by rw [hc.1]; rfl⟩
  · have hser : serializeInt n = natDigits n.toNat := by
      rw [serializeInt, if_neg (by omega)]
    have hm1 : 1 ≤ n.toNat := by omega
    have hm2 : n.toNat < 4294967296 := by omega
    rw [hser]
    have ht := expr_tokenize_digits n.toNat hm1 hm2 vars nlend
    have hmod : n.toNat % W = n.toNat := Nat.mod_eq_of_lt (by simp only [W]; omega)
    rw [hmod] at ht
    have hc := expr_solve_core_single_value (memOfBytes (natDigits n.toNat)) vars nlend 0
      (natDigits n.toNat).length n.toNat ht
    refine ⟨hc.2, ?_⟩
    rw [hc.1, toSigned_of_lt n.toNat (by omega)]
    omega

theorem claim_C9_witness :
    (expr_solve_core (memOfBytes (serializeInt (-2147483648))) (fun _ => 0) 11 0
        (serializeInt (-2147483648)).length freshWs).2.1 = false ∧
    toSigned (expr_solve_core (memOfBytes (serializeInt (-2147483648))) (fun _ => 0) 11 0
        (serializeInt (-2147483648)).length freshWs).1 = -2147483648 :=
  claim_C9_roundtrip (-2147483648) (fun _ => 0) 11 (by decide) (by decide)

/-- C2 (amended): on every expression span whose tokenization fits the
workspace and whose token image derives a value `v` in the reference
grammar (precedence classes, left-to-right associativity, parentheses
overriding), `expr_solve` returns exactly `v` with the error flag clear. -/
theorem claim_C2_grammar_value (mem : Mem) (vars : Nat → Nat) (nlend index length : Nat)
    (ws1 : List ExprToken) (c1 v : Nat)
    (ht : expr_tokenize mem vars nlend index length freshWs 0 = (ws1, c1))
    (hc : c1 < EXPR_MAX_TOKENS)
    (hg : Gram 3 (ws1.take c1) v) :
    (expr_solve_core mem vars nlend index length freshWs).1 = v ∧
    (expr_solve_core mem vars nlend index length freshWs).2.1 = false :=
  expr_solve_core_gram mem vars nlend index length ws1 c1 v ht hc hg

/-- C2 counterexample to the original claim: the span consisting of `(`
then `)` is accepted by `expr_solve` without error (value 0), yet its
token image derives no value in the reference grammar. -/
theorem claim_C2_counterexample :
    (expr_solve_core (memOfBytes [40, 41]) (fun _ => 0) 2 0 2 freshWs).2.1 = false ∧
    (expr_solve_core (memOfBytes [40, 41]) (fun _ => 0) 2 0 2 freshWs).1 = 0 ∧
    expr_tokenize (memOfBytes [40, 41]) (fun _ => 0) 2 0 2 freshWs 0
      = ((freshWs.set 0 ⟨ET_SUBEXPR_OPEN, 0, 0⟩).set 1 ⟨ET_SUBEXPR_CLOSE, 0, 0⟩, 2) ∧
    ¬ ∃ lvl v, Gram lvl [⟨ET_SUBEXPR_OPEN, 0, 0⟩, ⟨ET_SUBEXPR_CLOSE, 0, 0⟩] v :=
  ⟨(expr_solve_core_parens (fun _ => 0) 2).2, (expr_solve_core_parens (fun _ => 0) 2).1,
   expr_tokenize_parens (fun _ => 0) 2, gram_no_empty_brackets⟩

/-- Witness: the span `1+2*3` tokenizes to five tokens, its token image
derives 7 in the reference grammar, and `expr_solve` returns 7, error-free. -/
theorem claim_C2_witness :
    expr_tokenize (memOfBytes [49, 43, 50, 42, 51]) (fun _ => 0) 5 0 5 freshWs 0
      = (((((freshWs.set 0 ⟨ET_VALUE, 0, 1⟩).set 1 ⟨ET_ADD, 0, 0⟩).set 2
          ⟨ET_VALUE, 0, 2⟩).set 3 ⟨ET_MULTIPLY, 0, 0⟩).set 4 ⟨ET_VALUE, 0, 3⟩, 5) ∧
    5 < EXPR_MAX_TOKENS ∧
    Gram 3 ((((((freshWs.set 0 ⟨ET_VALUE, 0, 1⟩).set 1 ⟨ET_ADD, 0, 0⟩).set 2
        ⟨ET_VALUE, 0, 2⟩).set 3 ⟨ET_MULTIPLY, 0, 0⟩).set 4 ⟨ET_VALUE, 0, 3⟩).take 5) 7 ∧
    (expr_solve_core (memOfBytes [49, 43, 50, 42, 51]) (fun _ => 0) 5 0 5 freshWs).1 = 7 ∧
    (expr_solve_core (memOfBytes [49, 43, 50, 42, 51]) (fun _ => 0) 5 0 5 freshWs).2.1
      = false := by
  have htok : expr_tokenize (memOfBytes [49, 43, 50, 42, 51]) (fun _ => 0) 5 0 5 freshWs 0
      = (((((freshWs.set 0 ⟨ET_VALUE, 0, 1⟩).set 1 ⟨ET_ADD, 0, 0⟩).set 2
          ⟨ET_VALUE, 0, 2⟩).set 3 ⟨ET_MULTIPLY, 0, 0⟩).set 4 ⟨ET_VALUE, 0, 3⟩, 5) := by
    decide
  have hg : Gram 3 ((((((freshWs.set 0 ⟨ET_VALUE, 0, 1⟩).set 1 ⟨ET_ADD, 0, 0⟩).set 2
      ⟨ET_VALUE, 0, 2⟩).set 3 ⟨ET_MULTIPLY, 0, 0⟩).set 4 ⟨ET_VALUE, 0, 3⟩).take 5) 7 := by
    have e : (((((freshWs.set 0 ⟨ET_VALUE, 0, 1⟩).set 1 ⟨ET_ADD, 0, 0⟩).set 2
        ⟨ET_VALUE, 0, 2⟩).set 3 ⟨ET_MULTIPLY, 0, 0⟩).set 4 ⟨ET_VALUE, 0, 3⟩).take 5
        = [⟨ET_VALUE, 0, 1⟩, ⟨ET_ADD, 0, 0⟩, ⟨ET_VALUE, 0, 2⟩, ⟨ET_MULTIPLY, 0, 0⟩,
            ⟨ET_VALUE, 0, 3⟩] := by decide
    have e7 : (7 : Nat) = add32 1 (mul32 2 3) := by decide
    have hg1 : Gram 1 [⟨ET_VALUE, 0, 2⟩, ⟨ET_MULTIPLY, 0, 0⟩, ⟨ET_VALUE, 0, 3⟩]
        (mul32 2 3) := by
      have e2 : [(⟨ET_VALUE, 0, 2⟩ : ExprToken), ⟨ET_MULTIPLY, 0, 0⟩, ⟨ET_VALUE, 0, 3⟩]
          = [(⟨ET_VALUE, 0, 2⟩ : ExprToken)] ++ ⟨ET_MULTIPLY, 0, 0⟩ :: [⟨ET_VALUE, 0, 3⟩] :=
        rfl
      rw [e2]
      exact Gram.mul 0 _ _ 2 3 (Gram.up1 _ _ (Gram.value 0 2)) (Gram.value 0 3)
    have hg2 : Gram 3 [⟨ET_VALUE, 0, 1⟩, ⟨ET_ADD, 0, 0⟩, ⟨ET_VALUE, 0, 2⟩,
        ⟨ET_MULTIPLY, 0, 0⟩, ⟨ET_VALUE, 0, 3⟩] (add32 1 (mul32 2 3)) := by
      have e2 : [(⟨ET_VALUE, 0, 1⟩ : ExprToken), ⟨ET_ADD, 0, 0⟩, ⟨ET_VALUE, 0, 2⟩,
          ⟨ET_MULTIPLY, 0, 0⟩, ⟨ET_VALUE, 0, 3⟩]
          = [(⟨ET_VALUE, 0, 1⟩ : ExprToken)] ++ ⟨ET_ADD, 0, 0⟩
              :: [⟨ET_VALUE, 0, 2⟩, ⟨ET_MULTIPLY, 0, 0⟩, ⟨ET_VALUE, 0, 3⟩] := rfl
      rw [e2]
      exact Gram.up3 _ _ (Gram.add 0 _ _ 1 (mul32 2 3)
        (Gram.up2 _ _ (Gram.up1 _ _ (Gram.value 0 1))) hg1)
    rw [e, e7]
    exact hg2
  have hmain := claim_C2_grammar_value (memOfBytes [49, 43, 50, 42, 51]) (fun _ => 0) 5 0 5
    _ 5 7 htok (by decide) hg
  exact ⟨htok, by decide, hg, hmain.1, hmain.2⟩

/-- C6 counterexample: two `expr_solve` invocations on the identical span
`1+` with identical variable values return different error flags. -/
theorem claim_C6_counterexample :
    (expr_solve_core (memOfBytes [49, 43]) (fun _ => 0) 2 0 2 freshWs).2.1 = true ∧
    (expr_solve_core (memOfBytes [49, 43]) (fun _ => 0) 2 0 2
      (expr_solve_core (memOfBytes [49, 43, 50, 43, 51]) (fun _ => 0) 5 0 5
        freshWs).2.2.1).2.1 = false := by
  exact ⟨by decide, by decide⟩

/-- C6 (corrected): only the token count is reset on entry to a solve; the
64-slot workspace array persists, its stale slots are read, and the result
of a solve on identical span bytes (`1+`) with identical variable values
differs depending on the residue of the preceding solve (`1+2+3`): an
expression error on a fresh workspace, value 4 with no error afterwards. -/
theorem claim_C6_workspace_persistence :
    (expr_solve_core (memOfBytes [49, 43]) (fun _ => 0) 2 0 2 freshWs).2.1 = true ∧
    (expr_solve_core (memOfBytes [49, 43]) (fun _ => 0) 2 0 2 freshWs).1 = 0 ∧
    (expr_solve_core (memOfBytes [49, 43]) (fun _ => 0) 2 0 2
      (expr_solve_core (memOfBytes [49, 43, 50, 43, 51]) (fun _ => 0) 5 0 5
        freshWs).2.2.1).2.1 = false ∧
    (expr_solve_core (memOfBytes [49, 43]) (fun _ => 0) 2 0 2
      (expr_solve_core (memOfBytes [49, 43, 50, 43, 51]) (fun _ => 0) 5 0 5
        freshWs).2.2.1).1 = 4 := by
  exact ⟨by decide, by decide, by decide, by decide⟩

/-- C4 (corrected): the out-of-memory threshold and the deletion-first
behaviour of `store_newline` on a well-formed store with a staged
`linenum body` line. -/
theorem claim_C4_oom_threshold (R : List (Nat × List Nat)) (n : Nat) (body : List Nat)
    (vars0 : Nat → Nat) (ws0 : List ExprToken) (cnt0 cl0 : Nat) (inp0 out0 : List Nat)
    (hgood : goodRecs R) (hasc : recsAsc R)
    (hn1 : 1 ≤ n) (hn2 : n < 10000)
    (hb : 1 ≤ body.length)
    (hb0 : ¬ isblankB (body.getD 0 0))
    (hbl : ¬ isblankB (body.getD (body.length - 1) 0))
    (hscan : (encodeRecs R).length + ((natDigits n).length + 1 + body.length) < SCAN_FUEL) :
    ((store_newline (mkEditState R (natDigits n ++ 32 :: body) vars0 ws0 cnt0 cl0 inp0 out0)
        (encodeRecs R).length).output
      = (if CODE_MEMORY_SIZE - ((encodeRecs R).length - recsDelLen R n) < body.length + 8
         then out0 ++ str_err_out_of_memory else out0)) ∧
    (CODE_MEMORY_SIZE - ((encodeRecs R).length - recsDelLen R n) < body.length + 8 →
      (store_newline (mkEditState R (natDigits n ++ 32 :: body) vars0 ws0 cnt0 cl0 inp0 out0)
          (encodeRecs R).length).codemem_end
        = (encodeRecs R).length - recsDelLen R n ∧
      get_line_index
          (store_newline (mkEditState R (natDigits n ++ 32 :: body) vars0 ws0 cnt0 cl0 inp0
            out0) (encodeRecs R).length).codemem
          ((encodeRecs R).length - recsDelLen R n) n
        = (encodeRecs R).length - recsDelLen R n + 2 ∧
      parseRecords
          (store_newline (mkEditState R (natDigits n ++ 32 :: body) vars0 ws0 cnt0 cl0 inp0
            out0) (encodeRecs R).length).codemem
          ((encodeRecs R).length - recsDelLen R n)
        = some ((recsDelete R n).map (fun r => (r.1, r.2.length)))) :=
  store_newline_oom_trace R n body vars0 ws0 cnt0 cl0 inp0 out0 hgood hasc hn1 hn2 hb hb0
    hbl hscan

/-- C4 counterexample to the original claim: free space 28 bytes, new body
21 bytes — the original threshold `free < len + 3` does not fire, yet the
code reports out of memory (threshold `len + 8`); and the old record for
line 90 has already been deleted when the error is reported. -/
theorem claim_C4_counterexample :
    (store_newline (mkEditState [(50, List.replicate 8161 66), (90, [88])]
        (natDigits 90 ++ 32 :: List.replicate 21 66) (fun _ => 0) freshWs 0 0 [] [])
        (encodeRecs [(50, List.replicate 8161 66), (90, [88])]).length).output
      = str_err_out_of_memory ∧
    (store_newline (mkEditState [(50, List.replicate 8161 66), (90, [88])]
        (natDigits 90 ++ 32 :: List.replicate 21 66) (fun _ => 0) freshWs 0 0 [] [])
        (encodeRecs [(50, List.replicate 8161 66), (90, [88])]).length).codemem_end
      = 8164 ∧
    ¬ (CODE_MEMORY_SIZE - 8164 < (List.replicate (21 : Nat) (66 : Nat)).length + 3) ∧
    get_line_index
      (store_newline (mkEditState [(50, List.replicate 8161 66), (90, [88])]
        (natDigits 90 ++ 32 :: List.replicate 21 66) (fun _ => 0) freshWs 0 0 [] [])
        (encodeRecs [(50, List.replicate 8161 66), (90, [88])]).length).codemem
      8164 90 = 8164 + 2 := by
  rw [R0_len]
  have htr := store_newline_oom_trace [(50, List.replicate 8161 66), (90, [88])] 90
    (List.replicate 21 66) (fun _ => 0) freshWs 0 0 [] [] R0_good R0_asc (by norm_num)
    (by norm_num) (by simp) (by decide) (by decide)
    (by rw [R0_len, natDigits_90]; simp [SCAN_FUEL, CODE_MEMORY_SIZE])
  rw [R0_len, R0_dellen, show (8168 : Nat) - 4 = 8164 from by norm_num] at htr
  have hcond : CODE_MEMORY_SIZE - 8164 < (List.replicate 21 66 : List Nat).length + 8 := by
    simp [CODE_MEMORY_SIZE]
  obtain ⟨hout, himp⟩ := htr
  rw [if_pos hcond] at hout
  obtain ⟨hce, hgl, hpar⟩ := himp hcond
  rw [List.nil_append] at hout
  refine ⟨hout, hce, ?_, hgl⟩
  decide

theorem claim_C4_witness :
    ((store_newline (mkEditState [(50, List.replicate 8161 66), (90, [88])]
        (natDigits 90 ++ 32 :: List.replicate 21 66) (fun _ => 0) freshWs 0 0 [] [])
        (encodeRecs [(50, List.replicate 8161 66), (90, [88])]).length).output
      = (if CODE_MEMORY_SIZE
            - ((encodeRecs [(50, List.replicate 8161 66), (90, [88])]).length
              - recsDelLen [(50, List.replicate 8161 66), (90, [88])] 90)
          < (List.replicate 21 66 : List Nat).length + 8
         then ([] : List Nat) ++ str_err_out_of_memory else [])) ∧
    (CODE_MEMORY_SIZE
        - ((encodeRecs [(50, List.replicate 8161 66), (90, [88])]).length
          - recsDelLen [(50, List.replicate 8161 66), (90, [88])] 90)
      < (List.replicate 21 66 : List Nat).length + 8 →
      (store_newline (mkEditState [(50, List.replicate 8161 66), (90, [88])]
          (natDigits 90 ++ 32 :: List.replicate 21 66) (fun _ => 0) freshWs 0 0 [] [])
          (encodeRecs [(50, List.replicate 8161 66), (90, [88])]).length).codemem_end
        = (encodeRecs [(50, List.replicate 8161 66), (90, [88])]).length
          - recsDelLen [(50, List.replicate 8161 66), (90, [88])] 90 ∧
      get_line_index
          (store_newline (mkEditState [(50, List.replicate 8161 66), (90, [88])]
            (natDigits 90 ++ 32 :: List.replicate 21 66) (fun _ => 0) freshWs 0 0 [] [])
            (encodeRecs [(50, List.replicate 8161 66), (90, [88])]).length).codemem
          ((encodeRecs [(50, List.replicate 8161 66), (90, [88])]).length
            - recsDelLen [(50, List.replicate 8161 66), (90, [88])] 90) 90
        = (encodeRecs [(50, List.replicate 8161 66), (90, [88])]).length
          - recsDelLen [(50, List.replicate 8161 66), (90, [88])] 90 + 2 ∧
      parseRecords
          (store_newline (mkEditState [(50, List.replicate 8161 66), (90, [88])]
            (natDigits 90 ++ 32 :: List.replicate 21 66) (fun _ => 0) freshWs 0 0 [] [])
            (encodeRecs [(50, List.replicate 8161 66), (90, [88])]).length).codemem
          ((encodeRecs [(50, List.replicate 8161 66), (90, [88])]).length
            - recsDelLen [(50, List.replicate 8161 66), (90, [88])] 90)
        = some ((recsDelete [(50, List.replicate 8161 66), (90, [88])] 90).map
            (fun r => (r.1, r.2.length)))) :=
  claim_C4_oom_threshold [(50, List.replicate 8161 66), (90, [88])] 90
    (List.replicate 21 66) (fun _ => 0) freshWs 0 0 [] [] R0_good R0_asc (by norm_num)
    (by norm_num) (by simp) (by decide) (by decide)
    (by rw [R0_len, natDigits_90]; simp [SCAN_FUEL, CODE_MEMORY_SIZE])
